import Mathlib

/-!
Verification development for the `shared-memory-datastructures` repository.

The repository implements two shared-memory containers, `ShareableMap` and
`ShareableArray`, whose whole state lives inside two flat byte buffers (an
index region and a data region) accessed through big-endian `DataView`
reads and writes, plus a pluggable value-encoding layer
(`NumberEncoder`, `StringEncoder`, `GeneralPurposeEncoder`).

This file is a shallow embedding of that code:

* byte regions become a `Buf` structure (a size together with a total
  byte-valued memory function); `DataView.getUint32`/`setUint32` etc.
  become the corresponding `Buf` operations (big-endian, as `DataView`
  defaults);
* JS numbers that index buffers are `Nat`; stores truncate modulo `2^32`
  exactly as `setUint32` does (`Int` input so that the JS subtractions
  that can go negative wrap the same way);
* JS strings are modelled by `Str := List Nat`, a list of Unicode scalar
  values; UTF-16 views (string `length`, `charCodeAt`) and the UTF-8
  encoder/decoder used by `TextEncoder`/`TextDecoder` are defined on it;
* `while` loops become fuel-indexed structural recursion returning
  `Option`; `none` plays the role of a loop that does not terminate
  within the (arbitrarily large) fuel, so `some` results are exactly the
  completed executions of the source;
* the stateful classes become explicit state passing on `MapCore` /
  `ArrayCore` structures.

Throughout, definitions follow the TypeScript sources statement by
statement; their doc comments cite the source file.
-/

set_option maxRecDepth 100000

namespace SMDS

/-! ## Basic numeric helpers -/

/-- Two to the power 32, the modulus of all 32-bit stores. -/
def pow32 : Nat := 4294967296

/-- Two to the power 16. -/
def pow16 : Nat := 65536

/-! ## Strings

A JS string is modelled as a list of Unicode scalar values (code points
outside the surrogate range).  All string data appearing in the claims is
ASCII; the UTF-16 unit expansion below is only needed because
`fnv-plus`'s `fast1a32` and `String.length` work on UTF-16 code units.
-/

/-- A JS string, as its list of Unicode scalar values. -/
abbrev Str : Type := List Nat

/-- UTF-16 code units of one scalar value (surrogate pair above `0x10000`). -/
def utf16UnitsOfScalar (c : Nat) : List Nat :=
  if c < 65536 then [c]
  else [55296 + (c - 65536) / 1024, 56320 + (c - 65536) % 1024]

/-- UTF-16 code-unit sequence of a string (what `charCodeAt` iterates). -/
def utf16Units (s : Str) : List Nat := s.flatMap utf16UnitsOfScalar

/-- JS `String.prototype.length`: the number of UTF-16 code units. -/
def utf16Length (s : Str) : Nat := (utf16Units s).length

/-- UTF-8 bytes of one Unicode scalar value (what `TextEncoder` emits). -/
def utf8Bytes (c : Nat) : List Nat :=
  if c < 128 then [c]
  else if c < 2048 then [192 + c / 64, 128 + c % 64]
  else if c < 65536 then [224 + c / 4096, 128 + c / 64 % 64, 128 + c % 64]
  else [240 + c / 262144, 128 + c / 4096 % 64, 128 + c / 64 % 64, 128 + c % 64]

/-- UTF-8 encoding of a whole string (`TextEncoder.encode`/`encodeInto` on a
well-formed string). -/
def utf8Encode (s : Str) : List Nat := s.flatMap utf8Bytes

/-- Whether a code point is a Unicode scalar value (encodable in UTF-8). -/
def ScalarValue (c : Nat) : Prop := c < 1114112 ∧ ¬ (55296 ≤ c ∧ c < 57344)

instance : DecidablePred ScalarValue := fun c => by
  unfold ScalarValue; infer_instance

/-- A well-formed JS string: every element is a Unicode scalar value. -/
def StrOk (s : Str) : Prop := ∀ c ∈ s, ScalarValue c

instance : DecidablePred StrOk := fun s => by
  unfold StrOk; infer_instance

/-- Fuel-indexed body of the UTF-8 decoder; every step consumes at least one
byte, so any fuel of at least the list's length gives the full decode. -/
def utf8DecodeGo : Nat → List Nat → Str
  | 0, _ => []
  | _ + 1, [] => []
  | fuel + 1, b :: rest =>
    if b < 128 then b :: utf8DecodeGo fuel rest
    else if 194 ≤ b ∧ b < 224 then
      match rest with
      | c1 :: rest' =>
        if 128 ≤ c1 ∧ c1 < 192 then
          ((b - 192) * 64 + (c1 - 128)) :: utf8DecodeGo fuel rest'
        else 65533 :: utf8DecodeGo fuel rest
      | [] => [65533]
    else if 224 ≤ b ∧ b < 240 then
      match rest with
      | c1 :: c2 :: rest' =>
        if 128 ≤ c1 ∧ c1 < 192 ∧ 128 ≤ c2 ∧ c2 < 192 ∧
            2048 ≤ (b - 224) * 4096 + (c1 - 128) * 64 + (c2 - 128) ∧
            ¬ (55296 ≤ (b - 224) * 4096 + (c1 - 128) * 64 + (c2 - 128) ∧
               (b - 224) * 4096 + (c1 - 128) * 64 + (c2 - 128) < 57344) then
          ((b - 224) * 4096 + (c1 - 128) * 64 + (c2 - 128)) :: utf8DecodeGo fuel rest'
        else 65533 :: utf8DecodeGo fuel rest
      | _ => 65533 :: utf8DecodeGo fuel rest
    else if 240 ≤ b ∧ b < 245 then
      match rest with
      | c1 :: c2 :: c3 :: rest' =>
        if 128 ≤ c1 ∧ c1 < 192 ∧ 128 ≤ c2 ∧ c2 < 192 ∧ 128 ≤ c3 ∧ c3 < 192 ∧
            65536 ≤ (b - 240) * 262144 + (c1 - 128) * 4096 + (c2 - 128) * 64 + (c3 - 128) ∧
            (b - 240) * 262144 + (c1 - 128) * 4096 + (c2 - 128) * 64 + (c3 - 128) < 1114112 then
          ((b - 240) * 262144 + (c1 - 128) * 4096 + (c2 - 128) * 64 + (c3 - 128)) ::
            utf8DecodeGo fuel rest'
        else 65533 :: utf8DecodeGo fuel rest
      | _ => 65533 :: utf8DecodeGo fuel rest
    else 65533 :: utf8DecodeGo fuel rest

/-- UTF-8 decoding (`TextDecoder.decode`).  Overlong forms, encoded
surrogates and out-of-range sequences yield the replacement character
`0xFFFD` and decoding resumes after the offending lead byte.  The claims
decode only bytes previously produced by `utf8Encode`, where this agrees
with `TextDecoder` exactly. -/
def utf8Decode (l : List Nat) : Str := utf8DecodeGo l.length l

/-! ## FNV-1a hashing

`ShareableMap` hashes keys with `fast1a32` from the `fnv-plus` package
(an external dependency, not part of this repository): 32-bit FNV-1a
folded over the UTF-16 code units of the string, with the multiplication
by the prime `16777619` performed modulo `2^32`. -/

/-- One FNV-1a step on a 32-bit accumulator. -/
def fnv1a32Step (h c : Nat) : Nat := ((h ^^^ c) * 16777619) % pow32

/-- The `fast1a32` hash of `fnv-plus`, over the string's UTF-16 code units. -/
def fast1a32 (s : Str) : Nat := (utf16Units s).foldl fnv1a32Step 2166136261

/-! ## Byte sequences for multi-byte integer fields (big-endian) -/

/-- Big-endian bytes of a 16-bit value (after truncation mod `2^16`). -/
def u16Bytes (v : Nat) : List Nat := [v % pow16 / 256, v % 256]

/-- Big-endian bytes of a 32-bit value (after truncation mod `2^32`). -/
def u32Bytes (v : Nat) : List Nat :=
  [v % pow32 / 16777216, v % 16777216 / 65536, v % 65536 / 256, v % 256]

/-- Big-endian bytes of a 64-bit value (after truncation mod `2^64`). -/
def u64Bytes (v : Nat) : List Nat :=
  u32Bytes (v % 18446744073709551616 / pow32) ++ u32Bytes v

/-- Reassemble a big-endian 32-bit value from the first four list entries. -/
def u32OfBytes (l : List Nat) : Nat :=
  (l.getD 0 0) * 16777216 + (l.getD 1 0) * 65536 + (l.getD 2 0) * 256 + l.getD 3 0

/-- Reassemble a big-endian 64-bit value from the first eight list entries. -/
def u64OfBytes (l : List Nat) : Nat := u32OfBytes l * pow32 + u32OfBytes (l.drop 4)

/-- Interpret a 32-bit pattern as a signed value (`DataView.getInt32`). -/
def int32OfNat (v : Nat) : Int :=
  if v < 2147483648 then (v : Int) else (v : Int) - (pow32 : Int)

/-- The 32-bit pattern of a signed value (`DataView.setInt32`). -/
def natOfInt32 (v : Int) : Nat := (v % (pow32 : Int)).toNat

/-! ## Byte regions

A `Buf` models one `SharedArrayBuffer`/`ArrayBuffer` viewed through a
`DataView`: `size` is `byteLength` and `mem` the byte contents (always
reduced mod 256 on store; fresh buffers are zero-filled).  All multi-byte
accesses are big-endian, the `DataView` default used throughout the
sources. -/

structure Buf where
  size : Nat
  mem : Nat → Nat

/-- A fresh zero-filled buffer of `n` bytes. -/
def Buf.alloc (n : Nat) : Buf := ⟨n, fun _ => 0⟩

/-- Read one byte (`DataView.getUint8`). -/
def Buf.getUint8 (b : Buf) (i : Nat) : Nat := b.mem i % 256

/-- Store one byte (`DataView.setUint8`), truncating mod 256. -/
def Buf.setUint8 (b : Buf) (i v : Nat) : Buf :=
  ⟨b.size, fun j => if j = i then v % 256 else b.mem j⟩

/-- Read a big-endian 16-bit word (`DataView.getUint16`). -/
def Buf.getUint16 (b : Buf) (i : Nat) : Nat := b.getUint8 i * 256 + b.getUint8 (i + 1)

/-- Store a big-endian 16-bit word (`DataView.setUint16`). -/
def Buf.setUint16 (b : Buf) (i v : Nat) : Buf :=
  ((b.setUint8 i (v % pow16 / 256)).setUint8 (i + 1) (v % 256))

/-- Read a big-endian 32-bit word (`DataView.getUint32`). -/
def Buf.getUint32 (b : Buf) (i : Nat) : Nat :=
  b.getUint8 i * 16777216 + b.getUint8 (i + 1) * 65536 +
    b.getUint8 (i + 2) * 256 + b.getUint8 (i + 3)

/-- Store a big-endian 32-bit word (`DataView.setUint32`).  The argument is
an `Int` because JS arithmetic feeding these stores can go negative; the
store applies the JS `ToUint32` conversion (mod `2^32`). -/
def Buf.setUint32 (b : Buf) (i : Nat) (v : Int) : Buf :=
  let w := (v % (pow32 : Int)).toNat
  ((((b.setUint8 i (w / 16777216)).setUint8 (i + 1) (w / 65536 % 256)).setUint8
      (i + 2) (w / 256 % 256)).setUint8 (i + 3) (w % 256))

/-- Write a list of bytes at consecutive offsets (`Uint8Array.prototype.set`
of an encoder's output into a window of the data region). -/
def Buf.writeBytes (b : Buf) (i : Nat) : List Nat → Buf
  | [] => b
  | v :: rest => (b.setUint8 i v).writeBytes (i + 1) rest

/-- Read `len` bytes starting at offset `i` (the copy into the scratch
decoder buffer before decoding). -/
def Buf.readBytes (b : Buf) (i len : Nat) : List Nat :=
  (List.range len).map (fun k => b.getUint8 (i + k))

/-! ## JS numbers and the built-in encoders

`src/encoding/NumberEncoder.ts` branches on `Number.isInteger(value)`, so a
JS number is modelled as either an integer (`intVal`) or a non-integer
finite number carried as its IEEE-754 double bit pattern (`floatVal`);
`setFloat64`/`getFloat64` move exactly those 64 bits, big-endian. -/

inductive JsNumber where
  | intVal : Int → JsNumber
  | floatVal : Nat → JsNumber
deriving DecidableEq

namespace NumberEncoder

/-- NumberEncoder.encode (src/encoding/NumberEncoder.ts 16-27): tag byte 0
and `setInt32` for integers, tag byte 1 and `setFloat64` otherwise.  The
returned list is the bytes written; its length is the encoder's return
value (5 or 9). -/
def encode : JsNumber → List Nat
  | .intVal n => 0 :: u32Bytes (natOfInt32 n)
  | .floatVal bits => 1 :: u64Bytes bits

/-- NumberEncoder.decode (src/encoding/NumberEncoder.ts 4-14): the first
byte selects `getInt32(1)` or `getFloat64(1)`. -/
def decode (buffer : List Nat) : JsNumber :=
  if buffer.getD 0 0 = 0 then .intVal (int32OfNat (u32OfBytes (buffer.drop 1)))
  else .floatVal (u64OfBytes (buffer.drop 1))

/-- NumberEncoder.maximumLength (src/encoding/NumberEncoder.ts 29-31). -/
def maximumLength : JsNumber → Nat
  | .intVal _ => 5
  | .floatVal _ => 9

end NumberEncoder

namespace StringEncoder

/-- StringEncoder.encode (src/encoding/StringEncoder.ts 18-38): UTF-8 bytes
of the string via `TextEncoder.encodeInto`, copied into the destination;
the returned list is those bytes, its length the written count. -/
def encode (s : Str) : List Nat := utf8Encode s

/-- StringEncoder.decode (src/encoding/StringEncoder.ts 14-16):
`TextDecoder.decode`. -/
def decode (buffer : List Nat) : Str := utf8Decode buffer

/-- StringEncoder.maximumLength (src/encoding/StringEncoder.ts 45-47):
`value.length * 3` in UTF-16 code units. -/
def maximumLength (s : Str) : Nat := utf16Length s * 3

end StringEncoder

/-! ## Decimal digits (for the general-purpose encoder's text form) -/

/-- Fuel-indexed most-significant-first decimal digit emitter. -/
def natDigitsGo : Nat → Nat → List Nat
  | 0, _ => []
  | fuel + 1, n =>
    if n < 10 then [48 + n] else natDigitsGo fuel (n / 10) ++ [48 + n % 10]

/-- Decimal digit characters of a natural number. -/
def natDigits (n : Nat) : List Nat := natDigitsGo (n + 1) n

/-- Value of a most-significant-first decimal digit-character list. -/
def digitsToNat (l : List Nat) : Nat := l.foldl (fun a d => a * 10 + (d - 48)) 0

/-! ## JS values and the general-purpose encoder

The map's `getEncoder` dispatches on `typeof value`; a stored JS value is
therefore a number or a string (claims never store other objects, and no
custom serializer is configured in any claim). -/

inductive Value where
  | vnum : JsNumber → Value
  | vstr : Str → Value
deriving DecidableEq

namespace GeneralPurposeEncoder

/-- Modelled from the spec: the repository's `GeneralPurposeEncoder` source
file is not under `src/` (only imports of it are), and §4.2 of the spec
describes it as "canonical serialization (text-based structural form) of
arbitrary composite values" with an over-approximating `max_len`.  We model
the canonical text form by a leading marker character (`i` integer, `f`
non-integer number as its bit pattern, `s` string) followed by the value's
text, which is canonical and injective on the values handled in this
development. -/
def canon : Value → Str
  | .vnum (.intVal n) =>
    if n < 0 then 105 :: 45 :: natDigits (-n).toNat else 105 :: natDigits n.toNat
  | .vnum (.floatVal bits) => 102 :: natDigits bits
  | .vstr s => 115 :: s

/-- Modelled from the spec: inverse of `canon`, dispatching on the marker. -/
def parseCanon : Str → Option Value
  | [] => none
  | m :: rest =>
    if m = 105 then
      if rest.head? = some 45 then some (.vnum (.intVal (-(digitsToNat (rest.drop 1) : Int))))
      else some (.vnum (.intVal (digitsToNat rest)))
    else if m = 102 then some (.vnum (.floatVal (digitsToNat rest)))
    else if m = 115 then some (.vstr rest)
    else none

/-- Modelled from the spec: the encoder writes the UTF-8 bytes of the
canonical text form. -/
def encode (v : Value) : List Nat := utf8Encode (canon v)

/-- Modelled from the spec: decode the text and parse the canonical form. -/
def decode (buffer : List Nat) : Option Value := parseCanon (utf8Decode buffer)

/-- Modelled from the spec: an over-approximation of the encoded size. -/
def maximumLength (v : Value) : Nat := 3 * utf16Length (canon v)

end GeneralPurposeEncoder

/-- A value all of whose strings are well-formed (no lone surrogates):
exactly the values a JS program can hand the encoders without the
`TextEncoder` replacing code points. -/
def ValueOk : Value → Prop
  | .vstr s => StrOk s
  | .vnum _ => True

instance : DecidablePred ValueOk := fun v => by
  unfold ValueOk
  match v with
  | .vstr s => infer_instance
  | .vnum _ => infer_instance

/-! ## Encoder dispatch inside the containers

`getEncoder` (src part_007 662-674 and part_002 763-775) prefers a custom
serializer; none is configured in any claim, so the model dispatches on
the runtime type only: numbers to `NumberEncoder` (id 0), strings to
`StringEncoder` (id 1), everything else to `GeneralPurposeEncoder`
(id 2; unreachable for `Value`). -/

/-- Encoder id chosen by `getEncoder` for a value. -/
def valueEncoderId : Value → Nat
  | .vnum _ => 0
  | .vstr _ => 1

/-- Bytes written when the chosen encoder encodes the value. -/
def encodeValue : Value → List Nat
  | .vnum n => NumberEncoder.encode n
  | .vstr s => StringEncoder.encode s

/-- The chosen encoder's `maximumLength` for a value. -/
def maximumLengthValue : Value → Nat
  | .vnum n => NumberEncoder.maximumLength n
  | .vstr s => StringEncoder.maximumLength s

/-- Decoder selection by stored id, `getEncoderById` (src part_007 676-678):
`[numberEncoder, stringEncoder, generalPurposeEncoder, serializer][id]`;
index 3 is the (absent) custom serializer, whose use would fail. -/
def decodeValueById (id : Nat) (buffer : List Nat) : Option Value :=
  match id with
  | 0 => some (.vnum (NumberEncoder.decode buffer))
  | 1 => some (.vstr (StringEncoder.decode buffer))
  | 2 => GeneralPurposeEncoder.decode buffer
  | _ => none

/-! ## Memory allocation (claim C7)

Both classes allocate regions through an `allocateMemory(byteSize)`
method.  Whether `new SharedArrayBuffer` / `new ArrayBuffer` succeed is a
property of the runtime environment, modelled by two flags. -/

/-- Runtime environment for allocation attempts. -/
structure AllocEnv where
  sharedOk : Bool
  localOk : Bool

/-- The kind of backing memory an allocation produced. -/
inductive Backing where
  | shared
  | localOnly
deriving DecidableEq

/-- ShareableMap.allocateMemory (src part_007 823-835): try
`SharedArrayBuffer`, fall back to `ArrayBuffer`, and only if both throw
surface a capacity error. -/
def mapAllocateMemory (env : AllocEnv) (byteSize : Nat) : Except String Backing :=
  if env.sharedOk then .ok .shared
  else if env.localOk then .ok .localOnly
  else .error ("Could not allocated memory. Tried to allocate " ++ toString byteSize ++ " bytes.")

/-- TransferableDataStructure.allocateMemory
(src/TransferableDataStructure.ts 10-16), inherited by `ShareableArray`:
try `SharedArrayBuffer` and surface an error as soon as that throws —
there is no `ArrayBuffer` fallback in this method. -/
def tdsAllocateMemory (env : AllocEnv) (byteSize : Nat) : Except String Backing :=
  if env.sharedOk then .ok .shared
  else .error ("Could not allocate memory. Tried to allocate " ++ toString byteSize ++ " bytes.")

/-! ## ShareableArray (src part_002)

State is the pair of regions.  Index layout: `length` at byte 0,
`free_start` at 4, `used_space` at 8, the slot table from byte 12 on
(`INDEX_TABLE_OFFSET = 12`); data entries carry an 8-byte header
(`DATA_OBJECT_OFFSET = 8`: encoder id then value length).  Slot value 1
(`UNDEFINED_VALUE_IDENTIFIER`) marks an explicitly absent element.

Loops of the source whose bound is re-read from the state
(`i < this.length`) are translated as count-based recursion that re-checks
the loop condition each step; the counts passed at the call sites are the
iteration counts of the source loops (whose bodies never write the byte
holding `length`), so the translation runs the same iterations. -/

structure ArrayCore where
  idx : Buf
  dat : Buf

namespace ShareableArray

/-- ShareableArray.length (src part_002 125-127). -/
def length (st : ArrayCore) : Nat := st.idx.getUint32 0

/-- ShareableArray freeStart getter (src part_002 754-757). -/
def freeStart (st : ArrayCore) : Nat := st.idx.getUint32 4

/-- ShareableArray usedSpace read (`INDEX_TOTAL_USED_SPACE_OFFSET`). -/
def usedSpace (st : ArrayCore) : Nat := st.idx.getUint32 8

/-- ShareableArray.reset (src part_002 978-984): fresh 256-byte index and
2048-byte data regions, all zero. -/
def reset : ArrayCore := ⟨Buf.alloc 256, Buf.alloc 2048⟩

/-- ShareableArray.doubleIndexStorage (src part_002 919-928). -/
def doubleIndexStorage (st : ArrayCore) : ArrayCore :=
  { st with idx := ⟨st.idx.size * 2, fun i => if i < st.idx.size then st.idx.mem i else 0⟩ }

/-- ShareableArray.doubleDataStorage (src part_002 930-939). -/
def doubleDataStorage (st : ArrayCore) : ArrayCore :=
  { st with dat := ⟨st.dat.size * 2, fun i => if i < st.dat.size then st.dat.mem i else 0⟩ }

/-- Byte-copy loop of ShareableArray.defragment (src part_002 959-961):
copy `count` bytes from `srcPos` in the data region to `dstPos` in the
scratch region. -/
def defragCopyBytes (dat : Buf) (srcPos : Nat) (newView : Buf) (dstPos : Nat) : Nat → Buf
  | 0 => newView
  | count + 1 =>
    defragCopyBytes dat (srcPos + 1) (newView.setUint8 dstPos (dat.getUint8 srcPos)) (dstPos + 1)
      count

/-- Main loop of ShareableArray.defragment (src part_002 954-968), iterating
`i` over positions while `i < this.length`. -/
def defragLoop (st : ArrayCore) (newView : Buf) (currentDataStart i : Nat) :
    Nat → ArrayCore × Buf × Nat
  | 0 => (st, newView, currentDataStart)
  | count + 1 =>
    if i < length st then
      let currentDataPos := st.idx.getUint32 (12 + 4 * i)
      let currentObjectLength := st.dat.getUint32 (currentDataPos + 4) + 8
      let newView := defragCopyBytes st.dat currentDataPos newView currentDataStart
        currentObjectLength
      let st := { st with idx := st.idx.setUint32 (12 + 4 * i) currentDataStart }
      -- `currentObjectLength` already contains DATA_OBJECT_OFFSET, yet the
      -- source adds the offset once more (src part_002 967).
      defragLoop st newView (currentDataStart + currentObjectLength + 8) (i + 1) count
    else (st, newView, currentDataStart)

/-- ShareableArray.defragment (src part_002 946-976): pack entries into a
scratch buffer, copy it back over the data region, update `free_start`. -/
def defragment (st : ArrayCore) : ArrayCore :=
  let newData : Buf := Buf.alloc st.dat.size
  let (st, newData, currentDataStart) := defragLoop st newData 0 0 (length st)
  let dat' : Buf := ⟨st.dat.size, fun i => if i < st.dat.size then newData.mem i else st.dat.mem i⟩
  let st := { st with dat := dat' }
  { st with idx := st.idx.setUint32 4 currentDataStart }

/-- Right-shift loop of ShareableArray.addOrSetItem (src part_002 843-849):
`for (let i = currentLength; i > index; i--)` moving slots one to the
right. -/
def shiftRight (idx : Buf) (index i : Nat) : Nat → Buf
  | 0 => idx
  | count + 1 =>
    if index < i then
      shiftRight (idx.setUint32 (12 + 4 * i) (idx.getUint32 (12 + 4 * (i - 1)))) index (i - 1)
        count
    else idx

/-- Left-shift loop of ShareableArray.deleteItem (src part_002 902-904):
`for (let i = index; i < this.length; i++)` moving slots one to the
left. -/
def shiftLeft (st : ArrayCore) (i : Nat) : Nat → ArrayCore
  | 0 => st
  | count + 1 =>
    if i < length st then
      shiftLeft
        { st with idx := st.idx.setUint32 (12 + 4 * i) (st.idx.getUint32 (12 + 4 * (i + 1))) }
        (i + 1) count
    else st

/-- ShareableArray.deleteItem (src part_002 897-917). -/
def deleteItem (st : ArrayCore) (index : Nat) : ArrayCore :=
  let dataPos := st.idx.getUint32 (12 + 4 * index)
  let st := shiftLeft st index (length st - index)
  let st :=
    if dataPos ≠ 1 then
      let valueLength := st.dat.getUint32 (dataPos + 4)
      { st with idx := st.idx.setUint32 8 ((usedSpace st : Int) - (valueLength + 8 : Nat)) }
    else st
  { st with idx := st.idx.setUint32 0 ((st.idx.getUint32 0 : Int) - 1) }

/-- ShareableArray.addOrSetItem (src part_002 781-866). -/
def addOrSetItem (st : ArrayCore) (index : Nat) (item : Option Value) : ArrayCore :=
  let st := if 12 + 4 * index ≥ st.idx.size then doubleIndexStorage st else st
  let st := if index < length st then deleteItem st index else st
  let st :=
    match item with
    | none => { st with idx := st.idx.setUint32 (12 + 4 * index) 1 }
    | some item =>
      let maxValueLength := maximumLengthValue item
      let valueEncoderId := valueEncoderId item
      let dataStart := st.idx.getUint32 4
      let st :=
        if dataStart + (maxValueLength + 8) ≥ st.dat.size then
          if 2 * st.idx.getUint32 8 < st.dat.size ∧
              st.idx.getUint32 8 + maxValueLength + 8 < st.dat.size then
            defragment st
          else doubleDataStorage st
        else st
      let exactBytes := encodeValue item
      let exactValueLength := exactBytes.length
      let st := { st with dat := st.dat.writeBytes (freeStart st + 8) exactBytes }
      let st := { st with dat := st.dat.setUint32 (freeStart st) valueEncoderId }
      let st := { st with dat := st.dat.setUint32 (freeStart st + 4) exactValueLength }
      let st :=
        if index = length st then
          { st with idx := st.idx.setUint32 (12 + 4 * index) (freeStart st) }
        else
          let currentLength := length st
          let st := { st with idx := shiftRight st.idx index currentLength (currentLength - index) }
          { st with idx := st.idx.setUint32 (12 + 4 * index) (freeStart st) }
      let st := { st with idx := st.idx.setUint32 8 (usedSpace st + exactValueLength + 8) }
      { st with idx := st.idx.setUint32 4 (freeStart st + exactValueLength + 8) }
  { st with idx := st.idx.setUint32 0 (st.idx.getUint32 0 + 1) }

/-- ShareableArray.readItem (src part_002 868-895). -/
def readItem (st : ArrayCore) (index : Nat) : Option Value :=
  let size := st.idx.getUint32 0
  if index ≥ size then none
  else
    let dataPos := st.idx.getUint32 (12 + 4 * index)
    if dataPos = 1 then none
    else
      let valueEncoderId := st.dat.getUint32 dataPos
      let valueLength := st.dat.getUint32 (dataPos + 4)
      decodeValueById valueEncoderId (st.dat.readBytes (dataPos + 8) valueLength)

/-- ShareableArray.at (src part_002 557-559); `at` is a Lean keyword, so
the definition is named `atIndex`. -/
def atIndex (st : ArrayCore) (index : Nat) : Option Value := readItem st index

/-- ShareableArray.set (src part_002 553-555). -/
def setItem (st : ArrayCore) (index : Nat) (value : Option Value) : ArrayCore :=
  addOrSetItem st index value

/-- Loop of ShareableArray.push (src part_002 293-301): `currentIdx` starts
at the current length and increments per pushed item. -/
def pushGo (st : ArrayCore) (currentIdx : Nat) : List (Option Value) → ArrayCore
  | [] => st
  | item :: items => pushGo (addOrSetItem st currentIdx item) (currentIdx + 1) items

/-- ShareableArray.push (src part_002 293-301). -/
def push (st : ArrayCore) (items : List (Option Value)) : ArrayCore :=
  pushGo st (length st) items

/-- ShareableArray constructor (src part_002 52-66): reset then push the
initial items. -/
def construct (items : List (Option Value)) : ArrayCore := push reset items

end ShareableArray

/-! ## ShareableMap (src part_007)

State is the two regions plus the backing kind of the index region (locks
are no-ops on a non-shared backing) and a ghost trace recording every call
of a lock method, used to state the locking claims.

Index layout (header then bucket table, `INDEX_TABLE_OFFSET = 24`):
size 0, buckets_in_use 4, free_start 8, lock_state 12, used_space 16,
read_count 20.  Data entries carry a 20-byte header
(`DATA_OBJECT_OFFSET = 20`): next 0, key_length 4, value_length 8,
key_kind 12 (16-bit), value_encoder_id 14 (16-bit), hash 16.

The map's keys are JS strings in every claim; `stringifyElement` JSON-
stringifies other key types first, so the embedding instantiates the key
type parameter `K` to strings (where `stringifyElement` is the identity
and the stored `key_kind` tag is 1).

Every `while` loop takes fuel and yields `none` on exhaustion; bounded
`for` loops over the bucket table take their iteration count.  A `some`
result is exactly a completed execution of the source. -/

/-- A call of one of the four lock methods (ghost trace element). -/
inductive LockEvent where
  | acquireRead
  | releaseRead
  | acquireWrite
  | releaseWrite
deriving DecidableEq

structure MapCore where
  idx : Buf
  dat : Buf
  shared : Bool
  events : List LockEvent

namespace ShareableMap

/-- ShareableMap.buckets getter (src part_007 448-450). -/
def buckets (st : MapCore) : Nat := (st.idx.size - 24) / 4

/-- ShareableMap.getBucketsInUse (src part_007 455-457). -/
def getBucketsInUse (st : MapCore) : Nat := st.idx.getUint32 4

/-- ShareableMap.incrementBucketsInUse (src part_007 462-464). -/
def incrementBucketsInUse (st : MapCore) : MapCore :=
  { st with idx := st.idx.setUint32 4 (getBucketsInUse st + 1) }

/-- ShareableMap freeStart getter (src part_007 470-473). -/
def freeStart (st : MapCore) : Nat := st.idx.getUint32 8

/-- ShareableMap freeStart setter (src part_007 481-483). -/
def setFreeStart (st : MapCore) (position : Nat) : MapCore :=
  { st with idx := st.idx.setUint32 8 position }

/-- ShareableMap.increaseSize (src part_007 488-490). -/
def increaseSize (st : MapCore) : MapCore :=
  { st with idx := st.idx.setUint32 0 (st.idx.getUint32 0 + 1) }

/-- ShareableMap.decreaseSize (src part_007 492-494). -/
def decreaseSize (st : MapCore) : MapCore :=
  { st with idx := st.idx.setUint32 0 ((st.idx.getUint32 0 : Int) - 1) }

/-- ShareableMap spaceUsedInDataPartition getter (src part_007 496-498). -/
def spaceUsed (st : MapCore) : Nat := st.idx.getUint32 16

/-- ShareableMap spaceUsedInDataPartition setter (src part_007 506-508). -/
def setSpaceUsed (st : MapCore) (size : Int) : MapCore :=
  { st with idx := st.idx.setUint32 16 size }

/-- ShareableMap.stringifyElement (src part_007 516-524) at key type
string: `typeof el === "string"`, so the value is returned unchanged. -/
def stringifyElement (el : Str) : Str := el

/-- ShareableMap.computeHashAndBucket (src part_007 536-541): FNV-1a hash
and the byte offset of the bucket inside the table (already times 4). -/
def computeHashAndBucket (st : MapCore) (key : Str) : Nat × Nat :=
  let hash := fast1a32 key
  (hash, hash % buckets st * 4)

/-- ShareableMap.readHashFromDataObject (src part_007 731-733). -/
def readHashFromDataObject (st : MapCore) (startPos : Nat) : Nat :=
  st.dat.getUint32 (startPos + 16)

/-- ShareableMap.readKeyFromDataObject (src part_007 740-751): copy the key
bytes to the scratch buffer and `TextDecoder.decode` them. -/
def readKeyFromDataObject (st : MapCore) (startPos : Nat) : Str :=
  utf8Decode (st.dat.readBytes (startPos + 20) (st.dat.getUint32 (startPos + 4)))

/-- ShareableMap.readTypedKeyFromDataObject (src part_007 753-761): a
`key_kind` tag of 1 returns the decoded string itself; other tags would
`JSON.parse` it (excluded by the string key type of this embedding). -/
def readTypedKeyFromDataObject (st : MapCore) (startPos : Nat) : Str :=
  let stringKey := readKeyFromDataObject st startPos
  if st.dat.getUint16 (startPos + 12) = 1 then stringKey else stringKey

/-- ShareableMap.readValueFromDataObject (src part_007 768-781): select the
decoder recorded at offset 14 and decode the value bytes (copied to the
scratch buffer first). -/
def readValueFromDataObject (st : MapCore) (startPos : Nat) : Option Value :=
  let keyLength := st.dat.getUint32 (startPos + 4)
  let valueLength := st.dat.getUint32 (startPos + 8)
  decodeValueById (st.dat.getUint16 (startPos + 14))
    (st.dat.readBytes (startPos + 20 + keyLength) valueLength)

/-- ShareableMap.findValue (src part_007 709-724): follow the chain from
`startPos`, returning the entry position (and, when `readValue`, the
decoded value) at the first hash-and-key match, or `some none` when the
chain ends.  Fuel exhaustion gives `none`. -/
def findValue (st : MapCore) (startPos : Nat) (key : Str) (hash : Nat) (readValue : Bool) :
    Nat → Option (Option (Nat × Option Value))
  | 0 => none
  | fuel + 1 =>
    if startPos = 0 then some none
    else
      let readHash := readHashFromDataObject st startPos
      if readHash = hash ∧ key = readKeyFromDataObject st startPos then
        some (some (startPos, if readValue then readValueFromDataObject st startPos else none))
      else findValue st (st.dat.getUint32 startPos) key hash readValue fuel

/-- ShareableMap.updateLinkedPointer (src part_007 688-693): walk `dataView`
links from `startPos` to the chain tail and point the tail at
`nextBlock`. -/
def updateLinkedPointer (dataView : Buf) (startPos nextBlock : Nat) : Nat → Option Buf
  | 0 => none
  | fuel + 1 =>
    if dataView.getUint32 startPos ≠ 0 then
      updateLinkedPointer dataView (dataView.getUint32 startPos) nextBlock fuel
    else some (dataView.setUint32 startPos nextBlock)

/-- Unlink walk of ShareableMap.deleteItem (src part_007 244-250): find the
predecessor of the first block whose stored hash equals `hash` and point it
at `nextBlock`. -/
def deleteUnlink (dat : Buf) (previousBlock currentBlock hash nextBlock : Nat) :
    Nat → Option Buf
  | 0 => none
  | fuel + 1 =>
    if dat.getUint32 (currentBlock + 16) ≠ hash then
      deleteUnlink dat currentBlock (dat.getUint32 currentBlock) hash nextBlock fuel
    else some (dat.setUint32 previousBlock nextBlock)

/-- ShareableMap.deleteItem (src part_007 222-259). -/
def deleteItem (st : MapCore) (key : Str) (fuel : Nat) : Option (Bool × MapCore) := do
  let stringKey := stringifyElement key
  let (hash, bucket) := computeHashAndBucket st stringKey
  let bucketLink := st.idx.getUint32 (bucket + 24)
  let returnValue ← findValue st bucketLink stringKey hash true fuel
  match returnValue with
  | none => some (false, st)
  | some (startPos, _) =>
    let keyLength := st.dat.getUint32 (startPos + 4)
    let valueLength := st.dat.getUint32 (startPos + 8)
    let nextBlock := st.dat.getUint32 startPos
    let st ←
      if bucketLink = startPos then
        some { st with idx := st.idx.setUint32 (bucket + 24) nextBlock }
      else do
        let dat' ← deleteUnlink st.dat bucketLink (st.dat.getUint32 bucketLink) hash nextBlock
          fuel
        some { st with dat := dat' }
    let st := setSpaceUsed st ((spaceUsed st : Int) - (20 + keyLength + valueLength : Nat))
    let st := decreaseSize st
    some (true, st)

/-- Byte-copy loop of ShareableMap.defragment (src part_007 566-568). -/
def mapDefragCopyBytes (dat : Buf) (srcPos : Nat) (newView : Buf) (dstPos : Nat) :
    Nat → Buf
  | 0 => newView
  | count + 1 =>
    mapDefragCopyBytes dat (srcPos + 1) (newView.setUint8 dstPos (dat.getUint8 srcPos))
      (dstPos + 1) count

/-- Inner chain loop of ShareableMap.defragment (src part_007 560-583):
copy each chained entry into the scratch buffer, zero its copied next
pointer and rebuild the bucket's chain inside the scratch buffer. -/
def mapDefragChain (st : MapCore) (newView : Buf) (newOffset : Nat) (bucket : Nat)
    (dataPointer : Nat) : Nat → Option (MapCore × Buf × Nat)
  | 0 => none
  | fuel + 1 =>
    if dataPointer = 0 then some (st, newView, newOffset)
    else do
      let keyLength := st.dat.getUint32 (dataPointer + 4)
      let valueLength := st.dat.getUint32 (dataPointer + 8)
      let totalLength := keyLength + valueLength + 20
      let newView := mapDefragCopyBytes st.dat dataPointer newView newOffset totalLength
      let newView := newView.setUint32 newOffset 0
      let currentBucketLink := st.idx.getUint32 (24 + bucket * 4)
      let (st, newView) ←
        if currentBucketLink = 0 then
          some ({ st with idx := st.idx.setUint32 (24 + bucket * 4) newOffset }, newView)
        else do
          let newView ← updateLinkedPointer newView currentBucketLink newOffset fuel
          some (st, newView)
      mapDefragChain st newView (newOffset + totalLength) bucket (st.dat.getUint32 dataPointer)
        fuel

/-- Outer bucket loop of ShareableMap.defragment (src part_007 554-584). -/
def mapDefragBuckets (st : MapCore) (newView : Buf) (newOffset : Nat) (bucket : Nat) :
    Nat → Nat → Option (MapCore × Buf × Nat)
  | 0, _ => some (st, newView, newOffset)
  | count + 1, fuel =>
    if bucket < buckets st then do
      let dataPointer := st.idx.getUint32 (24 + bucket * 4)
      let st := { st with idx := st.idx.setUint32 (24 + bucket * 4) 0 }
      let (st, newView, newOffset) ← mapDefragChain st newView newOffset bucket dataPointer fuel
      mapDefragBuckets st newView newOffset (bucket + 1) count fuel
    else some (st, newView, newOffset)

/-- Copy-back loop of ShareableMap.defragment (src part_007 586-588):
`for (let i = 0; i < byteLength; i += 4)`. -/
def mapDefragCopyBack (dat newView : Buf) (i : Nat) : Nat → Buf
  | 0 => dat
  | count + 1 =>
    if i < dat.size then
      mapDefragCopyBack (dat.setUint32 i (newView.getUint32 i)) newView (i + 4) count
    else dat

/-- ShareableMap.defragment (src part_007 548-590). -/
def defragment (st : MapCore) (fuel : Nat) : Option MapCore := do
  let newData : Buf := Buf.alloc st.dat.size
  let (st, newView, newOffset) ← mapDefragBuckets st newData 4 0 (buckets st) fuel
  let st := { st with dat := mapDefragCopyBack st.dat newView 0 (st.dat.size / 4 + 1) }
  some (setFreeStart st newOffset)

/-- ShareableMap.doubleDataStorage (src part_007 596-610): double below
512 MiB, afterwards grow by 256 MiB; contents are copied over. -/
def doubleDataStorage (st : MapCore) : MapCore :=
  let newSize :=
    if st.dat.size > 536870912 then st.dat.size + 268435456 else st.dat.size * 2
  { st with dat := ⟨newSize, fun i => if i < st.dat.size then st.dat.mem i else 0⟩ }

/-- Inner chain loop of ShareableMap.doubleIndexStorage (src part_007
629-648): move each entry of an old chain into the bucket for its stored
hash modulo the new bucket count, zeroing its next pointer. -/
def rehashChain (dat : Buf) (newIndexView : Buf) (newBuckets bucketsInUse startPos : Nat) :
    Nat → Option (Buf × Buf × Nat)
  | 0 => none
  | fuel + 1 =>
    if startPos = 0 then some (dat, newIndexView, bucketsInUse)
    else do
      let hash := dat.getUint32 (startPos + 16)
      let newBucket := hash % newBuckets
      let newBucketContent := newIndexView.getUint32 (24 + newBucket * 4)
      let (newIndexView, bucketsInUse, dat) ←
        if newBucketContent = 0 then
          some (newIndexView.setUint32 (24 + newBucket * 4) startPos, bucketsInUse + 1, dat)
        else do
          let dat' ← updateLinkedPointer dat newBucketContent startPos fuel
          some (newIndexView, bucketsInUse, dat')
      let newStartPos := dat.getUint32 startPos
      let dat := dat.setUint32 startPos 0
      rehashChain dat newIndexView newBuckets bucketsInUse newStartPos fuel

/-- Outer bucket loop of ShareableMap.doubleIndexStorage (src part_007
626-649). -/
def rehashBuckets (st : MapCore) (newIndexView : Buf) (newBuckets bucketsInUse bucket : Nat) :
    Nat → Nat → Option (MapCore × Buf × Nat)
  | 0, _ => some (st, newIndexView, bucketsInUse)
  | count + 1, fuel =>
    if bucket < buckets st then do
      let startPos := st.idx.getUint32 (24 + bucket * 4)
      let (dat, newIndexView, bucketsInUse) ←
        rehashChain st.dat newIndexView newBuckets bucketsInUse startPos fuel
      rehashBuckets { st with dat := dat } newIndexView newBuckets bucketsInUse (bucket + 1)
        count fuel
    else some (st, newIndexView, bucketsInUse)

/-- Header copy of ShareableMap.doubleIndexStorage (src part_007 652-654):
`for (let i = 0; i < 24; i += 4)`. -/
def copyHeaderWords (oldIdx newIdx : Buf) (i : Nat) : Nat → Buf
  | 0 => newIdx
  | count + 1 =>
    if i < 24 then copyHeaderWords oldIdx (newIdx.setUint32 i (oldIdx.getUint32 i)) (i + 4) count
    else newIdx

/-- ShareableMap.doubleIndexStorage (src part_007 617-660): allocate a new
index region of `4 * oldBuckets * 2` bytes (with no allowance for the
24-byte header), rehash every entry into it by its stored hash modulo the
new bucket count, copy the header words over and store the recomputed
buckets-in-use counter. -/
def doubleIndexStorage (st : MapCore) (fuel : Nat) : Option MapCore := do
  let oldBuckets := buckets st
  let newIndex : Buf := Buf.alloc (4 * oldBuckets * 2)
  let newBuckets := (newIndex.size - 24) / 4
  let (st, newIndexView, bucketsInUse) ← rehashBuckets st newIndex newBuckets 0 0 oldBuckets
    fuel
  let newIndexView := copyHeaderWords st.idx newIndexView 0 6
  let st := { st with idx := newIndexView }
  some { st with idx := st.idx.setUint32 4 bucketsInUse }

/-! ### Locks

The four lock methods (src part_007 844-969) act on the two 32-bit words
`lock_state` (offset 12) and `read_count` (offset 20) of the index region,
through `Atomics` on an `Int32Array`, and return immediately when the
index region is not a `SharedArrayBuffer`.  The model gives their
uncontended (single execution context) semantics; an acquire that would
have to wait for another context (and, uncontended, would time out) is
`none`.  Every call is recorded in the ghost `events` trace. -/

/-- ShareableMap.acquireReadLock (src part_007 844-881), uncontended. -/
def acquireReadLock (st : MapCore) : Option MapCore :=
  let st := { st with events := st.events ++ [LockEvent.acquireRead] }
  if !st.shared then some st
  else
    let currentState := st.idx.getUint32 12
    if currentState ≠ 1 then
      let readCount := st.idx.getUint32 20 + 1
      let st := { st with idx := st.idx.setUint32 20 readCount }
      if readCount = 1 then some { st with idx := st.idx.setUint32 12 2 }
      else some st
    else none

/-- ShareableMap.releaseReadLock (src part_007 886-902). -/
def releaseReadLock (st : MapCore) : MapCore :=
  let st := { st with events := st.events ++ [LockEvent.releaseRead] }
  if !st.shared then st
  else
    let readCount : Int := (st.idx.getUint32 20 : Int) - 1
    let st := { st with idx := st.idx.setUint32 20 readCount }
    if readCount = 0 then { st with idx := st.idx.setUint32 12 0 } else st

/-- ShareableMap.acquireWriteLock (src part_007 911-952), uncontended. -/
def acquireWriteLock (st : MapCore) : Option MapCore :=
  let st := { st with events := st.events ++ [LockEvent.acquireWrite] }
  if !st.shared then some st
  else
    let currentState := st.idx.getUint32 12
    if currentState = 0 then some { st with idx := st.idx.setUint32 12 1 }
    else none

/-- ShareableMap.releaseWriteLock (src part_007 957-969). -/
def releaseWriteLock (st : MapCore) : MapCore :=
  let st := { st with events := st.events ++ [LockEvent.releaseWrite] }
  if !st.shared then st
  else { st with idx := st.idx.setUint32 12 0 }

/-- The overwrite-value-in-place branch of ShareableMap.set (src part_007
344-360), taken when the new value's maximum length fits the previously
allocated value slot: encode over the old value bytes, store the exact
value length and encoder id, adjust `used_space` by the delta. -/
def inPlaceOverwrite (st : MapCore) (foundPosition : Nat) (value : Value) : MapCore :=
  let valueEncoderId := valueEncoderId value
  let previousKeyLength := st.dat.getUint32 (foundPosition + 4)
  let previousValueLength := st.dat.getUint32 (foundPosition + 8)
  let exactBytes := encodeValue value
  let exactValueLength := exactBytes.length
  let st := { st with
    dat := st.dat.writeBytes (20 + foundPosition + previousKeyLength) exactBytes }
  let st := { st with dat := st.dat.setUint32 (foundPosition + 8) exactValueLength }
  let st := { st with dat := st.dat.setUint16 (foundPosition + 14) valueEncoderId }
  setSpaceUsed st
    ((spaceUsed st : Int) + (exactValueLength : Int) - (previousValueLength : Int))

/-- The resize step of ShareableMap.set (src part_007 365-379): when the
new entry cannot fit at `free_start`, either defragment (dead-space ratio
above `MIN_DEFRAG_FACTOR` and a packed layout would fit; the comparison
`used / byteLength < 0.5` on exact integer inputs equals
`2*used < byteLength`) or double the data region. -/
def growDataIfNeeded (st : MapCore) (maxKeyLength maxValueLength fuel : Nat) :
    Option MapCore :=
  if maxKeyLength + maxValueLength + freeStart st + 20 > st.dat.size then
    if 2 * spaceUsed st < st.dat.size ∧
        spaceUsed st + maxKeyLength + maxValueLength + 20 < st.dat.size then
      defragment st fuel
    else some (doubleDataStorage st)
  else some st

/-- The bucket-linking step of ShareableMap.set (src part_007 416-423):
an empty bucket takes the new entry's offset (counting one more bucket in
use); otherwise the entry is appended at the chain's tail. -/
def linkEntryIntoBucket (st : MapCore) (bucket startPos fuel : Nat) : Option MapCore :=
  let bucketPointer := st.idx.getUint32 (bucket + 24)
  if bucketPointer = 0 then
    let st := incrementBucketsInUse st
    some { st with idx := st.idx.setUint32 (bucket + 24) startPos }
  else
    (updateLinkedPointer st.dat bucketPointer startPos fuel).map
      fun dat' => { st with dat := dat' }

/-- The `needsToBeStored` block of ShareableMap.set (src part_007 363-429):
grow or defragment the data region if the new entry cannot fit, append the
entry at `free_start`, link it into its bucket, and rehash when the load
factor reaches `LOAD_FACTOR` (the comparison `biu / buckets >= 0.75` on
exact integer inputs equals `4*biu ≥ 3*buckets`; 0.75 is an exact double
and the quotient of 32-bit integers is never misrounded across it). -/
def storeNewEntry (st : MapCore) (keyString : Str) (value : Value) (hash bucket fuel : Nat) :
    Option MapCore := do
  let maxKeyLength := StringEncoder.maximumLength keyString
  let valueEncoderId := valueEncoderId value
  let maxValueLength := maximumLengthValue value
  let st ← growDataIfNeeded st maxKeyLength maxValueLength fuel
  let exactKeyBytes := StringEncoder.encode keyString
  let exactKeyLength := exactKeyBytes.length
  let st := { st with dat := st.dat.writeBytes (20 + freeStart st) exactKeyBytes }
  let exactValueBytes := encodeValue value
  let exactValueLength := exactValueBytes.length
  let st := { st with
    dat := st.dat.writeBytes (20 + freeStart st + exactKeyLength) exactValueBytes }
  let st := { st with dat := st.dat.setUint32 (freeStart st + 4) exactKeyLength }
  let st := { st with dat := st.dat.setUint32 (freeStart st + 8) exactValueLength }
  -- `typeof key === "string" ? 1 : 0` is 1 at string key type.
  let st := { st with dat := st.dat.setUint16 (freeStart st + 12) 1 }
  let st := { st with dat := st.dat.setUint16 (freeStart st + 14) valueEncoderId }
  let st := { st with dat := st.dat.setUint32 (freeStart st + 16) hash }
  let st := setSpaceUsed st (spaceUsed st + 20 + exactKeyLength + exactValueLength)
  let startPos := freeStart st
  let st := setFreeStart st (freeStart st + 20 + exactKeyLength + exactValueLength)
  let st := increaseSize st
  let st ← linkEntryIntoBucket st bucket startPos fuel
  if 4 * getBucketsInUse st ≥ 3 * buckets st then doubleIndexStorage st fuel
  else some st

/-- ShareableMap.set (src part_007 313-434).  The source drives its two
paths through a `needsToBeStored` flag; the flag's two readers are the two
named branch definitions above, applied here under exactly the source's
conditions. -/
def set (st : MapCore) (key : Str) (value : Value) (fuel : Nat) : Option MapCore := do
  let st ← acquireWriteLock st
  let keyString := stringifyElement key
  let (hash, bucket) := computeHashAndBucket st keyString
  let returnValue ← findValue st (st.idx.getUint32 (bucket + 24)) keyString hash true fuel
  match returnValue with
  | none => do
    let st ← storeNewEntry st keyString value hash bucket fuel
    some (releaseWriteLock st)
  | some (foundPosition, _foundValue) =>
    let previousValueLength := st.dat.getUint32 (foundPosition + 8)
    if maximumLengthValue value > previousValueLength then do
      let (_, st) ← deleteItem st key fuel
      let st ← storeNewEntry st keyString value hash bucket fuel
      some (releaseWriteLock st)
    else
      some (releaseWriteLock (inPlaceOverwrite st foundPosition value))

/-- ShareableMap.get (src part_007 278-295). -/
def get (st : MapCore) (key : Str) (fuel : Nat) : Option (Option Value × MapCore) := do
  let st ← acquireReadLock st
  let stringKey := stringifyElement key
  let (hash, bucket) := computeHashAndBucket st stringKey
  let returnValue ← findValue st (st.idx.getUint32 (bucket + 24)) stringKey hash true fuel
  let st := releaseReadLock st
  match returnValue with
  | some (_, v) => some (v, st)
  | none => some (none, st)

/-- ShareableMap.has (src part_007 297-311). -/
def has (st : MapCore) (key : Str) (fuel : Nat) : Option (Bool × MapCore) := do
  let st ← acquireReadLock st
  let stringKey := stringifyElement key
  let (hash, bucket) := computeHashAndBucket st stringKey
  let returnValue ← findValue st (st.idx.getUint32 (bucket + 24)) stringKey hash false fuel
  let st := releaseReadLock st
  some (returnValue.isSome, st)

/-- ShareableMap.delete (src part_007 215-220). -/
def deleteKey (st : MapCore) (key : Str) (fuel : Nat) : Option (Bool × MapCore) := do
  let st ← acquireWriteLock st
  let (deleteResult, st) ← deleteItem st key fuel
  some (deleteResult, releaseWriteLock st)

/-- ShareableMap.size (src part_007 436-442). -/
def size (st : MapCore) : Option (Nat × MapCore) := do
  let st ← acquireReadLock st
  let value := st.idx.getUint32 0
  some (value, releaseReadLock st)

/-- Table-zeroing loop of ShareableMap.clear (src part_007 202-204). -/
def clearTable (idx : Buf) (i : Nat) : Nat → Buf
  | 0 => idx
  | count + 1 =>
    if i < idx.size then clearTable (idx.setUint32 i 0) (i + 4) count else idx

/-- ShareableMap.clear (src part_007 198-213): zero the table and the
size / buckets-in-use / used-space counters, and set `free_start` to 0
(not to `INITIAL_DATA_OFFSET`). -/
def clear (st : MapCore) : Option MapCore := do
  let st ← acquireWriteLock st
  let st := { st with idx := clearTable st.idx 24 (st.idx.size / 4 + 1) }
  let st := { st with idx := st.idx.setUint32 4 0 }
  let st := { st with idx := st.idx.setUint32 0 0 }
  let st := { st with idx := st.idx.setUint32 16 0 }
  let st := { st with idx := st.idx.setUint32 8 0 }
  some (releaseWriteLock st)

/-- Chain walk of the `entries` generator (src part_007 166-176). -/
def entriesChain (st : MapCore) (dataPointer : Nat) :
    Nat → Option (List (Str × Option Value))
  | 0 => none
  | fuel + 1 =>
    if dataPointer = 0 then some []
    else do
      let key := readTypedKeyFromDataObject st dataPointer
      let value := readValueFromDataObject st dataPointer
      let rest ← entriesChain st (st.dat.getUint32 dataPointer) fuel
      some ((key, value) :: rest)

/-- Bucket loop of the `entries` generator (src part_007 166-176). -/
def entriesGo (st : MapCore) (i : Nat) : Nat → Nat → Option (List (Str × Option Value))
  | 0, _ => some []
  | count + 1, fuel =>
    if i < buckets st then do
      let chain ← entriesChain st (st.idx.getUint32 (24 + i * 4)) fuel
      let rest ← entriesGo st (i + 1) count fuel
      some (chain ++ rest)
    else some []

/-- ShareableMap.entries (src part_007 166-176): the yielded pairs in
order.  The generator body contains no lock call and never writes, so the
map state (ghost trace included) is returned unchanged. -/
def entries (st : MapCore) (fuel : Nat) : Option (List (Str × Option Value) × MapCore) := do
  let l ← entriesGo st 0 (buckets st) fuel
  some (l, st)

/-- ShareableMap.keys (src part_007 178-186): identical loop to `entries`,
yielding keys; no lock call. -/
def keys (st : MapCore) (fuel : Nat) : Option (List Str × MapCore) := do
  let l ← entriesGo st 0 (buckets st) fuel
  some (l.map Prod.fst, st)

/-- ShareableMap.values (src part_007 188-196): identical loop to
`entries`, yielding values; no lock call. -/
def values (st : MapCore) (fuel : Nat) : Option (List (Option Value) × MapCore) := do
  let l ← entriesGo st 0 (buckets st) fuel
  some (l.map Prod.snd, st)

/-- ShareableMap.forEach (src part_007 261-276): the same iteration as
`entries` (the pairs passed to the callback, in order), inside an
acquire/release of the read lock. -/
def forEach (st : MapCore) (fuel : Nat) : Option (List (Str × Option Value) × MapCore) := do
  let st ← acquireReadLock st
  let l ← entriesGo st 0 (buckets st) fuel
  some (l, releaseReadLock st)

/-- ShareableMap.reset (src part_007 791-821): validate
`averageBytesPerValue`, return without allocating when both hints are
zero, otherwise allocate and initialize the two regions.  Returns the
regions (when allocated) together with the list of allocated byte sizes,
to make the allocation behaviour observable. -/
def reset (expectedSize averageBytesPerValue : Nat) :
    Except String (Option (Buf × Buf) × List Nat) :=
  if averageBytesPerValue % 4 ≠ 0 then
    .error "Average bytes per value must be a multiple of 4."
  else if expectedSize = 0 ∧ averageBytesPerValue = 0 then .ok (none, [])
  else
    -- `Math.ceil(expectedSize / LOAD_FACTOR)`
    let buckets := (4 * expectedSize + 2) / 3
    let indexSize := 5 * 4 + buckets * 4
    let idx := (Buf.alloc indexSize).setUint32 8 4
    let dataSize := averageBytesPerValue * expectedSize
    let dat := Buf.alloc dataSize
    .ok (some (idx, dat), [indexSize, dataSize])

end ShareableMap

/-- ShareableMapOptions (src part_006): the two sizing hints; the optional
custom serializer is not configured in any claim and is not modelled. -/
structure ShareableMapOptions where
  expectedSize : Option Nat
  averageBytesPerValue : Option Nat

/-- The kind tag of a transferable state envelope. -/
inductive DType where
  | map
  | array
deriving DecidableEq

/-- TransferableState (src part_008): the index and data buffers plus the
kind tag; `indexShared` records whether the index buffer is a
`SharedArrayBuffer` (which decides whether locks act). -/
structure TransferableState where
  indexBuffer : Buf
  dataBuffer : Buf
  indexShared : Bool
  dataType : DType

namespace ShareableMap

/-- ShareableMap constructor (src part_007 86-99): merge the options with
the defaults `{expectedSize: 1024, averageBytesPerValue: 256}`, run
`reset`, then `initializeLockState` (a no-op unless the index region is a
`SharedArrayBuffer`).  `none` in the result is a map that owns no regions
yet (reset returned before allocating).  The allocated byte sizes are
returned alongside. -/
def construct (options : ShareableMapOptions) (env : AllocEnv) :
    Except String (Option MapCore × List Nat) :=
  let es := options.expectedSize.getD 1024
  let avg := options.averageBytesPerValue.getD 256
  match reset es avg with
  | .error e => .error e
  | .ok (none, allocs) => .ok (none, allocs)
  | .ok (some (idx, dat), allocs) =>
    if env.sharedOk ∨ env.localOk then
      -- initializeLockState (src part_007 975-981)
      let idx := if env.sharedOk then (idx.setUint32 12 0).setUint32 20 0 else idx
      .ok (some ⟨idx, dat, env.sharedOk, []⟩, allocs)
    else .error "Could not allocated memory."

/-- ShareableMap.toTransferableState (src part_007 140-146). -/
def toTransferableState (st : MapCore) : TransferableState :=
  ⟨st.idx, st.dat, st.shared, .map⟩

/-- ShareableMap.fromTransferableState (src part_007 115-132): reject a
non-map envelope, construct a map with the caller's options spread over
the `{expectedSize: 0, averageBytesPerValue: 0}` defaults (so caller
options override the zeros), then `setBuffers` installs the envelope's
regions.  Returns the adopted map and the byte sizes the constructor
allocated on the way. -/
def fromTransferableState (state : TransferableState) (options : ShareableMapOptions)
    (env : AllocEnv) : Except String (MapCore × List Nat) :=
  if state.dataType ≠ DType.map then
    .error "Invalid data type! Trying to revive map from non-map state."
  else
    match construct
        ⟨some (options.expectedSize.getD 0), some (options.averageBytesPerValue.getD 0)⟩
        env with
    | .error e => .error e
    | .ok (_, allocs) =>
      .ok (⟨state.indexBuffer, state.dataBuffer, state.indexShared, []⟩, allocs)

end ShareableMap

/-! ## Concrete scenario states

These are the states the concrete claims and counterexamples evaluate.
`Buf` equality is function equality, so the reachability of each state
from a constructor call is stated (and proved definitionally) in the
theorems that use it. -/

/-- The map produced by `new ShareableMap({expectedSize: 8,
averageBytesPerValue: 16})` in an environment without shared memory:
index region of `5*4 + ceil(8/0.75)*4 = 64` bytes with `free_start = 4`,
data region of 128 bytes.  Its bucket count is `(64-24)/4 = 10`. -/
def emptyMap8 : MapCore := ⟨(Buf.alloc 64).setUint32 8 4, Buf.alloc 128, false, []⟩

/-- The map produced by `new ShareableMap({expectedSize: 4,
averageBytesPerValue: 32})` without shared memory: 44-byte index region
(5 buckets), 128-byte data region. -/
def emptyMap4 : MapCore := ⟨(Buf.alloc 44).setUint32 8 4, Buf.alloc 128, false, []⟩

/-- Claim C1's insertion sequence
`("a",1),("b",2),("c",3),("a",4),("d",5),("a",6)` on `emptyMap8`. -/
def runC1 : Option MapCore :=
  (ShareableMap.set emptyMap8 [97] (.vnum (.intVal 1)) 50).bind fun st =>
  (ShareableMap.set st [98] (.vnum (.intVal 2)) 50).bind fun st =>
  (ShareableMap.set st [99] (.vnum (.intVal 3)) 50).bind fun st =>
  (ShareableMap.set st [97] (.vnum (.intVal 4)) 50).bind fun st =>
  (ShareableMap.set st [100] (.vnum (.intVal 5)) 50).bind fun st =>
  ShareableMap.set st [97] (.vnum (.intVal 6)) 50

/-- Three inserts `("a",1),("b",2),("c",3)` on `emptyMap4`; the FNV-1a
hashes of `a`, `b`, `c` are `0`, `2`, `3` modulo the 5 buckets, so three
buckets are in use and no rehash has fired. -/
def runRehash3 : Option MapCore :=
  (ShareableMap.set emptyMap4 [97] (.vnum (.intVal 1)) 50).bind fun st =>
  (ShareableMap.set st [98] (.vnum (.intVal 2)) 50).bind fun st =>
  ShareableMap.set st [99] (.vnum (.intVal 3)) 50

/-- The fourth insert `("h",4)`: `h` hashes to bucket 1 mod 5, making
`buckets_in_use = 4` and `4/5 ≥ 0.75`, so this completed `set` runs
`doubleIndexStorage`.  The hashes of `a`,`b`,`c`,`h` are `0`,`1`,`2`,`3`
modulo the 4 buckets of the new table. -/
def runRehash4 : Option MapCore :=
  runRehash3.bind fun st => ShareableMap.set st [104] (.vnum (.intVal 4)) 50

/-- Insert `("a",1)` on `emptyMap4` and then `clear()` (claim C3). -/
def runClear : Option MapCore :=
  (ShareableMap.set emptyMap4 [97] (.vnum (.intVal 1)) 50).bind fun st =>
  ShareableMap.clear st

/-- A subsequent `set("b",2)` after the clear (claim C3): `free_start` is
0, so the entry is written at offset 0 and the bucket pointer is set to 0,
the empty-bucket sentinel. -/
def runClearSet : Option MapCore :=
  runClear.bind fun st => ShareableMap.set st [98] (.vnum (.intVal 2)) 50

/-- The array `new ShareableArray(); push("a"); push("b"); push("c")`.
Each entry takes `8 + 1 = 9` data bytes, so `used_space = 27` and
`free_start = 27`. -/
def arr3 : ArrayCore :=
  ShareableArray.construct [some (.vstr [97]), some (.vstr [98]), some (.vstr [99])]

/-- The C9 scenario: `delete(1)` on `arr3`. -/
def arr3del : ArrayCore := ShareableArray.deleteItem arr3 1

/-- ShareableArray.defragment applied to `arr3` (claim C4). -/
def arr3defrag : ArrayCore := ShareableArray.defragment arr3

/-- The C5 counterexample state: the C1 final map viewed with a shared
(truly lockable) index region; its ghost lock trace is reset so that any
lock activity of the iterators would be visible. -/
def mapC5 : MapCore :=
  match runC1 with
  | some st => { st with shared := true, events := [] }
  | none => ⟨Buf.alloc 0, Buf.alloc 0, true, []⟩

/-- A concrete transferable-state envelope (claim C10): the regions of
`emptyMap4` tagged as a map. -/
def envelope4 : TransferableState := ⟨emptyMap4.idx, emptyMap4.dat, false, .map⟩


/-! ### Chain walking (claim C2)

`chainOffsets` follows the `next` pointers stored at the first word of
each entry, as the source's chain walks do (src part_007 630, 688-693,
709-724); it is the list of entry offsets reachable from a pointer. -/

def chainOffsets (dat : Buf) : Nat → Nat → Option (List Nat)
  | _, 0 => none
  | p, fuel + 1 =>
    if p = 0 then some []
    else (chainOffsets dat (dat.getUint32 p) fuel).map (p :: ·)

/-- The offset of a chain's last element (0 for the empty chain). -/
def lastPtr : List Nat → Nat
  | [] => 0
  | [p] => p
  | _ :: q :: l => lastPtr (q :: l)

/-- Pairwise 20-byte separation of entry offsets: distinct entries'
`next` words (entry offset 0) and hash words (entry offset 16) then
occupy pairwise disjoint 4-byte slots. -/
def Sep20 (E : List Nat) : Prop := E.Pairwise (fun a b => a + 20 ≤ b ∨ b + 20 ≤ a)

/-- Loop invariant of `doubleIndexStorage`'s rehash (src part_007 626-649),
over the set `P` of entry offsets moved so far: hash words still hold their
original values, and the new table's chains partition `P` by stored hash
modulo the new bucket count. -/
structure RehashInv (E : List Nat) (dat0 dat nv : Buf) (nb : Nat) (P : List Nat) : Prop where
  hash_eq : ∀ e ∈ E, dat.getUint32 (e + 16) = dat0.getUint32 (e + 16)
  chains : ∀ b < nb, ∃ n l, chainOffsets dat (nv.getUint32 (24 + b * 4)) n = some l ∧
    l.Nodup ∧ (∀ x ∈ l, x ∈ P) ∧ (∀ e ∈ l, dat0.getUint32 (e + 16) % nb = b) ∧
    (∀ e ∈ P, dat0.getUint32 (e + 16) % nb = b → e ∈ l)

/-- The concrete pre-rehash state: the three-entry 5-bucket map produced
by `runRehash3` (defaulting to `emptyMap4`, though `runRehash3` does
complete). -/
def stRehash3 : MapCore := runRehash3.getD emptyMap4


/-- The concrete C1 map: the result of the six-insert scenario
(defaulting to `emptyMap8`, though `runC1` does complete). -/
def stC1 : MapCore := runC1.getD emptyMap8

/-- Values the chosen encoder represents exactly: signed-32-bit integers
(the `setInt32` range), 64-bit float patterns, and well-formed strings. -/
def ValueFits : Value → Prop
  | .vnum (.intVal n) => -2147483648 ≤ n ∧ n < 2147483648
  | .vnum (.floatVal bits) => bits < 18446744073709551616
  | .vstr s => StrOk s

instance : DecidablePred ValueFits := fun v => by
  unfold ValueFits
  match v with
  | .vnum (.intVal _) => infer_instance
  | .vnum (.floatVal _) => infer_instance
  | .vstr _ => infer_instance


/-! ## Theorems -/

/-! ### Byte-region read/write lemmas -/

theorem Buf.size_setUint8 (b : Buf) (i v : Nat) : (b.setUint8 i v).size = b.size := rfl

theorem Buf.size_setUint16 (b : Buf) (i v : Nat) : (b.setUint16 i v).size = b.size := rfl

theorem Buf.size_setUint32 (b : Buf) (i : Nat) (v : Int) : (b.setUint32 i v).size = b.size := rfl

theorem Buf.size_writeBytes (b : Buf) (i : Nat) (l : List Nat) :
    (b.writeBytes i l).size = b.size := by
  induction l generalizing b i with
  | nil => rfl
  | cons x xs ih =>
    simp only [Buf.writeBytes]
    rw [ih]
    rfl

theorem Buf.getUint8_setUint8_same (b : Buf) (i v : Nat) :
    (b.setUint8 i v).getUint8 i = v % 256 := by
  simp [Buf.setUint8, Buf.getUint8]

theorem Buf.getUint8_setUint8_ne (b : Buf) {i j : Nat} (v : Nat) (h : j ≠ i) :
    (b.setUint8 i v).getUint8 j = b.getUint8 j := by
  simp [Buf.setUint8, Buf.getUint8, h]

theorem Buf.getUint8_setUint32_ne (b : Buf) {i j : Nat} (v : Int)
    (h : j < i ∨ i + 4 ≤ j) : (b.setUint32 i v).getUint8 j = b.getUint8 j := by
  unfold Buf.setUint32
  rw [Buf.getUint8_setUint8_ne _ _ (by omega), Buf.getUint8_setUint8_ne _ _ (by omega),
    Buf.getUint8_setUint8_ne _ _ (by omega), Buf.getUint8_setUint8_ne _ _ (by omega)]

theorem Buf.getUint8_setUint16_ne (b : Buf) {i j : Nat} (v : Nat)
    (h : j < i ∨ i + 2 ≤ j) : (b.setUint16 i v).getUint8 j = b.getUint8 j := by
  unfold Buf.setUint16
  rw [Buf.getUint8_setUint8_ne _ _ (by omega), Buf.getUint8_setUint8_ne _ _ (by omega)]

theorem Buf.getUint32_setUint32_ne (b : Buf) {i j : Nat} (v : Int)
    (h : j + 4 ≤ i ∨ i + 4 ≤ j) : (b.setUint32 i v).getUint32 j = b.getUint32 j := by
  unfold Buf.getUint32
  rw [Buf.getUint8_setUint32_ne _ _ (by omega), Buf.getUint8_setUint32_ne _ _ (by omega),
    Buf.getUint8_setUint32_ne _ _ (by omega), Buf.getUint8_setUint32_ne _ _ (by omega)]

theorem Buf.getUint32_setUint16_ne (b : Buf) {i j : Nat} (v : Nat)
    (h : j + 4 ≤ i ∨ i + 2 ≤ j) : (b.setUint16 i v).getUint32 j = b.getUint32 j := by
  unfold Buf.getUint32
  rw [Buf.getUint8_setUint16_ne _ _ (by omega), Buf.getUint8_setUint16_ne _ _ (by omega),
    Buf.getUint8_setUint16_ne _ _ (by omega), Buf.getUint8_setUint16_ne _ _ (by omega)]

theorem Buf.getUint16_setUint32_ne (b : Buf) {i j : Nat} (v : Int)
    (h : j + 2 ≤ i ∨ i + 4 ≤ j) : (b.setUint32 i v).getUint16 j = b.getUint16 j := by
  unfold Buf.getUint16
  rw [Buf.getUint8_setUint32_ne _ _ (by omega), Buf.getUint8_setUint32_ne _ _ (by omega)]

theorem Buf.getUint16_setUint16_ne (b : Buf) {i j : Nat} (v : Nat)
    (h : j + 2 ≤ i ∨ i + 2 ≤ j) : (b.setUint16 i v).getUint16 j = b.getUint16 j := by
  unfold Buf.getUint16
  rw [Buf.getUint8_setUint16_ne _ _ (by omega), Buf.getUint8_setUint16_ne _ _ (by omega)]

theorem Buf.getUint32_setUint32_same (b : Buf) (i : Nat) (v : Int) :
    (b.setUint32 i v).getUint32 i = (v % (pow32 : Int)).toNat := by
  unfold Buf.setUint32 Buf.getUint32
  have hw : (v % (pow32 : Int)).toNat < pow32 := by
    unfold pow32
    omega
  rw [Buf.getUint8_setUint8_ne _ _ (by omega), Buf.getUint8_setUint8_ne _ _ (by omega),
    Buf.getUint8_setUint8_ne _ _ (by omega), Buf.getUint8_setUint8_same]
  rw [Buf.getUint8_setUint8_ne _ _ (by omega), Buf.getUint8_setUint8_ne _ _ (by omega),
    Buf.getUint8_setUint8_same]
  rw [Buf.getUint8_setUint8_ne _ _ (by omega), Buf.getUint8_setUint8_same]
  rw [Buf.getUint8_setUint8_same]
  unfold pow32 at hw ⊢
  omega

theorem Buf.getUint32_lt (b : Buf) (i : Nat) : b.getUint32 i < pow32 := by
  unfold Buf.getUint32 Buf.getUint8 pow32
  have h0 := Nat.mod_lt (b.mem i) (show 0 < 256 by omega)
  have h1 := Nat.mod_lt (b.mem (i + 1)) (show 0 < 256 by omega)
  have h2 := Nat.mod_lt (b.mem (i + 2)) (show 0 < 256 by omega)
  have h3 := Nat.mod_lt (b.mem (i + 3)) (show 0 < 256 by omega)
  omega

theorem Buf.getUint32_setUint32_same_nat (b : Buf) (i v : Nat) (h : v < pow32) :
    (b.setUint32 i v).getUint32 i = v := by
  rw [Buf.getUint32_setUint32_same]
  unfold pow32 at h ⊢
  omega

theorem Buf.getUint8_writeBytes (b : Buf) (l : List Nat) :
    ∀ (i j : Nat), (b.writeBytes i l).getUint8 j =
      if i ≤ j ∧ j < i + l.length then (l.getD (j - i) 0) % 256 else b.getUint8 j := by
  induction l generalizing b with
  | nil =>
    intro i j
    simp only [Buf.writeBytes, List.length_nil, Nat.add_zero]
    rw [if_neg (by omega)]
  | cons x xs ih =>
    intro i j
    simp only [Buf.writeBytes, List.length_cons]
    rw [ih]
    by_cases hj : i + 1 ≤ j ∧ j < i + 1 + xs.length
    · rw [if_pos hj, if_pos (by omega)]
      have : j - i = (j - (i + 1)) + 1 := by omega
      rw [this]
      simp
    · rw [if_neg hj]
      by_cases hji : j = i
      · subst hji
        rw [Buf.getUint8_setUint8_same, if_pos (by omega)]
        simp
      · rw [Buf.getUint8_setUint8_ne _ _ hji, if_neg (by omega)]

theorem Buf.getUint8_writeBytes_ne (b : Buf) (l : List Nat) {i j : Nat} 
    (h : j < i ∨ i + l.length ≤ j) : (b.writeBytes i l).getUint8 j = b.getUint8 j := by
  rw [Buf.getUint8_writeBytes, if_neg (by omega)]

theorem Buf.getUint32_writeBytes_ne (b : Buf) (l : List Nat) {i j : Nat}
    (h : j + 4 ≤ i ∨ i + l.length ≤ j) : (b.writeBytes i l).getUint32 j = b.getUint32 j := by
  unfold Buf.getUint32
  rw [Buf.getUint8_writeBytes_ne _ _ (by omega), Buf.getUint8_writeBytes_ne _ _ (by omega),
    Buf.getUint8_writeBytes_ne _ _ (by omega), Buf.getUint8_writeBytes_ne _ _ (by omega)]

theorem Buf.getUint16_writeBytes_ne (b : Buf) (l : List Nat) {i j : Nat}
    (h : j + 2 ≤ i ∨ i + l.length ≤ j) : (b.writeBytes i l).getUint16 j = b.getUint16 j := by
  unfold Buf.getUint16
  rw [Buf.getUint8_writeBytes_ne _ _ (by omega), Buf.getUint8_writeBytes_ne _ _ (by omega)]

theorem Buf.readBytes_congr {b b' : Buf} {i i' len : Nat}
    (h : ∀ k, k < len → b.getUint8 (i + k) = b'.getUint8 (i' + k)) :
    b.readBytes i len = b'.readBytes i' len := by
  unfold Buf.readBytes
  exact List.map_congr_left (by intro k hk; exact h k (List.mem_range.mp hk))

theorem Buf.readBytes_writeBytes (b : Buf) (i : Nat) (l : List Nat) :
    (b.writeBytes i l).readBytes i l.length = l.map (· % 256) := by
  unfold Buf.readBytes
  apply List.ext_getElem
  · simp
  · intro k h1 h2
    simp only [List.length_map, List.length_range] at h1
    simp only [List.getElem_map, List.getElem_range]
    rw [Buf.getUint8_writeBytes, if_pos (by omega)]
    have hk : i + k - i = k := by omega
    rw [hk, List.getD_eq_getElem l 0 (by omega)]

/-! ### Encoder round-trips (claim C8) -/

theorem u32OfBytes_u32Bytes_append (v : Nat) (l : List Nat) :
    u32OfBytes (u32Bytes v ++ l) = v % pow32 := by
  simp only [u32Bytes, u32OfBytes, pow32, List.cons_append, List.nil_append, List.getD_cons_zero,
    List.getD_cons_succ]
  omega

theorem u32Bytes_append_drop (v : Nat) (l : List Nat) : (u32Bytes v ++ l).drop 4 = l := rfl

theorem u64OfBytes_u64Bytes (v : Nat) (h : v < 18446744073709551616) :
    u64OfBytes (u64Bytes v) = v := by
  unfold u64OfBytes u64Bytes
  rw [u32OfBytes_u32Bytes_append, u32Bytes_append_drop]
  have h2 : u32OfBytes (u32Bytes v ++ []) = v % pow32 := u32OfBytes_u32Bytes_append v []
  rw [List.append_nil] at h2
  rw [h2]
  simp only [pow32]
  omega

theorem int32_roundtrip (n : Int) (h1 : -2147483648 ≤ n) (h2 : n < 2147483648) :
    int32OfNat (natOfInt32 n) = n := by
  unfold int32OfNat natOfInt32
  simp only [pow32]
  omega

theorem utf8DecodeGo_step {c : Nat} (hc : ScalarValue c) (fuel : Nat) (t : List Nat) :
    utf8DecodeGo (fuel + 1) (utf8Bytes c ++ t) = c :: utf8DecodeGo fuel t := by
  obtain ⟨hlt, hsur⟩ := hc
  unfold utf8Bytes
  by_cases h1 : c < 128
  · simp only [if_pos h1, List.cons_append, List.nil_append]
    simp only [utf8DecodeGo]
    rw [if_pos h1]
  · by_cases h2 : c < 2048
    · simp only [if_neg h1, if_pos h2, List.cons_append, List.nil_append]
      simp only [utf8DecodeGo]
      have hb1 : ¬ (192 + c / 64 < 128) := by omega
      have hb2 : 194 ≤ 192 + c / 64 ∧ 192 + c / 64 < 224 := by omega
      have hc1 : 128 ≤ 128 + c % 64 ∧ 128 + c % 64 < 192 := by omega
      rw [if_neg hb1, if_pos hb2, if_pos hc1]
      congr 1
      omega
    · by_cases h3 : c < 65536
      · simp only [if_neg h1, if_neg h2, if_pos h3, List.cons_append, List.nil_append]
        simp only [utf8DecodeGo]
        have hb1 : ¬ (224 + c / 4096 < 128) := by omega
        have hb2 : ¬ (194 ≤ 224 + c / 4096 ∧ 224 + c / 4096 < 224) := by omega
        have hb3 : 224 ≤ 224 + c / 4096 ∧ 224 + c / 4096 < 240 := by omega
        rw [if_neg hb1, if_neg hb2, if_pos hb3]
        have hval : (224 + c / 4096 - 224) * 4096 + (128 + c / 64 % 64 - 128) * 64 +
            (128 + c % 64 - 128) = c := by omega
        have hcond : 128 ≤ 128 + c / 64 % 64 ∧ 128 + c / 64 % 64 < 192 ∧
            128 ≤ 128 + c % 64 ∧ 128 + c % 64 < 192 ∧
            2048 ≤ (224 + c / 4096 - 224) * 4096 + (128 + c / 64 % 64 - 128) * 64 +
              (128 + c % 64 - 128) ∧
            ¬ (55296 ≤ (224 + c / 4096 - 224) * 4096 + (128 + c / 64 % 64 - 128) * 64 +
                (128 + c % 64 - 128) ∧
               (224 + c / 4096 - 224) * 4096 + (128 + c / 64 % 64 - 128) * 64 +
                 (128 + c % 64 - 128) < 57344) := by
          refine ⟨by omega, by omega, by omega, by omega, by omega, ?_⟩
          rw [hval]
          omega
        rw [if_pos hcond]
        congr 1
      · simp only [if_neg h1, if_neg h2, if_neg h3, List.cons_append, List.nil_append]
        simp only [utf8DecodeGo]
        have hb1 : ¬ (240 + c / 262144 < 128) := by omega
        have hb2 : ¬ (194 ≤ 240 + c / 262144 ∧ 240 + c / 262144 < 224) := by omega
        have hb3 : ¬ (224 ≤ 240 + c / 262144 ∧ 240 + c / 262144 < 240) := by omega
        have hb4 : 240 ≤ 240 + c / 262144 ∧ 240 + c / 262144 < 245 := by omega
        rw [if_neg hb1, if_neg hb2, if_neg hb3, if_pos hb4]
        have hval : (240 + c / 262144 - 240) * 262144 + (128 + c / 4096 % 64 - 128) * 4096 +
            (128 + c / 64 % 64 - 128) * 64 + (128 + c % 64 - 128) = c := by omega
        have hcond : 128 ≤ 128 + c / 4096 % 64 ∧ 128 + c / 4096 % 64 < 192 ∧
            128 ≤ 128 + c / 64 % 64 ∧ 128 + c / 64 % 64 < 192 ∧
            128 ≤ 128 + c % 64 ∧ 128 + c % 64 < 192 ∧
            65536 ≤ (240 + c / 262144 - 240) * 262144 + (128 + c / 4096 % 64 - 128) * 4096 +
              (128 + c / 64 % 64 - 128) * 64 + (128 + c % 64 - 128) ∧
            (240 + c / 262144 - 240) * 262144 + (128 + c / 4096 % 64 - 128) * 4096 +
              (128 + c / 64 % 64 - 128) * 64 + (128 + c % 64 - 128) < 1114112 := by
          refine ⟨by omega, by omega, by omega, by omega, by omega, by omega, ?_, ?_⟩ <;>
            (rw [hval]; omega)
        rw [if_pos hcond]
        congr 1

theorem utf8Bytes_length_pos (c : Nat) : 1 ≤ (utf8Bytes c).length := by
  unfold utf8Bytes
  split
  · simp
  · split
    · simp
    · split <;> simp

theorem utf8DecodeGo_encode {s : Str} (hs : StrOk s) :
    ∀ fuel, (utf8Encode s).length ≤ fuel → utf8DecodeGo fuel (utf8Encode s) = s := by
  induction s with
  | nil =>
    intro fuel hf
    cases fuel with
    | zero => rfl
    | succ f => rfl
  | cons c s ih =>
    intro fuel hf
    have hc : ScalarValue c := hs c (List.mem_cons_self c s)
    have hs' : StrOk s := fun x hx => hs x (List.mem_cons_of_mem c hx)
    have hlen : (utf8Encode (c :: s)).length =
        (utf8Bytes c).length + (utf8Encode s).length := by
      simp [utf8Encode]
    have hpos := utf8Bytes_length_pos c
    cases fuel with
    | zero => omega
    | succ f =>
      have henc : utf8Encode (c :: s) = utf8Bytes c ++ utf8Encode s := by
        simp [utf8Encode]
      rw [henc, utf8DecodeGo_step hc]
      rw [ih hs' f (by omega)]

theorem utf8_roundtrip {s : Str} (hs : StrOk s) : utf8Decode (utf8Encode s) = s :=
  utf8DecodeGo_encode hs _ le_rfl

theorem digitsToNat_append_singleton (l : List Nat) (d : Nat) :
    digitsToNat (l ++ [d]) = digitsToNat l * 10 + (d - 48) := by
  simp [digitsToNat, List.foldl_append]

theorem digitsToNat_natDigitsGo : ∀ fuel n, n < fuel →
    digitsToNat (natDigitsGo fuel n) = n := by
  intro fuel
  induction fuel with
  | zero => intro n h; omega
  | succ f ih =>
    intro n h
    simp only [natDigitsGo]
    split
    · simp only [digitsToNat, List.foldl_cons, List.foldl_nil]
      omega
    · rw [digitsToNat_append_singleton, ih (n / 10) (by omega)]
      omega

theorem digitsToNat_natDigits (n : Nat) : digitsToNat (natDigits n) = n :=
  digitsToNat_natDigitsGo (n + 1) n (Nat.lt_succ_self n)

theorem natDigitsGo_mem_ge : ∀ fuel n d, d ∈ natDigitsGo fuel n → 48 ≤ d := by
  intro fuel
  induction fuel with
  | zero => intro n d h; simp [natDigitsGo] at h
  | succ f ih =>
    intro n d h
    simp only [natDigitsGo] at h
    split at h
    · simp at h; omega
    · rw [List.mem_append] at h
      rcases h with h | h
      · exact ih _ _ h
      · simp at h; omega

theorem natDigits_head?_ne (n : Nat) : (natDigits n).head? ≠ some 45 := by
  intro h
  rcases hd : natDigits n with _ | ⟨d, ds⟩
  · rw [hd] at h; simp at h
  · rw [hd] at h
    simp at h
    have := natDigitsGo_mem_ge (n + 1) n d (by rw [show natDigitsGo (n+1) n = natDigits n from rfl, hd]; simp)
    omega

theorem scalar_digits (n d : Nat) (h : d ∈ natDigits n) : ScalarValue d := by
  have h1 := natDigitsGo_mem_ge (n + 1) n d h
  have h2 : ∀ fuel m x, x ∈ natDigitsGo fuel m → x ≤ 57 := by
    intro fuel
    induction fuel with
    | zero => intro m x hx; simp [natDigitsGo] at hx
    | succ f ih =>
      intro m x hx
      simp only [natDigitsGo] at hx
      split at hx
      · simp at hx; omega
      · rw [List.mem_append] at hx
        rcases hx with hx | hx
        · exact ih _ _ hx
        · simp at hx; omega
    
  have h3 := h2 (n + 1) n d h
  exact ⟨by omega, by omega⟩

theorem canon_ok {v : Value} (hv : ValueOk v) : StrOk (GeneralPurposeEncoder.canon v) := by
  match v with
  | .vnum (.intVal n) =>
    simp only [GeneralPurposeEncoder.canon]
    split
    · intro c hc
      simp at hc
      rcases hc with h | h | h
      · subst h; exact ⟨by omega, by omega⟩
      · subst h; exact ⟨by omega, by omega⟩
      · exact scalar_digits _ _ h
    · intro c hc
      simp at hc
      rcases hc with h | h
      · subst h; exact ⟨by omega, by omega⟩
      · exact scalar_digits _ _ h
  | .vnum (.floatVal bits) =>
    intro c hc
    simp [GeneralPurposeEncoder.canon] at hc
    rcases hc with h | h
    · subst h; exact ⟨by omega, by omega⟩
    · exact scalar_digits _ _ h
  | .vstr s =>
    intro c hc
    simp [GeneralPurposeEncoder.canon] at hc
    rcases hc with h | h
    · subst h; exact ⟨by omega, by omega⟩
    · exact hv c h

theorem parseCanon_canon {v : Value} (hv : ValueOk v) :
    GeneralPurposeEncoder.parseCanon (GeneralPurposeEncoder.canon v) = some v := by
  match v with
  | .vnum (.intVal n) =>
    simp only [GeneralPurposeEncoder.canon]
    split
    next hneg =>
      simp only [GeneralPurposeEncoder.parseCanon, if_pos rfl]
      rw [if_pos (by simp)]
      simp only [List.drop_succ_cons, List.drop_zero]
      rw [digitsToNat_natDigits, Int.toNat_of_nonneg (by omega)]
      simp
    next hneg =>
      have hne := natDigits_head?_ne n.toNat
      simp only [GeneralPurposeEncoder.parseCanon, if_pos rfl]
      rw [if_neg hne, digitsToNat_natDigits, Int.toNat_of_nonneg (by omega)]
      simp
  | .vnum (.floatVal bits) =>
    simp [GeneralPurposeEncoder.canon, GeneralPurposeEncoder.parseCanon, digitsToNat_natDigits]
  | .vstr s =>
    simp [GeneralPurposeEncoder.canon, GeneralPurposeEncoder.parseCanon]

theorem u32OfBytes_u32Bytes (v : Nat) : u32OfBytes (u32Bytes v) = v % pow32 := by
  have h := u32OfBytes_u32Bytes_append v []
  rwa [List.append_nil] at h

theorem natOfInt32_lt (n : Int) : natOfInt32 n < pow32 := by
  unfold natOfInt32 pow32
  omega

/-- C8.  For each built-in encoder, decoding an encoded value yields the
value back: byte-for-byte (and with the claimed layout and total size) for
the number encoder — tag byte 0 then the signed 32-bit big-endian value,
5 bytes, for integers representable in 32 bits; tag byte 1 then the 64-bit
IEEE-754 pattern, 9 bytes, for finite non-integer numbers — byte-for-byte
for the UTF-8 string encoder on well-formed strings, and value-equivalent
for the general-purpose encoder (modelled from the spec, its source being
absent from the repository). -/
theorem claim_C8 :
    (∀ n : Int, -2147483648 ≤ n → n < 2147483648 →
      NumberEncoder.encode (.intVal n) = 0 :: u32Bytes (natOfInt32 n) ∧
      (NumberEncoder.encode (.intVal n)).length = 5 ∧
      NumberEncoder.decode (NumberEncoder.encode (.intVal n)) = .intVal n) ∧
    (∀ bits : Nat, bits < 18446744073709551616 →
      NumberEncoder.encode (.floatVal bits) = 1 :: u64Bytes bits ∧
      (NumberEncoder.encode (.floatVal bits)).length = 9 ∧
      NumberEncoder.decode (NumberEncoder.encode (.floatVal bits)) = .floatVal bits) ∧
    (∀ s : Str, StrOk s →
      StringEncoder.decode (StringEncoder.encode s) = s) ∧
    (∀ v : Value, ValueOk v →
      GeneralPurposeEncoder.decode (GeneralPurposeEncoder.encode v) = some v) := by
  refine ⟨?_, ?_, ?_, ?_⟩
  · intro n h1 h2
    refine ⟨rfl, by simp [NumberEncoder.encode, u32Bytes], ?_⟩
    show NumberEncoder.decode (0 :: u32Bytes (natOfInt32 n)) = JsNumber.intVal n
    unfold NumberEncoder.decode
    rw [if_pos (by simp)]
    simp only [List.drop_succ_cons, List.drop_zero]
    rw [u32OfBytes_u32Bytes, Nat.mod_eq_of_lt (natOfInt32_lt n), int32_roundtrip n h1 h2]
  · intro bits hb
    refine ⟨rfl, by simp [NumberEncoder.encode, u64Bytes, u32Bytes], ?_⟩
    show NumberEncoder.decode (1 :: u64Bytes bits) = JsNumber.floatVal bits
    unfold NumberEncoder.decode
    rw [if_neg (by simp)]
    simp only [List.drop_succ_cons, List.drop_zero]
    rw [u64OfBytes_u64Bytes bits hb]
  · intro s hs
    exact utf8_roundtrip hs
  · intro v hv
    unfold GeneralPurposeEncoder.decode GeneralPurposeEncoder.encode
    rw [utf8_roundtrip (canon_ok hv), parseCanon_canon hv]

/-- C8, witness: the round trips at the concrete values `-5`, the bit
pattern of 1.5, and the string "aé€𐍈". -/
theorem claim_C8_witness :
    NumberEncoder.decode (NumberEncoder.encode (.intVal (-5))) = .intVal (-5) ∧
    NumberEncoder.decode (NumberEncoder.encode (.floatVal 4609434218613702656)) =
      .floatVal 4609434218613702656 ∧
    StringEncoder.decode (StringEncoder.encode [97, 233, 8364, 66376]) =
      [97, 233, 8364, 66376] ∧
    GeneralPurposeEncoder.decode (GeneralPurposeEncoder.encode (.vstr [97, 233])) =
      some (.vstr [97, 233]) :=
  ⟨(claim_C8.1 (-5) (by decide) (by decide)).2.2,
   (claim_C8.2.1 4609434218613702656 (by decide)).2.2,
   claim_C8.2.2.1 [97, 233, 8364, 66376] (by decide),
   claim_C8.2.2.2 (.vstr [97, 233]) (by decide)⟩

/-! ### The array's slot shift on delete (claim C9) -/

theorem shiftLeft_spec (L : Nat) :
    ∀ (count : Nat) (st : ArrayCore) (i : Nat), ShareableArray.length st = L →
    count = L - i →
    (ShareableArray.shiftLeft st i count).dat = st.dat ∧
    (ShareableArray.shiftLeft st i count).idx.size = st.idx.size ∧
    (ShareableArray.shiftLeft st i count).idx.getUint32 0 = st.idx.getUint32 0 ∧
    (ShareableArray.shiftLeft st i count).idx.getUint32 4 = st.idx.getUint32 4 ∧
    (ShareableArray.shiftLeft st i count).idx.getUint32 8 = st.idx.getUint32 8 ∧
    (∀ j, j < i →
      (ShareableArray.shiftLeft st i count).idx.getUint32 (12 + 4 * j) =
        st.idx.getUint32 (12 + 4 * j)) ∧
    (∀ j, i ≤ j → j < L →
      (ShareableArray.shiftLeft st i count).idx.getUint32 (12 + 4 * j) =
        st.idx.getUint32 (12 + 4 * (j + 1))) ∧
    (∀ j, L ≤ j →
      (ShareableArray.shiftLeft st i count).idx.getUint32 (12 + 4 * j) =
        st.idx.getUint32 (12 + 4 * j)) := by
  intro count
  induction count with
  | zero =>
    intro st i hL hc
    exact ⟨rfl, rfl, rfl, rfl, rfl, fun j hj => rfl,
      fun j hij hjL => absurd hjL (by omega), fun j hj => rfl⟩
  | succ count ih =>
    intro st i hL hc
    have hi : i < L := by omega
    simp only [ShareableArray.shiftLeft]
    rw [if_pos (by rw [hL]; exact hi)]
    set st1 : ArrayCore :=
      { st with idx := st.idx.setUint32 (12 + 4 * i) (st.idx.getUint32 (12 + 4 * (i + 1))) }
      with hst1
    have hL1 : ShareableArray.length st1 = L := by
      rw [← hL]
      exact Buf.getUint32_setUint32_ne _ _ (by omega)
    obtain ⟨hdat, hsize, h0, h4, h8, hlt, hmid, hge⟩ := ih st1 (i + 1) hL1 (by omega)
    refine ⟨hdat, hsize.trans rfl, h0.trans (Buf.getUint32_setUint32_ne _ _ (by omega)),
      h4.trans (Buf.getUint32_setUint32_ne _ _ (by omega)),
      h8.trans (Buf.getUint32_setUint32_ne _ _ (by omega)), ?_, ?_, ?_⟩
    · intro j hj
      rw [hlt j (by omega)]
      exact Buf.getUint32_setUint32_ne _ _ (by omega)
    · intro j hij hjL
      by_cases hji : j = i
      · subst hji
        rw [hlt j (by omega)]
        show st1.idx.getUint32 (12 + 4 * j) = _
        rw [hst1]
        exact Buf.getUint32_setUint32_same_nat _ _ _ (Buf.getUint32_lt _ _)
      · rw [hmid j (by omega) hjL]
        exact Buf.getUint32_setUint32_ne _ _ (by omega)
    · intro j hj
      rw [hge j hj]
      exact Buf.getUint32_setUint32_ne _ _ (by omega)

theorem readItem_lt (st : ArrayCore) (j : Nat) (h : j < ShareableArray.length st) :
    ShareableArray.readItem st j =
      (if st.idx.getUint32 (12 + 4 * j) = 1 then none
       else decodeValueById (st.dat.getUint32 (st.idx.getUint32 (12 + 4 * j)))
         (st.dat.readBytes (st.idx.getUint32 (12 + 4 * j) + 8)
           (st.dat.getUint32 (st.idx.getUint32 (12 + 4 * j) + 4)))) := by
  unfold ShareableArray.readItem
  rw [if_neg (by unfold ShareableArray.length at h; omega)]

theorem deleteItem_spec (st : ArrayCore) (i : Nat) (hi : i < ShareableArray.length st) :
    ShareableArray.length (ShareableArray.deleteItem st i) = ShareableArray.length st - 1 ∧
    (ShareableArray.deleteItem st i).dat = st.dat ∧
    (∀ j, j < i →
      (ShareableArray.deleteItem st i).idx.getUint32 (12 + 4 * j) =
        st.idx.getUint32 (12 + 4 * j)) ∧
    (∀ j, i ≤ j → j < ShareableArray.length st →
      (ShareableArray.deleteItem st i).idx.getUint32 (12 + 4 * j) =
        st.idx.getUint32 (12 + 4 * (j + 1))) ∧
    (∀ j, j < i →
      ShareableArray.readItem (ShareableArray.deleteItem st i) j =
        ShareableArray.readItem st j) ∧
    (∀ j, i ≤ j → j + 1 < ShareableArray.length st →
      ShareableArray.readItem (ShareableArray.deleteItem st i) j =
        ShareableArray.readItem st (j + 1)) := by
  have hL32 : ShareableArray.length st < pow32 := Buf.getUint32_lt _ _
  obtain ⟨hdat, hsize, h0, h4, h8, hlt, hmid, hge⟩ :=
    shiftLeft_spec (ShareableArray.length st) (ShareableArray.length st - i) st i rfl rfl
  set st1 := ShareableArray.shiftLeft st i (ShareableArray.length st - i) with hst1
  set dp := st.idx.getUint32 (12 + 4 * i) with hdp
  set st2 : ArrayCore :=
    (if dp ≠ 1 then
      { st1 with idx := (st1.idx.setUint32 8
          ((ShareableArray.usedSpace st1 : Int) - ((st1.dat.getUint32 (dp + 4) + 8 : Nat) : Int))) }
    else st1) with hst2
  have hD : ShareableArray.deleteItem st i =
      { st2 with idx := st2.idx.setUint32 0 ((st2.idx.getUint32 0 : Int) - 1) } := by
    rw [hst2, hdp, hst1]
    rfl
  have h2slots : ∀ j, st2.idx.getUint32 (12 + 4 * j) = st1.idx.getUint32 (12 + 4 * j) := by
    intro j
    rw [hst2]
    split
    · exact Buf.getUint32_setUint32_ne _ _ (by omega)
    · rfl
  have h2len : st2.idx.getUint32 0 = st1.idx.getUint32 0 := by
    rw [hst2]
    split
    · exact Buf.getUint32_setUint32_ne _ _ (by omega)
    · rfl
  have h2dat : st2.dat = st1.dat := by
    rw [hst2]
    split
    · rfl
    · rfl
  have hlen : ShareableArray.length (ShareableArray.deleteItem st i) =
      ShareableArray.length st - 1 := by
    show (ShareableArray.deleteItem st i).idx.getUint32 0 = _
    rw [hD]
    show (st2.idx.setUint32 0 ((st2.idx.getUint32 0 : Int) - 1)).getUint32 0 = _
    rw [Buf.getUint32_setUint32_same, h2len, h0]
    unfold ShareableArray.length at hi hL32 ⊢
    unfold pow32 at hL32 ⊢
    omega
  have hslotlt : ∀ j, j < i →
      (ShareableArray.deleteItem st i).idx.getUint32 (12 + 4 * j) =
        st.idx.getUint32 (12 + 4 * j) := by
    intro j hj
    rw [hD]
    show (st2.idx.setUint32 0 _).getUint32 (12 + 4 * j) = _
    rw [Buf.getUint32_setUint32_ne _ _ (by omega), h2slots, hlt j hj]
  have hslotmid : ∀ j, i ≤ j → j < ShareableArray.length st →
      (ShareableArray.deleteItem st i).idx.getUint32 (12 + 4 * j) =
        st.idx.getUint32 (12 + 4 * (j + 1)) := by
    intro j hij hjL
    rw [hD]
    show (st2.idx.setUint32 0 _).getUint32 (12 + 4 * j) = _
    rw [Buf.getUint32_setUint32_ne _ _ (by omega), h2slots, hmid j hij hjL]
  have hdat' : (ShareableArray.deleteItem st i).dat = st.dat := by
    rw [hD]
    show st2.dat = st.dat
    rw [h2dat, hdat]
  refine ⟨hlen, hdat', hslotlt, hslotmid, ?_, ?_⟩
  · intro j hj
    rw [readItem_lt _ j (by rw [hlen]; omega), readItem_lt st j (by omega),
      hslotlt j hj, hdat']
  · intro j hij hjL
    rw [readItem_lt _ j (by rw [hlen]; omega), readItem_lt st (j + 1) (by omega),
      hslotmid j hij (by omega), hdat']

/-- C9.  The literal scenario: `push("a"); push("b"); push("c");
delete(1)` leaves `at(0) = "a"`, `at(1) = "c"` and `length = 2`; and in
general (for any array state and any in-range index, with the index
region large enough for the source's one-past-the-end slot read, where
the `DataView` would otherwise throw), `deleteItem i` decrements `length`,
leaves the data region untouched, keeps the slots below `i`, shifts each
slot above `i` one position to the left, and preserves the readable value
at every remaining position. -/
theorem claim_C9 :
    (ShareableArray.length arr3del = 2 ∧
      ShareableArray.atIndex arr3del 0 = some (.vstr [97]) ∧
      ShareableArray.atIndex arr3del 1 = some (.vstr [99])) ∧
    (∀ (st : ArrayCore) (i : Nat), i < ShareableArray.length st →
      12 + 4 * ShareableArray.length st + 4 ≤ st.idx.size →
      ShareableArray.length (ShareableArray.deleteItem st i) = ShareableArray.length st - 1 ∧
      (ShareableArray.deleteItem st i).dat = st.dat ∧
      (∀ j, j < i →
        (ShareableArray.deleteItem st i).idx.getUint32 (12 + 4 * j) =
          st.idx.getUint32 (12 + 4 * j)) ∧
      (∀ j, i ≤ j → j < ShareableArray.length st →
        (ShareableArray.deleteItem st i).idx.getUint32 (12 + 4 * j) =
          st.idx.getUint32 (12 + 4 * (j + 1))) ∧
      (∀ j, j < i →
        ShareableArray.readItem (ShareableArray.deleteItem st i) j =
          ShareableArray.readItem st j) ∧
      (∀ j, i ≤ j → j + 1 < ShareableArray.length st →
        ShareableArray.readItem (ShareableArray.deleteItem st i) j =
          ShareableArray.readItem st (j + 1))) := by
  refine ⟨⟨by decide, by decide, by decide⟩, ?_⟩
  intro st i hi _hroom
  exact deleteItem_spec st i hi

/-- C9, witness: the general clause applied to the concrete 3-element
array at index 1. -/
theorem claim_C9_witness :
    ShareableArray.length (ShareableArray.deleteItem arr3 1) =
      ShareableArray.length arr3 - 1 ∧
    ShareableArray.readItem (ShareableArray.deleteItem arr3 1) 1 =
      ShareableArray.readItem arr3 2 :=
  ⟨(claim_C9.2 arr3 1 (by decide) (by decide)).1,
   (claim_C9.2 arr3 1 (by decide) (by decide)).2.2.2.2.2 1 (by decide) (by decide)⟩

/-! ### Ghost-trace lemmas

Only the four lock methods touch the ghost `events` trace; every other
helper leaves it unchanged.  These lemmas let the locking claim C5 be read
off the public operations. -/

theorem events_acquireReadLock {st st' : MapCore}
    (h : ShareableMap.acquireReadLock st = some st') :
    st'.events = st.events ++ [LockEvent.acquireRead] := by
  unfold ShareableMap.acquireReadLock at h
  dsimp only at h
  split at h
  · cases h; rfl
  · split at h
    · split at h
      · cases h; rfl
      · cases h; rfl
    · cases h

theorem events_releaseReadLock (st : MapCore) :
    (ShareableMap.releaseReadLock st).events = st.events ++ [LockEvent.releaseRead] := by
  unfold ShareableMap.releaseReadLock
  dsimp only
  split
  · rfl
  · split
    · rfl
    · rfl

theorem events_acquireWriteLock {st st' : MapCore}
    (h : ShareableMap.acquireWriteLock st = some st') :
    st'.events = st.events ++ [LockEvent.acquireWrite] := by
  unfold ShareableMap.acquireWriteLock at h
  dsimp only at h
  split at h
  · cases h; rfl
  · split at h
    · cases h; rfl
    · cases h

theorem events_releaseWriteLock (st : MapCore) :
    (ShareableMap.releaseWriteLock st).events = st.events ++ [LockEvent.releaseWrite] := by
  unfold ShareableMap.releaseWriteLock
  dsimp only
  split
  · rfl
  · rfl
theorem events_deleteItem {st : MapCore} {key : Str} {fuel : Nat} {b : Bool} {st' : MapCore}
    (h : ShareableMap.deleteItem st key fuel = some (b, st')) : st'.events = st.events := by
  unfold ShareableMap.deleteItem at h
  simp only [Option.bind_eq_bind, Option.bind_eq_some] at h
  obtain ⟨rv, hf, h⟩ := h
  cases rv with
  | none =>
    dsimp only at h
    cases h; rfl
  | some pr =>
    obtain ⟨startPos, v⟩ := pr
    dsimp only at h
    split at h
    · simp only [Option.some_bind] at h
      cases h; rfl
    · rw [Option.bind_eq_some] at h
      obtain ⟨d, hd, h⟩ := h
      simp only [Option.some_bind] at h
      cases h; rfl
theorem events_mapDefragChain {bucket : Nat} :
    ∀ {fuel : Nat} {nv : Buf} {off p : Nat} {st st' : MapCore} {nv' : Buf} {off' : Nat},
    ShareableMap.mapDefragChain st nv off bucket p fuel = some (st', nv', off') →
    st'.events = st.events := by
  intro fuel
  induction fuel with
  | zero =>
    intro nv off p st st' nv' off' h
    exact absurd h (by simp [ShareableMap.mapDefragChain])
  | succ fuel ih =>
    intro nv off p st st' nv' off' h
    unfold ShareableMap.mapDefragChain at h
    split at h
    · cases h; rfl
    · simp only [Option.bind_eq_bind, Option.bind_eq_some] at h
      split at h
      · simp only [Option.some_bind] at h
        exact (ih h).trans rfl
      · rw [Option.bind_eq_some] at h
        obtain ⟨nv2, hnv, h⟩ := h
        simp only [Option.some_bind] at h
        exact (ih h).trans rfl
theorem events_mapDefragBuckets {fuel : Nat} :
    ∀ {count : Nat} {st st' : MapCore} {nv nv' : Buf} {off bucket off' : Nat},
    ShareableMap.mapDefragBuckets st nv off bucket count fuel = some (st', nv', off') →
    st'.events = st.events := by
  intro count
  induction count with
  | zero =>
    intro st st' nv nv' off bucket off' h
    simp only [ShareableMap.mapDefragBuckets] at h
    cases h; rfl
  | succ count ih =>
    intro st st' nv nv' off bucket off' h
    unfold ShareableMap.mapDefragBuckets at h
    split at h
    · simp only [Option.bind_eq_bind, Option.bind_eq_some] at h
      obtain ⟨⟨stm, nvm, offm⟩, hc, h⟩ := h
      exact (ih h).trans ((events_mapDefragChain hc).trans rfl)
    · cases h; rfl

theorem events_defragment {st st' : MapCore} {fuel : Nat}
    (h : ShareableMap.defragment st fuel = some st') : st'.events = st.events := by
  unfold ShareableMap.defragment at h
  simp only [Option.bind_eq_bind, Option.bind_eq_some] at h
  obtain ⟨⟨stm, nvm, offm⟩, hb, h⟩ := h
  cases h
  have h2 := events_mapDefragBuckets hb
  exact h2

theorem events_rehashBuckets {fuel : Nat} :
    ∀ {count : Nat} {st st' : MapCore} {nv nv' : Buf} {nb biu bucket biu' : Nat},
    ShareableMap.rehashBuckets st nv nb biu bucket count fuel = some (st', nv', biu') →
    st'.events = st.events := by
  intro count
  induction count with
  | zero =>
    intro st st' nv nv' nb biu bucket biu' h
    simp only [ShareableMap.rehashBuckets] at h
    cases h; rfl
  | succ count ih =>
    intro st st' nv nv' nb biu bucket biu' h
    unfold ShareableMap.rehashBuckets at h
    split at h
    · simp only [Option.bind_eq_bind, Option.bind_eq_some] at h
      obtain ⟨⟨datm, nvm, bium⟩, hc, h⟩ := h
      exact (ih h).trans rfl
    · cases h; rfl

theorem events_doubleIndexStorage {st st' : MapCore} {fuel : Nat}
    (h : ShareableMap.doubleIndexStorage st fuel = some st') : st'.events = st.events := by
  unfold ShareableMap.doubleIndexStorage at h
  simp only [Option.bind_eq_bind, Option.bind_eq_some] at h
  obtain ⟨⟨stm, nvm, bium⟩, hb, h⟩ := h
  cases h
  have h2 := events_rehashBuckets hb
  exact h2

theorem events_inPlaceOverwrite (st : MapCore) (foundPosition : Nat) (value : Value) :
    (ShareableMap.inPlaceOverwrite st foundPosition value).events = st.events := rfl

theorem events_growDataIfNeeded {st st' : MapCore} {mk mv fuel : Nat}
    (h : ShareableMap.growDataIfNeeded st mk mv fuel = some st') : st'.events = st.events := by
  unfold ShareableMap.growDataIfNeeded at h
  split at h
  · split at h
    · exact events_defragment h
    · cases h; rfl
  · cases h; rfl

theorem events_linkEntryIntoBucket {st st' : MapCore} {bucket startPos fuel : Nat}
    (h : ShareableMap.linkEntryIntoBucket st bucket startPos fuel = some st') :
    st'.events = st.events := by
  unfold ShareableMap.linkEntryIntoBucket at h
  dsimp only at h
  split at h
  · cases h; rfl
  · rw [Option.map_eq_some'] at h
    obtain ⟨d, hd, h⟩ := h
    cases h; rfl

theorem events_storeNewEntry {st st' : MapCore} {keyString : Str} {value : Value}
    {hash bucket fuel : Nat}
    (h : ShareableMap.storeNewEntry st keyString value hash bucket fuel = some st') :
    st'.events = st.events := by
  unfold ShareableMap.storeNewEntry at h
  simp only [Option.bind_eq_bind, Option.bind_eq_some] at h
  obtain ⟨st1, hgrow, h⟩ := h
  obtain ⟨st2, hlink, h⟩ := h
  have h2 := events_linkEntryIntoBucket hlink
  have h3 : st'.events = st2.events := by
    split at h
    · exact events_doubleIndexStorage h
    · cases h; rfl
  have h1 := events_growDataIfNeeded hgrow
  rw [h3, h2]
  exact h1

theorem events_set {st st' : MapCore} {key : Str} {value : Value} {fuel : Nat}
    (h : ShareableMap.set st key value fuel = some st') :
    st'.events = st.events ++ [LockEvent.acquireWrite, LockEvent.releaseWrite] := by
  unfold ShareableMap.set at h
  simp only [Option.bind_eq_bind, Option.bind_eq_some] at h
  obtain ⟨st1, hacq, h⟩ := h
  have h1 := events_acquireWriteLock hacq
  obtain ⟨rv, hfind, h⟩ := h
  cases rv with
  | none =>
    dsimp only at h
    rw [Option.bind_eq_some] at h
    obtain ⟨st2, hstore, h⟩ := h
    cases h
    rw [events_releaseWriteLock, events_storeNewEntry hstore, h1]
    simp
  | some pr =>
    obtain ⟨foundPosition, fv⟩ := pr
    dsimp only at h
    split at h
    · rw [Option.bind_eq_some] at h
      obtain ⟨⟨b, st2⟩, hdel, h⟩ := h
      rw [Option.bind_eq_some] at h
      obtain ⟨st3, hstore, h⟩ := h
      cases h
      rw [events_releaseWriteLock]
      have h4 := events_storeNewEntry hstore
      have h5 := events_deleteItem hdel
      rw [h4, h5, h1]
      simp
    · cases h
      rw [events_releaseWriteLock, events_inPlaceOverwrite, h1]
      simp
theorem events_get {st st' : MapCore} {key : Str} {fuel : Nat} {v : Option Value}
    (h : ShareableMap.get st key fuel = some (v, st')) :
    st'.events = st.events ++ [LockEvent.acquireRead, LockEvent.releaseRead] := by
  unfold ShareableMap.get at h
  simp only [Option.bind_eq_bind, Option.bind_eq_some] at h
  obtain ⟨st1, hacq, h⟩ := h
  have h1 := events_acquireReadLock hacq
  obtain ⟨rv, hfind, h⟩ := h
  cases rv with
  | none => dsimp only at h; cases h; rw [events_releaseReadLock, h1]; simp
  | some pr =>
    obtain ⟨p, v0⟩ := pr
    dsimp only at h
    cases h
    rw [events_releaseReadLock, h1]
    simp

theorem events_has {st st' : MapCore} {key : Str} {fuel : Nat} {b : Bool}
    (h : ShareableMap.has st key fuel = some (b, st')) :
    st'.events = st.events ++ [LockEvent.acquireRead, LockEvent.releaseRead] := by
  unfold ShareableMap.has at h
  simp only [Option.bind_eq_bind, Option.bind_eq_some] at h
  obtain ⟨st1, hacq, h⟩ := h
  have h1 := events_acquireReadLock hacq
  obtain ⟨rv, hfind, h⟩ := h
  cases h
  rw [events_releaseReadLock, h1]
  simp

theorem events_sizeOp {st st' : MapCore} {n : Nat}
    (h : ShareableMap.size st = some (n, st')) :
    st'.events = st.events ++ [LockEvent.acquireRead, LockEvent.releaseRead] := by
  unfold ShareableMap.size at h
  simp only [Option.bind_eq_bind, Option.bind_eq_some] at h
  obtain ⟨st1, hacq, h⟩ := h
  have h1 := events_acquireReadLock hacq
  cases h
  rw [events_releaseReadLock, h1]
  simp

theorem events_deleteKey {st st' : MapCore} {key : Str} {fuel : Nat} {b : Bool}
    (h : ShareableMap.deleteKey st key fuel = some (b, st')) :
    st'.events = st.events ++ [LockEvent.acquireWrite, LockEvent.releaseWrite] := by
  unfold ShareableMap.deleteKey at h
  simp only [Option.bind_eq_bind, Option.bind_eq_some] at h
  obtain ⟨st1, hacq, h⟩ := h
  have h1 := events_acquireWriteLock hacq
  obtain ⟨⟨b2, st2⟩, hdel, h⟩ := h
  cases h
  rw [events_releaseWriteLock, events_deleteItem hdel, h1]
  simp

theorem events_clear {st st' : MapCore} (h : ShareableMap.clear st = some st') :
    st'.events = st.events ++ [LockEvent.acquireWrite, LockEvent.releaseWrite] := by
  unfold ShareableMap.clear at h
  simp only [Option.bind_eq_bind, Option.bind_eq_some] at h
  obtain ⟨st1, hacq, h⟩ := h
  have h1 := events_acquireWriteLock hacq
  cases h
  rw [events_releaseWriteLock, h1]
  simp

theorem events_forEach {st st' : MapCore} {fuel : Nat} {l : List (Str × Option Value)}
    (h : ShareableMap.forEach st fuel = some (l, st')) :
    st'.events = st.events ++ [LockEvent.acquireRead, LockEvent.releaseRead] := by
  unfold ShareableMap.forEach at h
  simp only [Option.bind_eq_bind, Option.bind_eq_some] at h
  obtain ⟨st1, hacq, h⟩ := h
  have h1 := events_acquireReadLock hacq
  obtain ⟨l0, hl, h⟩ := h
  cases h
  rw [events_releaseReadLock, h1]
  simp

theorem entries_pure {st st' : MapCore} {fuel : Nat} {l : List (Str × Option Value)}
    (h : ShareableMap.entries st fuel = some (l, st')) : st' = st := by
  unfold ShareableMap.entries at h
  simp only [Option.bind_eq_bind, Option.bind_eq_some] at h
  obtain ⟨l0, hl, h⟩ := h
  cases h
  rfl

theorem keys_pure {st st' : MapCore} {fuel : Nat} {l : List Str}
    (h : ShareableMap.keys st fuel = some (l, st')) : st' = st := by
  unfold ShareableMap.keys at h
  simp only [Option.bind_eq_bind, Option.bind_eq_some] at h
  obtain ⟨l0, hl, h⟩ := h
  cases h
  rfl

theorem values_pure {st st' : MapCore} {fuel : Nat} {l : List (Option Value)}
    (h : ShareableMap.values st fuel = some (l, st')) : st' = st := by
  unfold ShareableMap.values at h
  simp only [Option.bind_eq_bind, Option.bind_eq_some] at h
  obtain ⟨l0, hl, h⟩ := h
  cases h
  rfl

/-- C5, counterexample.  The claim states that the iterators `entries`,
`keys` and `values` hold the read lock across the whole iteration.  Their
generator bodies (src part_007 166-196) contain no lock call at all: on a
map whose index region is truly shared (where a read lock would mutate the
`read_count` and `lock_state` words and is recorded in the ghost trace), a
complete `entries`/`keys`/`values` iteration over the four stored entries
finishes with an empty lock-call trace and both lock words still 0. -/
theorem claim_C5_cex :
    (ShareableMap.entries mapC5 50).map
        (fun p => (p.1.map Prod.fst, p.2.events, p.2.idx.getUint32 12, p.2.idx.getUint32 20)) =
      some ([[97], [100], [98], [99]], [], 0, 0) ∧
    (ShareableMap.keys mapC5 50).map
        (fun p => (p.1, p.2.events, p.2.idx.getUint32 12, p.2.idx.getUint32 20)) =
      some ([[97], [100], [98], [99]], [], 0, 0) ∧
    (ShareableMap.values mapC5 50).map (fun p => p.2.events) = some [] := by
  refine ⟨by decide, by decide, by decide⟩

/-- C5, amended.  Every completed `get`, `has`, `size` and `forEach` both
acquires and releases the read lock, and every completed `set`, `delete`
and `clear` the write lock, each for the operation's entire duration (the
ghost trace the operation appends is exactly one acquire followed by one
release, with no lock activity in between); the iterators `entries`,
`keys` and `values`, however, take no lock at all: a completed iteration
returns the map state — lock words and ghost trace included — exactly as
it found it. -/
theorem claim_C5 :
    (∀ (st : MapCore) (key : Str) (fuel : Nat) (v : Option Value) (st' : MapCore),
      ShareableMap.get st key fuel = some (v, st') →
      st'.events = st.events ++ [LockEvent.acquireRead, LockEvent.releaseRead]) ∧
    (∀ (st : MapCore) (key : Str) (fuel : Nat) (b : Bool) (st' : MapCore),
      ShareableMap.has st key fuel = some (b, st') →
      st'.events = st.events ++ [LockEvent.acquireRead, LockEvent.releaseRead]) ∧
    (∀ (st : MapCore) (n : Nat) (st' : MapCore),
      ShareableMap.size st = some (n, st') →
      st'.events = st.events ++ [LockEvent.acquireRead, LockEvent.releaseRead]) ∧
    (∀ (st : MapCore) (fuel : Nat) (l : List (Str × Option Value)) (st' : MapCore),
      ShareableMap.forEach st fuel = some (l, st') →
      st'.events = st.events ++ [LockEvent.acquireRead, LockEvent.releaseRead]) ∧
    (∀ (st : MapCore) (key : Str) (value : Value) (fuel : Nat) (st' : MapCore),
      ShareableMap.set st key value fuel = some st' →
      st'.events = st.events ++ [LockEvent.acquireWrite, LockEvent.releaseWrite]) ∧
    (∀ (st : MapCore) (key : Str) (fuel : Nat) (b : Bool) (st' : MapCore),
      ShareableMap.deleteKey st key fuel = some (b, st') →
      st'.events = st.events ++ [LockEvent.acquireWrite, LockEvent.releaseWrite]) ∧
    (∀ (st st' : MapCore),
      ShareableMap.clear st = some st' →
      st'.events = st.events ++ [LockEvent.acquireWrite, LockEvent.releaseWrite]) ∧
    (∀ (st : MapCore) (fuel : Nat) (l : List (Str × Option Value)) (st' : MapCore),
      ShareableMap.entries st fuel = some (l, st') → st' = st) ∧
    (∀ (st : MapCore) (fuel : Nat) (l : List Str) (st' : MapCore),
      ShareableMap.keys st fuel = some (l, st') → st' = st) ∧
    (∀ (st : MapCore) (fuel : Nat) (l : List (Option Value)) (st' : MapCore),
      ShareableMap.values st fuel = some (l, st') → st' = st) := by
  exact ⟨fun _ _ _ _ _ => events_get, fun _ _ _ _ _ => events_has,
    fun _ _ _ => events_sizeOp, fun _ _ _ _ => events_forEach,
    fun _ _ _ _ _ => events_set, fun _ _ _ _ _ => events_deleteKey,
    fun _ _ => events_clear, fun _ _ _ _ => entries_pure,
    fun _ _ _ _ => keys_pure, fun _ _ _ _ => values_pure⟩

/-- C5, witness: the amended theorem applied to a completed concrete `get`
on the C1 map. -/
theorem claim_C5_witness :
    (ShareableMap.get emptyMap8 [97] 5).map (fun p => p.2.events) =
      some (emptyMap8.events ++ [LockEvent.acquireRead, LockEvent.releaseRead]) := by
  rcases hg : ShareableMap.get emptyMap8 [97] 5 with _ | ⟨v, st'⟩
  · have hs : (ShareableMap.get emptyMap8 [97] 5).isSome = true := by decide
    rw [hg] at hs
    cases hs
  · have he := claim_C5.1 emptyMap8 [97] 5 v st' hg
    simp [he]

/-! ### Load-factor bookkeeping (claim C6)

Which helpers can touch the index region's byte size and its
buckets-in-use word (offset 4): only `doubleIndexStorage` replaces the
region, and only `incrementBucketsInUse` (inside the bucket-linking step)
and `clear` write offset 4. -/

theorem acquireWriteLock_pres {st st' : MapCore}
    (h : ShareableMap.acquireWriteLock st = some st') :
    st'.idx.size = st.idx.size ∧ st'.idx.getUint32 4 = st.idx.getUint32 4 ∧
    st'.dat = st.dat ∧ st'.idx.getUint32 0 = st.idx.getUint32 0 ∧
    (∀ j, 24 ≤ j → st'.idx.getUint32 j = st.idx.getUint32 j) ∧
    st'.idx.getUint32 8 = st.idx.getUint32 8 ∧
    st'.idx.getUint32 16 = st.idx.getUint32 16 := by
  unfold ShareableMap.acquireWriteLock at h
  dsimp only at h
  split at h
  · cases h
    exact ⟨rfl, rfl, rfl, rfl, fun j hj => rfl, rfl, rfl⟩
  · split at h
    · cases h
      refine ⟨rfl, Buf.getUint32_setUint32_ne _ _ (by omega), rfl,
        Buf.getUint32_setUint32_ne _ _ (by omega),
        fun j hj => Buf.getUint32_setUint32_ne _ _ (by omega),
        Buf.getUint32_setUint32_ne _ _ (by omega),
        Buf.getUint32_setUint32_ne _ _ (by omega)⟩
    · cases h

theorem releaseWriteLock_pres (st : MapCore) :
    (ShareableMap.releaseWriteLock st).idx.size = st.idx.size ∧
    (ShareableMap.releaseWriteLock st).idx.getUint32 4 = st.idx.getUint32 4 ∧
    (ShareableMap.releaseWriteLock st).dat = st.dat ∧
    (ShareableMap.releaseWriteLock st).idx.getUint32 0 = st.idx.getUint32 0 ∧
    (∀ j, 24 ≤ j → (ShareableMap.releaseWriteLock st).idx.getUint32 j = st.idx.getUint32 j) ∧
    (ShareableMap.releaseWriteLock st).idx.getUint32 8 = st.idx.getUint32 8 ∧
    (ShareableMap.releaseWriteLock st).idx.getUint32 16 = st.idx.getUint32 16 := by
  unfold ShareableMap.releaseWriteLock
  dsimp only
  split
  · exact ⟨rfl, rfl, rfl, rfl, fun j hj => rfl, rfl, rfl⟩
  · refine ⟨rfl, Buf.getUint32_setUint32_ne _ _ (by omega), rfl,
      Buf.getUint32_setUint32_ne _ _ (by omega),
      fun j hj => Buf.getUint32_setUint32_ne _ _ (by omega),
      Buf.getUint32_setUint32_ne _ _ (by omega),
      Buf.getUint32_setUint32_ne _ _ (by omega)⟩

theorem deleteItem_idx {st : MapCore} {key : Str} {fuel : Nat} {b : Bool} {st' : MapCore}
    (h : ShareableMap.deleteItem st key fuel = some (b, st')) :
    st'.idx.size = st.idx.size ∧ st'.idx.getUint32 4 = st.idx.getUint32 4 := by
  unfold ShareableMap.deleteItem at h
  simp only [Option.bind_eq_bind, Option.bind_eq_some] at h
  obtain ⟨rv, hf, h⟩ := h
  cases rv with
  | none =>
    dsimp only at h
    cases h
    exact ⟨rfl, rfl⟩
  | some pr =>
    obtain ⟨startPos, v⟩ := pr
    dsimp only at h
    split at h
    · simp only [Option.some_bind] at h
      cases h
      refine ⟨rfl, ?_⟩
      simp only [ShareableMap.decreaseSize, ShareableMap.setSpaceUsed]
      rw [Buf.getUint32_setUint32_ne _ _ (by omega),
        Buf.getUint32_setUint32_ne _ _ (by omega),
        Buf.getUint32_setUint32_ne _ _ (by omega)]
    · rw [Option.bind_eq_some] at h
      obtain ⟨d, hd, h⟩ := h
      simp only [Option.some_bind] at h
      cases h
      refine ⟨rfl, ?_⟩
      simp only [ShareableMap.decreaseSize, ShareableMap.setSpaceUsed]
      rw [Buf.getUint32_setUint32_ne _ _ (by omega),
        Buf.getUint32_setUint32_ne _ _ (by omega)]

theorem mapDefragChain_idx {newView : Buf} {newOffset bucket dataPointer fuel : Nat}
    {st st' : MapCore} {nv' : Buf} {off' : Nat}
    (h : ShareableMap.mapDefragChain st newView newOffset bucket dataPointer fuel =
      some (st', nv', off')) :
    st'.idx.size = st.idx.size ∧ st'.idx.getUint32 4 = st.idx.getUint32 4 := by
  induction fuel generalizing newView newOffset dataPointer st with
  | zero => cases h
  | succ fuel ih =>
    rw [ShareableMap.mapDefragChain] at h
    split at h
    · cases h
      exact ⟨rfl, rfl⟩
    · simp only [Option.bind_eq_bind, Option.bind_eq_some] at h
      split at h
      · simp only [Option.some_bind] at h
        have hx := ih h
        refine ⟨hx.1.trans rfl, hx.2.trans ?_⟩
        exact Buf.getUint32_setUint32_ne _ _ (by omega)
      · rw [Option.bind_eq_some] at h
        obtain ⟨nv2, hnv, h⟩ := h
        simp only [Option.some_bind] at h
        have hx := ih h
        exact ⟨hx.1, hx.2⟩

theorem mapDefragBuckets_idx {newView : Buf} {newOffset bucket count fuel : Nat}
    {st st' : MapCore} {nv' : Buf} {off' : Nat}
    (h : ShareableMap.mapDefragBuckets st newView newOffset bucket count fuel =
      some (st', nv', off')) :
    st'.idx.size = st.idx.size ∧ st'.idx.getUint32 4 = st.idx.getUint32 4 := by
  induction count generalizing newView newOffset bucket st with
  | zero =>
    rw [ShareableMap.mapDefragBuckets] at h
    cases h
    exact ⟨rfl, rfl⟩
  | succ count ih =>
    rw [ShareableMap.mapDefragBuckets] at h
    split at h
    · simp only [Option.bind_eq_bind, Option.bind_eq_some] at h
      obtain ⟨⟨st1, nv1, off1⟩, h1, h2⟩ := h
      have hx := mapDefragChain_idx h1
      have hy := ih h2
      refine ⟨(hy.1.trans hx.1).trans rfl, (hy.2.trans hx.2).trans ?_⟩
      exact Buf.getUint32_setUint32_ne _ _ (by omega)
    · cases h
      exact ⟨rfl, rfl⟩

theorem defragment_idx {fuel : Nat} {st st' : MapCore}
    (h : ShareableMap.defragment st fuel = some st') :
    st'.idx.size = st.idx.size ∧ st'.idx.getUint32 4 = st.idx.getUint32 4 := by
  unfold ShareableMap.defragment at h
  simp only [Option.bind_eq_bind, Option.bind_eq_some] at h
  obtain ⟨⟨st1, nv1, off1⟩, h1, h2⟩ := h
  cases h2
  have hx := mapDefragBuckets_idx h1
  unfold ShareableMap.setFreeStart
  refine ⟨hx.1, .trans ?_ hx.2⟩
  exact Buf.getUint32_setUint32_ne _ _ (by omega)

theorem growDataIfNeeded_idx {maxKeyLength maxValueLength fuel : Nat} {st st' : MapCore}
    (h : ShareableMap.growDataIfNeeded st maxKeyLength maxValueLength fuel = some st') :
    st'.idx.size = st.idx.size ∧ st'.idx.getUint32 4 = st.idx.getUint32 4 := by
  unfold ShareableMap.growDataIfNeeded at h
  split at h
  · split at h
    · exact defragment_idx h
    · cases h
      exact ⟨rfl, rfl⟩
  · cases h
    exact ⟨rfl, rfl⟩

theorem linkEntryIntoBucket_idxsize {bucket startPos fuel : Nat} {st st' : MapCore}
    (h : ShareableMap.linkEntryIntoBucket st bucket startPos fuel = some st') :
    st'.idx.size = st.idx.size := by
  unfold ShareableMap.linkEntryIntoBucket at h
  dsimp only at h
  split at h
  · cases h
    rfl
  · rw [Option.map_eq_some'] at h
    obtain ⟨d, hd, h⟩ := h
    cases h
    rfl

theorem rehashChain_nvsize {dat newIndexView : Buf} {newBuckets bucketsInUse startPos fuel : Nat}
    {dat' nv' : Buf} {biu' : Nat}
    (h : ShareableMap.rehashChain dat newIndexView newBuckets bucketsInUse startPos fuel =
      some (dat', nv', biu')) :
    nv'.size = newIndexView.size := by
  induction fuel generalizing dat newIndexView bucketsInUse startPos with
  | zero => cases h
  | succ fuel ih =>
    rw [ShareableMap.rehashChain] at h
    split at h
    · cases h
      rfl
    · simp only [Option.bind_eq_bind, Option.bind_eq_some] at h
      split at h
      · simp only [Option.some_bind] at h
        exact (ih h).trans rfl
      · rw [Option.bind_eq_some] at h
        obtain ⟨d2, hd2, h⟩ := h
        simp only [Option.some_bind] at h
        exact ih h

theorem rehashBuckets_nvsize {newIndexView : Buf} {newBuckets bucketsInUse bucket count fuel : Nat}
    {st st' : MapCore} {nv' : Buf} {biu' : Nat}
    (h : ShareableMap.rehashBuckets st newIndexView newBuckets bucketsInUse bucket count fuel =
      some (st', nv', biu')) :
    nv'.size = newIndexView.size := by
  induction count generalizing newIndexView bucketsInUse bucket st with
  | zero =>
    rw [ShareableMap.rehashBuckets] at h
    cases h
    rfl
  | succ count ih =>
    rw [ShareableMap.rehashBuckets] at h
    split at h
    · simp only [Option.bind_eq_bind, Option.bind_eq_some] at h
      obtain ⟨⟨d1, nv1, biu1⟩, h1, h2⟩ := h
      exact (ih h2).trans (rehashChain_nvsize h1)
    · cases h
      rfl

theorem copyHeaderWords_size (oldIdx : Buf) :
    ∀ (count : Nat) (newIdx : Buf) (i : Nat),
      (ShareableMap.copyHeaderWords oldIdx newIdx i count).size = newIdx.size := by
  intro count
  induction count with
  | zero => intro newIdx i; rfl
  | succ count ih =>
    intro newIdx i
    rw [ShareableMap.copyHeaderWords]
    split
    · exact (ih _ _).trans rfl
    · rfl

/-- The new index region of `doubleIndexStorage` has `4 * oldBuckets * 2`
bytes, so the bucket count after the rehash is `(8b - 24) / 4 = 2b - 6`
(in truncating natural arithmetic), not `2b`. -/
theorem doubleIndexStorage_buckets {fuel : Nat} {st st' : MapCore}
    (h : ShareableMap.doubleIndexStorage st fuel = some st') :
    ShareableMap.buckets st' = 2 * ShareableMap.buckets st - 6 := by
  unfold ShareableMap.doubleIndexStorage at h
  simp only [Option.bind_eq_bind, Option.bind_eq_some] at h
  obtain ⟨⟨st1, nv1, biu1⟩, h1, h2⟩ := h
  cases h2
  have hx := rehashBuckets_nvsize h1
  have hx' : nv1.size = 4 * ShareableMap.buckets st * 2 := hx.trans rfl
  show ShareableMap.buckets
    { st1 with idx := (ShareableMap.copyHeaderWords st1.idx nv1 0 6).setUint32 4 biu1 } = _
  unfold ShareableMap.buckets
  dsimp only
  rw [Buf.size_setUint32, copyHeaderWords_size, hx']
  unfold ShareableMap.buckets
  omega

theorem inPlaceOverwrite_idx (st : MapCore) (fp : Nat) (v : Value) :
    (ShareableMap.inPlaceOverwrite st fp v).idx.size = st.idx.size ∧
    (ShareableMap.inPlaceOverwrite st fp v).idx.getUint32 4 = st.idx.getUint32 4 := by
  unfold ShareableMap.inPlaceOverwrite ShareableMap.setSpaceUsed
  dsimp only
  exact ⟨rfl, Buf.getUint32_setUint32_ne _ _ (by omega)⟩

/-- A completed `needsToBeStored` branch of `set` either leaves the load
factor strictly below 0.75 (the final check came back negative) or rehashed
into `2b - 6` buckets. -/
theorem storeNewEntry_loadfactor {keyString : Str} {value : Value} {hash bucket fuel : Nat}
    {st st' : MapCore}
    (h : ShareableMap.storeNewEntry st keyString value hash bucket fuel = some st') :
    4 * ShareableMap.getBucketsInUse st' < 3 * ShareableMap.buckets st' ∨
      ShareableMap.buckets st' = 2 * ShareableMap.buckets st - 6 := by
  unfold ShareableMap.storeNewEntry at h
  simp only [Option.bind_eq_bind, Option.bind_eq_some] at h
  obtain ⟨st1, hg, h⟩ := h
  obtain ⟨st2, hlink, h⟩ := h
  have h2 := linkEntryIntoBucket_idxsize hlink
  have h1 := (growDataIfNeeded_idx hg).1
  have hsz : st2.idx.size = st.idx.size := h2.trans h1
  split at h
  · right
    rw [doubleIndexStorage_buckets h]
    unfold ShareableMap.buckets
    rw [hsz]
  · cases h
    left
    omega

theorem set_loadfactor {key : Str} {value : Value} {fuel : Nat} {st st' : MapCore}
    (h : ShareableMap.set st key value fuel = some st')
    (hpre : 4 * ShareableMap.getBucketsInUse st ≤ 3 * ShareableMap.buckets st) :
    4 * ShareableMap.getBucketsInUse st' ≤ 3 * ShareableMap.buckets st' ∨
      ShareableMap.buckets st' = 2 * ShareableMap.buckets st - 6 := by
  unfold ShareableMap.set at h
  simp only [Option.bind_eq_bind, Option.bind_eq_some] at h
  obtain ⟨st1, hacq, h⟩ := h
  obtain ⟨rv, hfind, h⟩ := h
  obtain ⟨hsz1, hbiu1, -, -, -, -, -⟩ := acquireWriteLock_pres hacq
  cases rv with
  | none =>
    dsimp only at h
    rw [Option.bind_eq_some] at h
    obtain ⟨st2, hsn, h⟩ := h
    cases h
    obtain ⟨hszR, hbiuR, -, -, -, -, -⟩ := releaseWriteLock_pres st2
    rcases storeNewEntry_loadfactor hsn with hlt | heq
    · left
      unfold ShareableMap.getBucketsInUse ShareableMap.buckets at hlt ⊢
      rw [hszR, hbiuR]
      omega
    · right
      unfold ShareableMap.buckets at heq hpre ⊢
      rw [hszR, heq, hsz1]
  | some pr =>
    obtain ⟨fp, fv⟩ := pr
    dsimp only at h
    split at h
    · simp only [Option.bind_eq_bind, Option.bind_eq_some] at h
      obtain ⟨⟨b2, st2⟩, hdel, h⟩ := h
      obtain ⟨st3, hsn, h⟩ := h
      cases h
      obtain ⟨hszD, -⟩ := deleteItem_idx hdel
      obtain ⟨hszR, hbiuR, -, -, -, -, -⟩ := releaseWriteLock_pres st3
      rcases storeNewEntry_loadfactor hsn with hlt | heq
      · left
        unfold ShareableMap.getBucketsInUse ShareableMap.buckets at hlt ⊢
        rw [hszR, hbiuR]
        omega
      · right
        unfold ShareableMap.buckets at heq ⊢
        rw [hszR, heq, hszD, hsz1]
    · cases h
      left
      obtain ⟨hszR, hbiuR, -, -, -, -, -⟩ :=
        releaseWriteLock_pres (ShareableMap.inPlaceOverwrite st1 fp value)
      obtain ⟨hszI, hbiuI⟩ := inPlaceOverwrite_idx st1 fp value
      unfold ShareableMap.getBucketsInUse ShareableMap.buckets at hpre ⊢
      rw [hszR, hbiuR, hszI, hbiuI, hsz1, hbiu1]
      exact hpre

theorem deleteKey_buckets {key : Str} {fuel : Nat} {b : Bool} {st st' : MapCore}
    (h : ShareableMap.deleteKey st key fuel = some (b, st')) :
    ShareableMap.getBucketsInUse st' = ShareableMap.getBucketsInUse st ∧
      ShareableMap.buckets st' = ShareableMap.buckets st := by
  unfold ShareableMap.deleteKey at h
  simp only [Option.bind_eq_bind, Option.bind_eq_some] at h
  obtain ⟨st1, hacq, h⟩ := h
  obtain ⟨⟨b2, st2⟩, hdel, h⟩ := h
  cases h
  obtain ⟨hsz1, hbiu1, -, -, -, -, -⟩ := acquireWriteLock_pres hacq
  obtain ⟨hszD, hbiuD⟩ := deleteItem_idx hdel
  obtain ⟨hszR, hbiuR, -, -, -, -, -⟩ := releaseWriteLock_pres st2
  constructor
  · unfold ShareableMap.getBucketsInUse
    rw [hbiuR, hbiuD, hbiu1]
  · unfold ShareableMap.buckets
    rw [hszR, hszD, hsz1]

theorem clear_biu {st st' : MapCore} (h : ShareableMap.clear st = some st') :
    ShareableMap.getBucketsInUse st' = 0 := by
  unfold ShareableMap.clear at h
  simp only [Option.bind_eq_bind, Option.bind_eq_some] at h
  obtain ⟨st1, hacq, h⟩ := h
  cases h
  unfold ShareableMap.getBucketsInUse
  rw [(releaseWriteLock_pres _).2.1]
  dsimp only
  rw [Buf.getUint32_setUint32_ne _ _ (by omega),
    Buf.getUint32_setUint32_ne _ _ (by omega),
    Buf.getUint32_setUint32_ne _ _ (by omega)]
  rw [Buf.getUint32_setUint32_same]
  rfl

/-- C6, counterexample.  The claim states the invariant
`buckets_in_use / bucket_count ≤ 0.75` after every completed mutation.
`doubleIndexStorage` allocates the new index region with
`4 * oldBuckets * 2` bytes but no allowance for the 24-byte header, so the
new bucket count is `(8b - 24) / 4 = 2b - 6`, not `2b`: inserting
`a, b, c, h` into a 5-bucket map triggers the rehash at the fourth insert
and ends it with 4 of 4 buckets in use — a completed `set` whose final
load factor is `1 > 0.75`. -/
theorem claim_C6_cex :
    (runRehash4.map fun st =>
      (ShareableMap.getBucketsInUse st, ShareableMap.buckets st)) = some (4, 4) ∧
    ¬ ((4 : Nat) * 4 ≤ 3 * 4) := by
  exact ⟨by decide, by decide⟩

/-- C6, amended.  After a completed mutation the load factor is at most
0.75 (`4 * buckets_in_use ≤ 3 * bucket_count`) unless that mutation was a
`set` that triggered the rehash, which shrinks the table to `2b - 6`
buckets (the new region gets `4 * oldBuckets * 2` bytes with no allowance
for the 24-byte header) and can leave the load factor above 0.75: a
completed `set` on a state satisfying the invariant either satisfies it
again (strictly, when a new entry was appended without rehash) or has
exactly `2b - 6` buckets; `delete` changes neither counter; `clear` zeroes
`buckets_in_use`. -/
theorem claim_C6 :
    (∀ (st : MapCore) (key : Str) (value : Value) (fuel : Nat) (st' : MapCore),
      ShareableMap.set st key value fuel = some st' →
      4 * ShareableMap.getBucketsInUse st ≤ 3 * ShareableMap.buckets st →
      (4 * ShareableMap.getBucketsInUse st' ≤ 3 * ShareableMap.buckets st' ∨
        ShareableMap.buckets st' = 2 * ShareableMap.buckets st - 6)) ∧
    (∀ (st : MapCore) (key : Str) (fuel : Nat) (b : Bool) (st' : MapCore),
      ShareableMap.deleteKey st key fuel = some (b, st') →
      ShareableMap.getBucketsInUse st' = ShareableMap.getBucketsInUse st ∧
      ShareableMap.buckets st' = ShareableMap.buckets st) ∧
    (∀ (st st' : MapCore), ShareableMap.clear st = some st' →
      ShareableMap.getBucketsInUse st' = 0) := by
  exact ⟨fun _ _ _ _ _ h hpre => set_loadfactor h hpre,
    fun _ _ _ _ _ h => deleteKey_buckets h, fun _ _ h => clear_biu h⟩

/-- C6, witness: the amended theorem's `set` clause applied to a completed
concrete insert on the empty 8-bucket map. -/
theorem claim_C6_witness :
    (ShareableMap.set emptyMap8 [97] (.vnum (.intVal 1)) 50).map
        (fun st' =>
          decide (4 * ShareableMap.getBucketsInUse st' ≤ 3 * ShareableMap.buckets st' ∨
            ShareableMap.buckets st' = 2 * ShareableMap.buckets emptyMap8 - 6)) =
      some true := by
  rcases hg : ShareableMap.set emptyMap8 [97] (.vnum (.intVal 1)) 50 with _ | st'
  · have hs : (ShareableMap.set emptyMap8 [97] (.vnum (.intVal 1)) 50).isSome = true := by
      decide
    rw [hg] at hs
    cases hs
  · have hd := claim_C6.1 emptyMap8 [97] (.vnum (.intVal 1)) 50 st' hg (by decide)
    simp [hd]

theorem Buf.getUint8_alloc (n i : Nat) : (Buf.alloc n).getUint8 i = 0 := rfl

theorem Buf.getUint32_alloc (n i : Nat) : (Buf.alloc n).getUint32 i = 0 := by
  unfold Buf.getUint32
  rw [Buf.getUint8_alloc, Buf.getUint8_alloc, Buf.getUint8_alloc, Buf.getUint8_alloc]

theorem chainOffsets_mono {dat : Buf} :
    ∀ {n : Nat} {p : Nat} {l : List Nat}, chainOffsets dat p n = some l →
    ∀ {m : Nat}, n ≤ m → chainOffsets dat p m = some l := by
  intro n
  induction n with
  | zero => intro p l h; cases h
  | succ n ih =>
    intro p l h m hm
    rw [chainOffsets] at h
    obtain ⟨m', rfl⟩ : ∃ m', m = m' + 1 := ⟨m - 1, by omega⟩
    rw [chainOffsets]
    split at h
    · rw [if_pos ‹p = 0›]
      exact h
    · rw [if_neg ‹¬p = 0›]
      rw [Option.map_eq_some'] at h
      obtain ⟨l0, hl0, rfl⟩ := h
      rw [ih hl0 (by omega)]
      rfl

/-- A chain walk only reads the `next` word of its own elements: any write
that preserves those words preserves the walk. -/
theorem chainOffsets_frame {dat dat' : Buf} :
    ∀ {n : Nat} {p : Nat} {l : List Nat}, chainOffsets dat p n = some l →
    (∀ q ∈ l, dat'.getUint32 q = dat.getUint32 q) →
    chainOffsets dat' p n = some l := by
  intro n
  induction n with
  | zero => intro p l h; cases h
  | succ n ih =>
    intro p l h hq
    rw [chainOffsets] at h ⊢
    by_cases hp0 : p = 0
    · rw [if_pos hp0] at h ⊢
      exact h
    · rw [if_neg hp0] at h ⊢
      rw [Option.map_eq_some'] at h
      obtain ⟨l0, hl0, rfl⟩ := h
      have hp : dat'.getUint32 p = dat.getUint32 p := hq p (List.mem_cons_self _ _)
      rw [hp, ih hl0 (fun q hq0 => hq q (List.mem_cons_of_mem _ hq0))]
      rfl

theorem chainOffsets_nil {dat : Buf} {n : Nat} {l : List Nat}
    (h : chainOffsets dat 0 n = some l) : l = [] := by
  cases n with
  | zero => cases h
  | succ n =>
    rw [chainOffsets, if_pos rfl] at h
    cases h
    rfl

theorem chainOffsets_cons {dat : Buf} {n p : Nat} {l : List Nat}
    (h : chainOffsets dat p (n + 1) = some l) (hp : p ≠ 0) :
    ∃ l0, chainOffsets dat (dat.getUint32 p) n = some l0 ∧ l = p :: l0 := by
  rw [chainOffsets, if_neg hp, Option.map_eq_some'] at h
  obtain ⟨l0, hl0, rfl⟩ := h
  exact ⟨l0, hl0, rfl⟩


theorem lastPtr_mem : ∀ {l : List Nat}, l ≠ [] → lastPtr l ∈ l
  | [], h => absurd rfl h
  | [_], _ => List.mem_singleton.mpr rfl
  | p :: q :: l, _ => List.mem_cons_of_mem p (lastPtr_mem (List.cons_ne_nil q l))

/-- A completed `updateLinkedPointer` walk along a chain writes `v` into
the `next` word of the chain's last element and changes nothing else. -/
theorem updateLinkedPointer_spec {v : Nat} :
    ∀ {fuel : Nat} {dat : Buf} {p n : Nat} {l : List Nat} {dat' : Buf},
    chainOffsets dat p n = some l → p ≠ 0 →
    ShareableMap.updateLinkedPointer dat p v fuel = some dat' →
    dat' = dat.setUint32 (lastPtr l) v := by
  intro fuel
  induction fuel with
  | zero => intro dat p n l dat' hc hp h; cases h
  | succ fuel ih =>
    intro dat p n l dat' hc hp h
    obtain ⟨n0, rfl⟩ : ∃ n0, n = n0 + 1 := by
      cases n with
      | zero => cases hc
      | succ n0 => exact ⟨n0, rfl⟩
    obtain ⟨l0, hl0, rfl⟩ := chainOffsets_cons hc hp
    rw [ShareableMap.updateLinkedPointer] at h
    split at h
    · have hnext : dat.getUint32 p ≠ 0 := ‹_›
      obtain ⟨n1, rfl⟩ : ∃ n1, n0 = n1 + 1 := by
        cases n0 with
        | zero => cases hl0
        | succ n1 => exact ⟨n1, rfl⟩
      obtain ⟨l1, hl1, rfl⟩ := chainOffsets_cons hl0 hnext
      have hx := ih hl0 hnext h
      rw [hx]
      rfl
    · cases h
      have hnext : dat.getUint32 p = 0 := by omega
      rw [hnext] at hl0
      rw [chainOffsets_nil hl0]
      rfl

/-- Appending an entry at a chain's tail: writing the new offset into the
tail's `next` word and zeroing the appended entry's own `next` word
extends the walked chain by exactly that entry, provided all the `next`
words involved occupy pairwise disjoint 4-byte slots. -/
theorem chainOffsets_append {dat : Buf} {s : Nat} (hs0 : s ≠ 0) (hs32 : s < pow32) :
    ∀ {n p : Nat} {l : List Nat}, chainOffsets dat p n = some l → p ≠ 0 → l.Nodup →
    (∀ q ∈ l, ∀ q' ∈ l, q ≠ q' → q + 4 ≤ q' ∨ q' + 4 ≤ q) →
    (∀ q ∈ l, q + 4 ≤ s ∨ s + 4 ≤ q) →
    chainOffsets ((dat.setUint32 (lastPtr l) s).setUint32 s 0) p (n + 1) =
      some (l ++ [s]) := by
  intro n
  induction n with
  | zero => intro p l h; cases h
  | succ n ih =>
    intro p l h hp hnd hsep hss
    obtain ⟨l0, hl0, rfl⟩ := chainOffsets_cons h hp
    have hpmem : p ∈ p :: l0 := List.mem_cons_self _ _
    have hps : p + 4 ≤ s ∨ s + 4 ≤ p := hss p hpmem
    cases l0 with
    | nil =>
      obtain ⟨n1, rfl⟩ : ∃ n1, n = n1 + 1 := by
        cases n with
        | zero => cases hl0
        | succ n1 => exact ⟨n1, rfl⟩
      have hnext : dat.getUint32 p = 0 := by
        by_contra hne
        obtain ⟨l1, hl1, he⟩ := chainOffsets_cons hl0 hne
        cases he
      have hlast : lastPtr [p] = p := rfl
      rw [chainOffsets, if_neg hp]
      have hgp : ((dat.setUint32 (lastPtr [p]) s).setUint32 s 0).getUint32 p = s := by
        rw [hlast, Buf.getUint32_setUint32_ne _ _ (by omega),
          Buf.getUint32_setUint32_same_nat _ _ _ hs32]
      rw [hgp]
      have hgs : ((dat.setUint32 (lastPtr [p]) s).setUint32 s 0).getUint32 s = 0 := by
        rw [Buf.getUint32_setUint32_same]
        rfl
      rw [chainOffsets, if_neg hs0, hgs, chainOffsets, if_pos rfl]
      rfl
    | cons q l1 =>
      have hnext : dat.getUint32 p ≠ 0 := by
        intro h0
        rw [h0] at hl0
        cases chainOffsets_nil hl0
      have hql : lastPtr (p :: q :: l1) = lastPtr (q :: l1) := rfl
      have hlmem : lastPtr (q :: l1) ∈ q :: l1 := lastPtr_mem (List.cons_ne_nil q l1)
      have hpne : p ≠ lastPtr (q :: l1) := by
        intro he
        exact (List.nodup_cons.mp hnd).1 (he ▸ hlmem)
      have hgp : ((dat.setUint32 (lastPtr (p :: q :: l1)) s).setUint32 s 0).getUint32 p =
          dat.getUint32 p := by
        rw [hql, Buf.getUint32_setUint32_ne _ _ (by omega),
          Buf.getUint32_setUint32_ne _ _
            (hsep p hpmem _ (List.mem_cons_of_mem p hlmem) hpne)]
      rw [chainOffsets, if_neg hp, hgp]
      have hx := ih hl0 hnext (List.nodup_cons.mp hnd).2
        (fun a ha b hb hab =>
          hsep a (List.mem_cons_of_mem p ha) b (List.mem_cons_of_mem p hb) hab)
        (fun a ha => hss a (List.mem_cons_of_mem p ha))
      rw [hql] at *
      rw [hx]
      rfl


theorem Sep20.mem {E : List Nat} (hE : Sep20 E) {p q : Nat} (hp : p ∈ E) (hq : q ∈ E)
    (hne : p ≠ q) : p + 20 ≤ q ∨ q + 20 ≤ p :=
  List.Pairwise.forall (fun _ _ h => h.symm) hE hp hq hne

/-- A write into a member's `next` word never changes a hash word. -/
theorem hashField_write {E : List Nat} (hE : Sep20 E) {q e : Nat} (hq : q ∈ E) (he : e ∈ E)
    (dat : Buf) (v : Int) :
    (dat.setUint32 q v).getUint32 (e + 16) = dat.getUint32 (e + 16) := by
  rcases eq_or_ne q e with rfl | hne
  · exact Buf.getUint32_setUint32_ne _ _ (by omega)
  · rcases hE.mem hq he hne with h | h
    · exact Buf.getUint32_setUint32_ne _ _ (by omega)
    · exact Buf.getUint32_setUint32_ne _ _ (by omega)

/-- A write into one member's `next` word never changes another's. -/
theorem nextSlot_write {E : List Nat} (hE : Sep20 E) {q e : Nat} (hq : q ∈ E) (he : e ∈ E)
    (hne : q ≠ e) (dat : Buf) (v : Int) :
    (dat.setUint32 q v).getUint32 e = dat.getUint32 e := by
  rcases hE.mem hq he hne with h | h
  · exact Buf.getUint32_setUint32_ne _ _ (by omega)
  · exact Buf.getUint32_setUint32_ne _ _ (by omega)

theorem Sep20.slot4 {E : List Nat} (hE : Sep20 E) {p q : Nat} (hp : p ∈ E) (hq : q ∈ E)
    (hne : p ≠ q) : p + 4 ≤ q ∨ q + 4 ≤ p := by
  rcases hE.mem hp hq hne with h | h
  · omega
  · omega

/-- A single write into a member's `next` word preserves the walk of any
chain that member does not belong to. -/
theorem chain_write_frame {E : List Nat} (hE : Sep20 E) {dat : Buf} {w : Nat} (hw : w ∈ E)
    (v : Int) {p n : Nat} {l : List Nat}
    (hc : chainOffsets dat p n = some l) (hl : ∀ x ∈ l, x ∈ E) (hwl : w ∉ l) :
    chainOffsets (dat.setUint32 w v) p n = some l :=
  chainOffsets_frame hc
    (fun q hq => nextSlot_write hE hw (hl q hq) (fun he => hwl (he ▸ hq)) dat v)


theorem chainOffsets_zero_one (dat : Buf) : chainOffsets dat 0 1 = some [] := by
  rw [chainOffsets]
  rw [if_pos rfl]

theorem chainOffsets_pair {dat : Buf} {s : Nat} (hs : s ≠ 0) (h0 : dat.getUint32 s = 0) :
    chainOffsets dat s 2 = some [s] := by
  rw [chainOffsets, if_neg hs, h0, chainOffsets_zero_one]
  rfl

/-- One old chain's worth of `rehashChain` preserves the invariant,
extending the moved set by the chain's entries, and writes only into the
`next` words of moved entries. -/
theorem rehashChain_inv {E : List Nat} {dat0 : Buf}
    (hE : Sep20 E) (hE4 : ∀ e ∈ E, 4 ≤ e) (hE32 : ∀ e ∈ E, e < pow32) {nb : Nat}
    (hnb : 0 < nb) :
    ∀ {fuel : Nat} {dat nv : Buf} {biu s : Nat} {cur P : List Nat}
      {dat' nv' : Buf} {biu' : Nat},
    ShareableMap.rehashChain dat nv nb biu s fuel = some (dat', nv', biu') →
    (∃ n, chainOffsets dat s n = some cur) →
    RehashInv E dat0 dat nv nb P →
    (∀ x ∈ P, x ∈ E) → (∀ x ∈ cur, x ∈ E) → (P ++ cur).Nodup →
    RehashInv E dat0 dat' nv' nb (P ++ cur) ∧
      (∀ off, (∀ q ∈ P ++ cur, off + 4 ≤ q ∨ q + 4 ≤ off) →
        dat'.getUint32 off = dat.getUint32 off) := by
  intro fuel
  induction fuel with
  | zero => intro dat nv biu s cur P dat' nv' biu' h _ _ _ _ _; cases h
  | succ fuel ih =>
    intro dat nv biu s cur P dat' nv' biu' h hcur hinv hPE hcurE hnd
    rw [ShareableMap.rehashChain] at h
    split at h
    · -- s = 0: the chain is exhausted, nothing changes
      rename_i hs0
      cases h
      obtain ⟨n, hn⟩ := hcur
      rw [hs0] at hn
      obtain rfl := chainOffsets_nil hn
      rw [List.append_nil]
      exact ⟨hinv, fun off _ => rfl⟩
    · rename_i hs0
      dsimp only at h
      obtain ⟨n, hn⟩ := hcur
      obtain ⟨nmo, rfl⟩ : ∃ m, n = m + 1 := by
        cases n with
        | zero => cases hn
        | succ m => exact ⟨m, rfl⟩
      obtain ⟨cur0, hcur0, rfl⟩ := chainOffsets_cons hn hs0
      have hsE : s ∈ E := hcurE s (List.mem_cons_self _ _)
      have hsP : s ∉ P := by
        have hd := List.disjoint_of_nodup_append hnd
        exact fun hmem => (hd hmem (List.mem_cons_self _ _)).elim
      have hs4 : 4 ≤ s := hE4 s hsE
      have hs32 : s < pow32 := hE32 s hsE
      have hbl : dat.getUint32 (s + 16) % nb < nb := Nat.mod_lt _ hnb
      have hb0 : dat.getUint32 (s + 16) = dat0.getUint32 (s + 16) := hinv.hash_eq s hsE
      obtain ⟨nc, lb, hlb, hlbnd, hlbP, hlbbk, hlbcomp⟩ :=
        hinv.chains (dat.getUint32 (s + 16) % nb) hbl
      have hslb : s ∉ lb := fun hmem => hsP (hlbP s hmem)
      have hcur0nd : (P ++ [s]).Nodup ∧ ((P ++ [s]) ++ cur0).Nodup := by
        constructor
        · have h1 : (P ++ s :: cur0).Nodup := hnd
          rw [List.nodup_append] at h1 ⊢
          refine ⟨h1.1, List.nodup_singleton s, fun a ha hb => ?_⟩
          rw [List.mem_singleton] at hb
          exact h1.2.2 ha (hb ▸ List.mem_cons_self _ _)
        · rw [List.append_assoc, List.singleton_append]
          exact hnd
      have hnextcur : ∃ m, chainOffsets dat (dat.getUint32 s) m = some cur0 := ⟨nmo, hcur0⟩
      have hcur0E : ∀ x ∈ cur0, x ∈ E := fun x hx => hcurE x (List.mem_cons_of_mem _ hx)
      have hcur0s : s ∉ cur0 := by
        have := hnd.of_append_right
        exact (List.nodup_cons.mp this).1
      have hPsE : ∀ x ∈ P ++ [s], x ∈ E := by
        intro x hx
        rcases List.mem_append.mp hx with hx | hx
        · exact hPE x hx
        · rw [List.mem_singleton] at hx
          exact hx ▸ hsE
      split at h
      · -- empty target bucket: point the bucket at `s`
        rename_i hbc0
        simp only [Option.bind_eq_bind, Option.bind_eq_some] at h
        obtain ⟨y, hy, h⟩ := h
        cases hy
        dsimp only at h
        -- invariant after this step
        have hinv1 : RehashInv E dat0 (dat.setUint32 s 0)
            (nv.setUint32 (24 + dat.getUint32 (s + 16) % nb * 4) s) nb (P ++ [s]) := by
          constructor
          · intro e he
            rw [hashField_write hE hsE he]
            exact hinv.hash_eq e he
          · intro b hb
            rcases eq_or_ne b (dat.getUint32 (s + 16) % nb) with rfl | hbne
            · refine ⟨2, [s], ?_, List.nodup_singleton s, ?_, ?_, ?_⟩
              · rw [Buf.getUint32_setUint32_same_nat _ _ _ hs32]
                apply chainOffsets_pair hs0
                rw [Buf.getUint32_setUint32_same]
                rfl
              · intro x hx
                rw [List.mem_singleton] at hx
                subst hx
                exact List.mem_append_right _ (List.mem_singleton.mpr rfl)
              · intro e he
                rw [List.mem_singleton] at he
                subst he
                rw [hb0]
              · intro e he hbe
                rcases List.mem_append.mp he with heP | hes
                · exfalso
                  rw [hbc0] at hlb
                  obtain rfl := chainOffsets_nil hlb
                  exact (List.not_mem_nil e) (hlbcomp e heP hbe)
                · exact hes
            · obtain ⟨nc', lb', hlb', hnd', hP', hbk', hcomp'⟩ := hinv.chains b hb
              refine ⟨nc', lb', ?_, hnd', ?_, hbk', ?_⟩
              · rw [Buf.getUint32_setUint32_ne _ _ (by omega)]
                exact chain_write_frame hE hsE 0 hlb' (fun x hx => hPE x (hP' x hx))
                  (fun hmem => hsP (hP' s hmem))
              · exact fun x hx => List.mem_append_left _ (hP' x hx)
              · intro e he hbe
                rcases List.mem_append.mp he with heP | hes
                · exact hcomp' e heP hbe
                · rw [List.mem_singleton] at hes
                  subst hes
                  rw [hb0] at hbne
                  exact absurd hbe.symm hbne
        have hrec := ih h
          ⟨nmo, chain_write_frame hE hsE 0 hcur0 hcur0E hcur0s⟩ hinv1 hPsE hcur0E hcur0nd.2
        rw [List.append_assoc, List.singleton_append] at hrec
        refine ⟨hrec.1, fun off hoff => ?_⟩
        rw [hrec.2 off hoff]
        exact Buf.getUint32_setUint32_ne _ _ (hoff s (List.mem_append_right _
          (List.mem_cons_self _ _)))
      · -- occupied target bucket: append `s` at the chain's tail
        rename_i hbc
        simp only [Option.bind_eq_bind, Option.bind_eq_some] at h
        obtain ⟨datU, hU, y, hy, h⟩ := h
        cases hy
        dsimp only at h
        have hdatU : datU = dat.setUint32 (lastPtr lb) s :=
          updateLinkedPointer_spec hlb hbc hU
        have hlastmem : lastPtr lb ∈ lb := by
          apply lastPtr_mem
          intro hnil
          rw [hnil] at hlb
          cases nc with
          | zero => cases hlb
          | succ nc' =>
            rw [chainOffsets, if_neg hbc] at hlb
            rw [Option.map_eq_some'] at hlb
            obtain ⟨l0, _, he⟩ := hlb
            cases he
        have hlastE : lastPtr lb ∈ E := hPE _ (hlbP _ hlastmem)
        have hlastne : lastPtr lb ≠ s := by
          intro he
          rw [he] at hlastmem
          exact hslb hlastmem
        have hread : datU.getUint32 s = dat.getUint32 s := by
          rw [hdatU]
          exact nextSlot_write hE hlastE hsE hlastne dat s
        have happ : chainOffsets ((dat.setUint32 (lastPtr lb) s).setUint32 s 0)
            (nv.getUint32 (24 + dat.getUint32 (s + 16) % nb * 4)) (nc + 1) =
            some (lb ++ [s]) := by
          apply chainOffsets_append hs0 hs32 hlb hbc hlbnd
          · intro q hq q' hq' hne
            exact hE.slot4 (hPE q (hlbP q hq)) (hPE q' (hlbP q' hq')) hne
          · intro q hq
            refine hE.slot4 (hPE q (hlbP q hq)) hsE ?_
            intro he
            rw [he] at hq
            exact hslb hq
        have hframe2 : ∀ {p' n' : Nat} {l' : List Nat},
            chainOffsets dat p' n' = some l' → (∀ x ∈ l', x ∈ E) →
            lastPtr lb ∉ l' → s ∉ l' →
            chainOffsets ((dat.setUint32 (lastPtr lb) s).setUint32 s 0) p' n' = some l' := by
          intro p' n' l' hc hlE hnl hns
          exact chain_write_frame hE hsE 0 (chain_write_frame hE hlastE s hc hlE hnl) hlE hns
        have hinv1 : RehashInv E dat0 ((dat.setUint32 (lastPtr lb) s).setUint32 s 0)
            nv nb (P ++ [s]) := by
          constructor
          · intro e he
            rw [hashField_write hE hsE he, hashField_write hE hlastE he]
            exact hinv.hash_eq e he
          · intro b hb
            rcases eq_or_ne b (dat.getUint32 (s + 16) % nb) with rfl | hbne
            · refine ⟨nc + 1, lb ++ [s], happ, ?_, ?_, ?_, ?_⟩
              · rw [List.nodup_append]
                refine ⟨hlbnd, List.nodup_singleton s, fun a ha hb' => ?_⟩
                rw [List.mem_singleton] at hb'
                subst hb'
                exact hslb ha
              · intro x hx
                rcases List.mem_append.mp hx with hx | hx
                · exact List.mem_append_left _ (hlbP x hx)
                · exact List.mem_append_right _ hx
              · intro e he
                rcases List.mem_append.mp he with he | he
                · exact hlbbk e he
                · rw [List.mem_singleton] at he
                  subst he
                  rw [hb0]
              · intro e he hbe
                rcases List.mem_append.mp he with heP | hes
                · exact List.mem_append_left _ (hlbcomp e heP hbe)
                · exact List.mem_append_right _ hes
            · obtain ⟨nc', lb', hlb', hnd', hP', hbk', hcomp'⟩ := hinv.chains b hb
              have hlnl : lastPtr lb ∉ lb' := by
                intro hmem
                apply hbne
                rw [← hlbbk _ hlastmem]
                exact (hbk' _ hmem).symm
              refine ⟨nc', lb', ?_, hnd', ?_, hbk', ?_⟩
              · exact hframe2 hlb' (fun x hx => hPE x (hP' x hx)) hlnl
                  (fun hmem => hsP (hP' s hmem))
              · exact fun x hx => List.mem_append_left _ (hP' x hx)
              · intro e he hbe
                rcases List.mem_append.mp he with heP | hes
                · exact hcomp' e heP hbe
                · rw [List.mem_singleton] at hes
                  subst hes
                  rw [hb0] at hbne
                  exact absurd hbe.symm hbne
        rw [hdatU] at h hread
        have hcur0' : ∃ m, chainOffsets ((dat.setUint32 (lastPtr lb) s).setUint32 s 0)
            ((dat.setUint32 (lastPtr lb) s).getUint32 s) m = some cur0 := by
          refine ⟨nmo, ?_⟩
          rw [hread]
          apply hframe2 hcur0 hcur0E ?_ hcur0s
          intro hmem
          have hd := List.disjoint_of_nodup_append hnd
          exact hd (hlbP _ hlastmem) (List.mem_cons_of_mem _ hmem)
        have hrec := ih h hcur0' hinv1 hPsE hcur0E hcur0nd.2
        rw [List.append_assoc, List.singleton_append] at hrec
        refine ⟨hrec.1, fun off hoff => ?_⟩
        rw [hrec.2 off hoff]
        rw [Buf.getUint32_setUint32_ne _ _ (hoff s (List.mem_append_right _
          (List.mem_cons_self _ _)))]
        exact Buf.getUint32_setUint32_ne _ _ (hoff (lastPtr lb)
          (List.mem_append_left _ (hlbP _ hlastmem)))

theorem mem_getD_flatten {L : List (List Nat)} {k : Nat} (hk : k < L.length) {x : Nat}
    (hx : x ∈ L.getD k []) : x ∈ L.flatten := by
  rw [List.getD_eq_getElem L [] hk] at hx
  exact List.mem_flatten.mpr ⟨L[k], List.getElem_mem hk, hx⟩

/-- The outer rehash loop (src part_007 626-649) moves every chain listed
in `rest` (the chains of the old buckets not yet visited), never touches
the old index region, and maintains the invariant. -/
theorem rehashBuckets_inv {E : List Nat} {dat0 : Buf}
    (hE : Sep20 E) (hE4 : ∀ e ∈ E, 4 ≤ e) (hE32 : ∀ e ∈ E, e < pow32) {nb : Nat}
    (hnb : 0 < nb) :
    ∀ {count : Nat} {st : MapCore} {nv : Buf} {biu bucket fuel : Nat}
      {P : List Nat} {rest : List (List Nat)} {st' : MapCore} {nv' : Buf} {biu' : Nat},
    ShareableMap.rehashBuckets st nv nb biu bucket count fuel = some (st', nv', biu') →
    bucket + rest.length = ShareableMap.buckets st →
    rest.length ≤ count →
    (∀ k, k < rest.length → ∃ n, chainOffsets st.dat
      (st.idx.getUint32 (24 + (bucket + k) * 4)) n = some (rest.getD k [])) →
    RehashInv E dat0 st.dat nv nb P →
    (∀ x ∈ P, x ∈ E) → (∀ x ∈ rest.flatten, x ∈ E) → (P ++ rest.flatten).Nodup →
    RehashInv E dat0 st'.dat nv' nb (P ++ rest.flatten) ∧ st'.idx = st.idx := by
  intro count
  induction count with
  | zero =>
    intro st nv biu bucket fuel P rest st' nv' biu' h hlen hcount hrest hinv hPE hflatE hnd
    rw [ShareableMap.rehashBuckets] at h
    cases h
    obtain rfl : rest = [] := List.eq_nil_of_length_eq_zero (by omega)
    rw [List.flatten_nil, List.append_nil]
    exact ⟨hinv, rfl⟩
  | succ count ih =>
    intro st nv biu bucket fuel P rest st' nv' biu' h hlen hcount hrest hinv hPE hflatE hnd
    rw [ShareableMap.rehashBuckets] at h
    split at h
    · rename_i hblt
      simp only [Option.bind_eq_bind, Option.bind_eq_some] at h
      obtain ⟨y, h1, h2⟩ := h
      obtain ⟨dat1, nv1, biu1⟩ := y
      dsimp only at h2
      cases rest with
      | nil =>
        exfalso
        rw [List.length_nil] at hlen
        omega
      | cons c0 rest' =>
        rw [List.flatten_cons] at hflatE hnd ⊢
        have hc0E : ∀ x ∈ c0, x ∈ E := fun x hx =>
          hflatE x (List.mem_append_left _ hx)
        have hnd0 : (P ++ c0).Nodup := by
          rw [← List.append_assoc] at hnd
          exact hnd.of_append_left
        have hchain0 : ∃ n, chainOffsets st.dat (st.idx.getUint32 (24 + bucket * 4)) n =
            some c0 := by
          have hx := hrest 0 (by simp)
          simpa using hx
        have hstep := rehashChain_inv hE hE4 hE32 hnb h1 hchain0 hinv hPE hc0E hnd0
        have hbuk2 : ShareableMap.buckets { st with dat := dat1 } =
            ShareableMap.buckets st := rfl
        have hrest' : ∀ k, k < rest'.length → ∃ n, chainOffsets dat1
            (({ st with dat := dat1 } : MapCore).idx.getUint32 (24 + (bucket + 1 + k) * 4)) n =
            some (rest'.getD k []) := by
          intro k hk
          obtain ⟨n, hn⟩ := hrest (k + 1) (by simp; omega)
          refine ⟨n, ?_⟩
          have hk1 : (bucket + (k + 1)) = (bucket + 1 + k) := by omega
          rw [hk1] at hn
          have hgd : (c0 :: rest').getD (k + 1) [] = rest'.getD k [] := rfl
          rw [hgd] at hn
          apply chainOffsets_frame hn
          intro q hq
          apply hstep.2
          intro q' hq'
          have hqE : q ∈ E := hflatE q (List.mem_append_right _ (mem_getD_flatten hk hq))
          have hq'E : q' ∈ E := by
            rcases List.mem_append.mp hq' with hx | hx
            · exact hPE q' hx
            · exact hc0E q' hx
          refine hE.slot4 hqE hq'E ?_
          intro he
          subst he
          have hd2 : (P ++ c0).Disjoint rest'.flatten := by
            rw [← List.append_assoc] at hnd
            exact List.disjoint_of_nodup_append hnd
          exact hd2 hq' (mem_getD_flatten hk hq)
        have hPc0E : ∀ x ∈ P ++ c0, x ∈ E := by
          intro x hx
          rcases List.mem_append.mp hx with hx | hx
          · exact hPE x hx
          · exact hc0E x hx
        have hnd' : ((P ++ c0) ++ rest'.flatten).Nodup := by
          rw [List.append_assoc]
          exact hnd
        have hrec := ih h2 (by rw [hbuk2]; simp at hlen; omega) (by simp at hcount; omega)
          hrest' hstep.1 hPc0E
          (fun x hx => hflatE x (List.mem_append_right _ hx)) hnd'
        rw [List.append_assoc] at hrec
        exact ⟨hrec.1, hrec.2⟩
    · rename_i hbge
      cases h
      obtain rfl : rest = [] := by
        apply List.eq_nil_of_length_eq_zero
        omega
      rw [List.flatten_nil, List.append_nil]
      exact ⟨hinv, rfl⟩

theorem copyHeaderWords_expand (oldIdx nI : Buf) :
    ShareableMap.copyHeaderWords oldIdx nI 0 6 =
      (((((nI.setUint32 0 (oldIdx.getUint32 0)).setUint32 4
        (oldIdx.getUint32 4)).setUint32 8 (oldIdx.getUint32 8)).setUint32 12
        (oldIdx.getUint32 12)).setUint32 16 (oldIdx.getUint32 16)).setUint32 20
        (oldIdx.getUint32 20) := by
  rw [ShareableMap.copyHeaderWords, if_pos (by omega)]
  rw [ShareableMap.copyHeaderWords, if_pos (by omega)]
  rw [ShareableMap.copyHeaderWords, if_pos (by omega)]
  rw [ShareableMap.copyHeaderWords, if_pos (by omega)]
  rw [ShareableMap.copyHeaderWords, if_pos (by omega)]
  rw [ShareableMap.copyHeaderWords, if_pos (by omega)]
  rw [ShareableMap.copyHeaderWords]

theorem copyHeaderWords_low (oldIdx nI : Buf) {j : Nat}
    (hj : j = 0 ∨ j = 8 ∨ j = 12 ∨ j = 16 ∨ j = 20) :
    (ShareableMap.copyHeaderWords oldIdx nI 0 6).getUint32 j = oldIdx.getUint32 j := by
  rw [copyHeaderWords_expand]
  rcases hj with rfl | rfl | rfl | rfl | rfl
  · rw [Buf.getUint32_setUint32_ne _ _ (by omega), Buf.getUint32_setUint32_ne _ _ (by omega),
      Buf.getUint32_setUint32_ne _ _ (by omega), Buf.getUint32_setUint32_ne _ _ (by omega),
      Buf.getUint32_setUint32_ne _ _ (by omega)]
    exact Buf.getUint32_setUint32_same_nat _ _ _ (Buf.getUint32_lt _ _)
  · rw [Buf.getUint32_setUint32_ne _ _ (by omega), Buf.getUint32_setUint32_ne _ _ (by omega),
      Buf.getUint32_setUint32_ne _ _ (by omega)]
    exact Buf.getUint32_setUint32_same_nat _ _ _ (Buf.getUint32_lt _ _)
  · rw [Buf.getUint32_setUint32_ne _ _ (by omega), Buf.getUint32_setUint32_ne _ _ (by omega)]
    exact Buf.getUint32_setUint32_same_nat _ _ _ (Buf.getUint32_lt _ _)
  · rw [Buf.getUint32_setUint32_ne _ _ (by omega)]
    exact Buf.getUint32_setUint32_same_nat _ _ _ (Buf.getUint32_lt _ _)
  · exact Buf.getUint32_setUint32_same_nat _ _ _ (Buf.getUint32_lt _ _)

theorem copyHeaderWords_high (oldIdx nI : Buf) {j : Nat} (hj : 24 ≤ j) :
    (ShareableMap.copyHeaderWords oldIdx nI 0 6).getUint32 j = nI.getUint32 j := by
  rw [copyHeaderWords_expand]
  rw [Buf.getUint32_setUint32_ne _ _ (by omega), Buf.getUint32_setUint32_ne _ _ (by omega),
    Buf.getUint32_setUint32_ne _ _ (by omega), Buf.getUint32_setUint32_ne _ _ (by omega),
    Buf.getUint32_setUint32_ne _ _ (by omega), Buf.getUint32_setUint32_ne _ _ (by omega)]

/-- C2, amended.  `doubleIndexStorage` allocates the new index region with
`4 * oldBuckets * 2` bytes and no allowance for the 24-byte header, so the
new bucket count is `(8b - 24) / 4 = 2b - 6`, not `2b`; the six header
words are copied over (the buckets-in-use word is then recomputed), and —
for a well-formed table, its entries listed bucket by bucket in `rest`,
pairwise 20-byte-separated so that distinct entries' `next` and `hash`
words never overlap — every entry keeps its stored hash and is reachable
from bucket `hash % (2b - 6)` of the new table. -/
theorem claim_C2 {st : MapCore} {fuel N : Nat} {st' : MapCore}
    {E : List Nat} {rest : List (List Nat)}
    (hB : 4 ≤ ShareableMap.buckets st)
    (hE : Sep20 E) (hE4 : ∀ e ∈ E, 4 ≤ e) (hE32 : ∀ e ∈ E, e < pow32)
    (hlen : rest.length = ShareableMap.buckets st)
    (hrest : ∀ k, k < rest.length →
      chainOffsets st.dat (st.idx.getUint32 (24 + k * 4)) N = some (rest.getD k []))
    (hflatE : ∀ x ∈ rest.flatten, x ∈ E)
    (hnd : rest.flatten.Nodup)
    (h : ShareableMap.doubleIndexStorage st fuel = some st') :
    ShareableMap.buckets st' = 2 * ShareableMap.buckets st - 6 ∧
    st'.idx.getUint32 0 = st.idx.getUint32 0 ∧
    st'.idx.getUint32 8 = st.idx.getUint32 8 ∧
    st'.idx.getUint32 12 = st.idx.getUint32 12 ∧
    st'.idx.getUint32 16 = st.idx.getUint32 16 ∧
    st'.idx.getUint32 20 = st.idx.getUint32 20 ∧
    (∀ e ∈ rest.flatten,
      st'.dat.getUint32 (e + 16) = st.dat.getUint32 (e + 16) ∧
      ∃ n l, chainOffsets st'.dat (st'.idx.getUint32
          (24 + st.dat.getUint32 (e + 16) % (2 * ShareableMap.buckets st - 6) * 4)) n =
        some l ∧ e ∈ l) := by
  have hbuck := doubleIndexStorage_buckets h
  unfold ShareableMap.doubleIndexStorage at h
  simp only [Option.bind_eq_bind, Option.bind_eq_some] at h
  obtain ⟨⟨st1, nv1, biu1⟩, h1, h2⟩ := h
  cases h2
  have hsz : (Buf.alloc (4 * ShareableMap.buckets st * 2)).size =
      4 * ShareableMap.buckets st * 2 := rfl
  have hnb : 0 < ((Buf.alloc (4 * ShareableMap.buckets st * 2)).size - 24) / 4 := by
    rw [hsz]
    omega
  have hnbeq : ((Buf.alloc (4 * ShareableMap.buckets st * 2)).size - 24) / 4 =
      2 * ShareableMap.buckets st - 6 := by
    rw [hsz]
    omega
  have hinv0 : RehashInv E st.dat st.dat (Buf.alloc (4 * ShareableMap.buckets st * 2))
      (((Buf.alloc (4 * ShareableMap.buckets st * 2)).size - 24) / 4) [] := by
    constructor
    · intro e _
      rfl
    · intro b _
      refine ⟨1, [], ?_, List.nodup_nil, ?_, ?_, ?_⟩
      · rw [Buf.getUint32_alloc]
        exact chainOffsets_zero_one _
      · intro x hx
        cases hx
      · intro e he
        cases he
      · intro e he
        cases he
  have hres := rehashBuckets_inv hE hE4 hE32 hnb h1 (by omega)
    (le_of_eq hlen)
    (fun k hk => ⟨N, by simpa using hrest k hk⟩)
    hinv0 (fun x hx => absurd hx (List.not_mem_nil x)) hflatE
    (by rw [List.nil_append]; exact hnd)
  rw [List.nil_append] at hres
  have hidx1 : st1.idx = st.idx := hres.2
  have hslotread : ∀ b : Nat,
      (((ShareableMap.copyHeaderWords st1.idx nv1 0 6).setUint32 4 biu1).getUint32
        (24 + b * 4)) = nv1.getUint32 (24 + b * 4) := by
    intro b
    rw [Buf.getUint32_setUint32_ne _ _ (by omega)]
    exact copyHeaderWords_high _ _ (by omega)
  have hhead : ∀ j : Nat, j = 0 ∨ j = 8 ∨ j = 12 ∨ j = 16 ∨ j = 20 →
      (((ShareableMap.copyHeaderWords st1.idx nv1 0 6).setUint32 4 biu1).getUint32 j) =
        st.idx.getUint32 j := by
    intro j hj
    rw [Buf.getUint32_setUint32_ne _ _ (by rcases hj with rfl | rfl | rfl | rfl | rfl <;> omega)]
    rw [copyHeaderWords_low _ _ hj, hidx1]
  refine ⟨hbuck, hhead 0 (by omega), hhead 8 (by omega), hhead 12 (by omega),
    hhead 16 (by omega), hhead 20 (by omega), ?_⟩
  intro e he
  have heE : e ∈ E := hflatE e he
  refine ⟨hres.1.hash_eq e heE, ?_⟩
  have hblt : st.dat.getUint32 (e + 16) %
      (((Buf.alloc (4 * ShareableMap.buckets st * 2)).size - 24) / 4) <
      (((Buf.alloc (4 * ShareableMap.buckets st * 2)).size - 24) / 4) :=
    Nat.mod_lt _ hnb
  obtain ⟨n, l, hchain, _, _, _, hcomp⟩ := hres.1.chains _ hblt
  refine ⟨n, l, ?_, ?_⟩
  · show chainOffsets st1.dat _ n = some l
    rw [← hnbeq]
    rw [hslotread]
    exact hchain
  · exact hcomp e he rfl

/-- C2, counterexample.  The claim says the rehash doubles the bucket
count: from the 5-bucket map, the completed `set` that triggers the rehash
leaves 4 buckets — `doubleIndexStorage` sizes the new region as
`4 * oldBuckets * 2` bytes with no allowance for the 24-byte header, so
`(40 - 24) / 4 = 4`, not 10. -/
theorem claim_C2_cex :
    (runRehash3.map fun st => ShareableMap.buckets st) = some 5 ∧
    (runRehash4.map fun st => ShareableMap.buckets st) = some 4 ∧ (4 : Nat) ≠ 2 * 5 :=
  ⟨by decide, by decide, by decide⟩

/-- C2, witness: the amended theorem applied to the concrete 5-bucket
pre-rehash state (entries `a`, `b`, `c` at offsets 4, 30, 56), with the
size and used-space header words carried over and the entry at offset 4
reachable from its hash's bucket in the 4-bucket table. -/
theorem claim_C2_witness :
    (ShareableMap.doubleIndexStorage stRehash3 50).map
        (fun st' => (ShareableMap.buckets st', st'.idx.getUint32 0, st'.idx.getUint32 16)) =
      some (2 * ShareableMap.buckets stRehash3 - 6, stRehash3.idx.getUint32 0,
        stRehash3.idx.getUint32 16) ∧
    (∃ n l, (ShareableMap.doubleIndexStorage stRehash3 50).map
        (fun st' => chainOffsets st'.dat (st'.idx.getUint32
          (24 + stRehash3.dat.getUint32 (4 + 16) %
            (2 * ShareableMap.buckets stRehash3 - 6) * 4)) n) = some (some l) ∧ 4 ∈ l) := by
  rcases hg : ShareableMap.doubleIndexStorage stRehash3 50 with _ | st'
  · have hs : (ShareableMap.doubleIndexStorage stRehash3 50).isSome = true := by decide
    rw [hg] at hs
    cases hs
  · have hc := @claim_C2 stRehash3 50 50 st' [4, 30, 56] [[4], [], [30], [56], []]
      (by decide) (by unfold Sep20; decide) (by decide) (by decide) (by decide) (by decide)
      (by decide) (by decide) hg
    constructor
    · simp only [Option.map_some']
      rw [hc.1, hc.2.1, hc.2.2.2.2.1]
    · obtain ⟨hhash, n, l, hchain, hmem⟩ := hc.2.2.2.2.2.2 4 (by decide)
      exact ⟨n, l, by simp only [Option.map_some']; rw [hchain], hmem⟩

/-! ### Value round trips and in-place overwrite effects (claim C1) -/

theorem Buf.getUint16_setUint16_same (b : Buf) (i v : Nat) (h : v < pow16) :
    (b.setUint16 i v).getUint16 i = v := by
  unfold Buf.setUint16 Buf.getUint16
  rw [Buf.getUint8_setUint8_ne _ _ (by omega), Buf.getUint8_setUint8_same,
    Buf.getUint8_setUint8_same]
  unfold pow16 at h ⊢
  omega

theorem valueEncoderId_lt (v : Value) : valueEncoderId v < pow16 := by
  cases v with
  | vnum n =>
    show (0 : Nat) < pow16
    unfold pow16
    omega
  | vstr s =>
    show (1 : Nat) < pow16
    unfold pow16
    omega

theorem u32Bytes_lt (v : Nat) : ∀ b ∈ u32Bytes v, b < 256 := by
  intro b hb
  simp only [u32Bytes, pow32, List.mem_cons, List.not_mem_nil, or_false] at hb
  rcases hb with rfl | rfl | rfl | rfl
  · omega
  · omega
  · omega
  · omega

theorem encodeValue_bytes_lt {v : Value} (hv : ValueFits v) :
    ∀ b ∈ encodeValue v, b < 256 := by
  intro b hb
  cases v with
  | vnum n =>
    cases n with
    | intVal m =>
      simp only [encodeValue, NumberEncoder.encode] at hb
      rcases List.mem_cons.mp hb with rfl | hb
      · omega
      · exact u32Bytes_lt _ b hb
    | floatVal bits =>
      simp only [encodeValue, NumberEncoder.encode, u64Bytes] at hb
      rcases List.mem_cons.mp hb with rfl | hb
      · omega
      · rcases List.mem_append.mp hb with hb | hb
        · exact u32Bytes_lt _ b hb
        · exact u32Bytes_lt _ b hb
  | vstr s =>
    simp only [encodeValue, StringEncoder.encode, utf8Encode] at hb
    obtain ⟨c, hc, hbc⟩ := List.mem_flatMap.mp hb
    have hsc : ScalarValue c := hv c hc
    obtain ⟨hlt, hsur⟩ := hsc
    unfold utf8Bytes at hbc
    split at hbc
    · simp only [List.mem_cons, List.not_mem_nil, or_false] at hbc
      subst hbc
      omega
    · split at hbc
      · simp only [List.mem_cons, List.not_mem_nil, or_false] at hbc
        rcases hbc with rfl | rfl
        · omega
        · omega
      · split at hbc
        · simp only [List.mem_cons, List.not_mem_nil, or_false] at hbc
          rcases hbc with rfl | rfl | rfl
          · omega
          · omega
          · omega
        · simp only [List.mem_cons, List.not_mem_nil, or_false] at hbc
          rcases hbc with rfl | rfl | rfl | rfl
          · omega
          · omega
          · omega
          · omega

theorem map_mod_id {l : List Nat} (h : ∀ b ∈ l, b < 256) : l.map (· % 256) = l := by
  induction l with
  | nil => rfl
  | cons x xs ih =>
    have hx : x % 256 = x := Nat.mod_eq_of_lt (h x (List.mem_cons_self _ _))
    simp only [List.map_cons, hx, ih (fun b hb => h b (List.mem_cons_of_mem _ hb))]

theorem utf8Bytes_length_le (c : Nat) :
    (utf8Bytes c).length ≤ 3 * (utf16UnitsOfScalar c).length := by
  unfold utf8Bytes utf16UnitsOfScalar
  by_cases h1 : c < 128
  · rw [if_pos h1, if_pos (by omega)]
    simp
  · rw [if_neg h1]
    by_cases h2 : c < 2048
    · rw [if_pos h2, if_pos (by omega)]
      simp
    · rw [if_neg h2]
      by_cases h3 : c < 65536
      · rw [if_pos h3, if_pos h3]
        simp
      · rw [if_neg h3, if_neg h3]
        simp

theorem utf8Encode_length_le (s : Str) :
    (utf8Encode s).length ≤ 3 * utf16Length s := by
  induction s with
  | nil => simp [utf8Encode, utf16Length, utf16Units]
  | cons c s ih =>
    have h1 : utf8Encode (c :: s) = utf8Bytes c ++ utf8Encode s := by
      simp [utf8Encode]
    have h2 : utf16Units (c :: s) = utf16UnitsOfScalar c ++ utf16Units s := by
      simp [utf16Units]
    have h3 := utf8Bytes_length_le c
    unfold utf16Length at ih ⊢
    rw [h1, h2, List.length_append, List.length_append]
    omega

theorem encodeValue_length_le (v : Value) :
    (encodeValue v).length ≤ maximumLengthValue v := by
  cases v with
  | vnum n =>
    cases n with
    | intVal m => simp [encodeValue, maximumLengthValue, NumberEncoder.encode,
        NumberEncoder.maximumLength, u32Bytes]
    | floatVal bits => simp [encodeValue, maximumLengthValue, NumberEncoder.encode,
        NumberEncoder.maximumLength, u64Bytes, u32Bytes]
  | vstr s =>
    simp only [encodeValue, maximumLengthValue, StringEncoder.encode,
      StringEncoder.maximumLength]
    have := utf8Encode_length_le s
    omega

/-- `decode` after `encode` through the dispatch table recovers any value
the encoders can represent exactly. -/
theorem decodeValueById_encodeValue {v : Value} (hv : ValueFits v) :
    decodeValueById (valueEncoderId v) (encodeValue v) = some v := by
  cases v with
  | vnum n =>
    cases n with
    | intVal m =>
      obtain ⟨h1, h2⟩ := hv
      have hdec : NumberEncoder.decode (NumberEncoder.encode (.intVal m)) = .intVal m := by
        unfold NumberEncoder.decode NumberEncoder.encode
        rw [if_pos (by simp)]
        simp only [List.drop_succ_cons, List.drop_zero]
        rw [u32OfBytes_u32Bytes, Nat.mod_eq_of_lt (natOfInt32_lt m), int32_roundtrip m h1 h2]
      show some (Value.vnum (NumberEncoder.decode (NumberEncoder.encode (.intVal m)))) =
        some (Value.vnum (.intVal m))
      rw [hdec]
    | floatVal bits =>
      have hdec : NumberEncoder.decode (NumberEncoder.encode (.floatVal bits)) =
          .floatVal bits := by
        unfold NumberEncoder.decode NumberEncoder.encode
        rw [if_neg (by simp)]
        simp only [List.drop_succ_cons, List.drop_zero]
        rw [u64OfBytes_u64Bytes bits hv]
      show some (Value.vnum (NumberEncoder.decode (NumberEncoder.encode (.floatVal bits)))) =
        some (Value.vnum (.floatVal bits))
      rw [hdec]
  | vstr s =>
    have hdec : StringEncoder.decode (StringEncoder.encode s) = s := by
      unfold StringEncoder.decode StringEncoder.encode
      rw [utf8_roundtrip hv]
    show some (Value.vstr (StringEncoder.decode (StringEncoder.encode s))) =
      some (Value.vstr s)
    rw [hdec]

theorem computeHashAndBucket_congr {st st2 : MapCore} (h : st2.idx.size = st.idx.size)
    (key : Str) :
    ShareableMap.computeHashAndBucket st2 key = ShareableMap.computeHashAndBucket st key := by
  unfold ShareableMap.computeHashAndBucket ShareableMap.buckets
  rw [h]

/-- `findValue` reads only the data region. -/
theorem findValue_dat_congr {st st2 : MapCore} (hd : st2.dat = st.dat) {key : Str}
    {hash : Nat} {rv : Bool} :
    ∀ {fuel p : Nat}, ShareableMap.findValue st2 p key hash rv fuel =
      ShareableMap.findValue st p key hash rv fuel := by
  intro fuel
  induction fuel with
  | zero => intro p; rfl
  | succ fuel ih =>
    intro p
    rw [ShareableMap.findValue, ShareableMap.findValue]
    simp only [ShareableMap.readHashFromDataObject, ShareableMap.readKeyFromDataObject,
      ShareableMap.readValueFromDataObject, hd, ih]

/-- A successful `findValue` lands on an element of the walked chain. -/
theorem findValue_mem {st : MapCore} {key : Str} {hash : Nat} {rv : Bool} :
    ∀ {fuel p n : Nat} {l : List Nat} {fp : Nat} {v : Option Value},
    ShareableMap.findValue st p key hash rv fuel = some (some (fp, v)) →
    chainOffsets st.dat p n = some l → fp ∈ l := by
  intro fuel
  induction fuel with
  | zero => intro p n l fp v h _; cases h
  | succ fuel ih =>
    intro p n l fp v h hc
    rw [ShareableMap.findValue] at h
    by_cases hp : p = 0
    · rw [if_pos hp] at h
      cases h
    · rw [if_neg hp] at h
      dsimp only at h
      obtain ⟨n0, rfl⟩ : ∃ m, n = m + 1 := by
        cases n with
        | zero => cases hc
        | succ m => exact ⟨m, rfl⟩
      obtain ⟨l0, hl0, rfl⟩ := chainOffsets_cons hc hp
      split at h
      · cases h
        exact List.mem_cons_self _ _
      · exact List.mem_cons_of_mem _ (ih h hl0)

/-- A mutation that leaves every chain entry's `next`, hash, key-length and
key bytes unchanged makes `findValue` land on the same entry; the value it
reads there is whatever the mutated region now stores. -/
theorem findValue_preserved {st st2 : MapCore} {key : Str} {hash : Nat} {C : List Nat}
    (hC : ∀ q ∈ C, st2.dat.getUint32 q = st.dat.getUint32 q ∧
      st2.dat.getUint32 (q + 16) = st.dat.getUint32 (q + 16) ∧
      st2.dat.getUint32 (q + 4) = st.dat.getUint32 (q + 4) ∧
      st2.dat.readBytes (q + 20) (st.dat.getUint32 (q + 4)) =
        st.dat.readBytes (q + 20) (st.dat.getUint32 (q + 4))) :
    ∀ {fuel p n : Nat} {l : List Nat} {fp : Nat} {v : Option Value},
    chainOffsets st.dat p n = some l → (∀ x ∈ l, x ∈ C) →
    ShareableMap.findValue st p key hash true fuel = some (some (fp, v)) →
    ShareableMap.findValue st2 p key hash true fuel =
      some (some (fp, ShareableMap.readValueFromDataObject st2 fp)) := by
  intro fuel
  induction fuel with
  | zero => intro p n l fp v _ _ h; cases h
  | succ fuel ih =>
    intro p n l fp v hc hl h
    rw [ShareableMap.findValue] at h ⊢
    by_cases hp : p = 0
    · rw [if_pos hp] at h
      cases h
    · rw [if_neg hp] at h ⊢
      dsimp only at h ⊢
      obtain ⟨n0, rfl⟩ : ∃ m, n = m + 1 := by
        cases n with
        | zero => cases hc
        | succ m => exact ⟨m, rfl⟩
      obtain ⟨l0, hl0, rfl⟩ := chainOffsets_cons hc hp
      have hpC : p ∈ C := hl p (List.mem_cons_self _ _)
      obtain ⟨hnext, hhash, hklen, hkbytes⟩ := hC p hpC
      have hrh : ShareableMap.readHashFromDataObject st2 p =
          ShareableMap.readHashFromDataObject st p := hhash
      have hrk : ShareableMap.readKeyFromDataObject st2 p =
          ShareableMap.readKeyFromDataObject st p := by
        unfold ShareableMap.readKeyFromDataObject
        rw [hklen, hkbytes]
      rw [hrh, hrk]
      by_cases hcond : ShareableMap.readHashFromDataObject st p = hash ∧
          key = ShareableMap.readKeyFromDataObject st p
      · rw [if_pos hcond] at h ⊢
        cases h
        rfl
      · rw [if_neg hcond] at h ⊢
        rw [hnext]
        exact ih hl0 (fun x hx => hl x (List.mem_cons_of_mem _ hx)) h

theorem Buf.getUint32_congr8 {b2 b : Buf} {j : Nat}
    (h : ∀ k, k < 4 → b2.getUint8 (j + k) = b.getUint8 (j + k)) :
    b2.getUint32 j = b.getUint32 j := by
  unfold Buf.getUint32
  have h0 := h 0 (by omega)
  have h1 := h 1 (by omega)
  have h2 := h 2 (by omega)
  have h3 := h 3 (by omega)
  rw [Nat.add_zero] at h0
  rw [h0, h1, h2, h3]

/-- Bytes the in-place overwrite does not touch: everything outside the
value-length word, the encoder-id word and the value-byte window. -/
theorem inPlace_getUint8 (dat : Buf) (fp pk : Nat) (eb : List Nat) (v1 : Int) (v2 : Nat)
    {j : Nat}
    (hj : j < fp + 8 ∨ (fp + 12 ≤ j ∧ j < fp + 14) ∨ (fp + 16 ≤ j ∧ j < fp + 20 + pk) ∨
      fp + 20 + pk + eb.length ≤ j) :
    (((dat.writeBytes (20 + fp + pk) eb).setUint32 (fp + 8) v1).setUint16
        (fp + 14) v2).getUint8 j = dat.getUint8 j := by
  rw [Buf.getUint8_setUint16_ne _ _ (by omega), Buf.getUint8_setUint32_ne _ _ (by omega),
    Buf.getUint8_writeBytes_ne _ _ (by omega)]

/-- After `releaseWriteLock` on a shared map the lock word is 0, so a read
lock can immediately be taken. -/
theorem releaseWriteLock_lock (st2 : MapCore) :
    (ShareableMap.releaseWriteLock st2).shared = true →
    (ShareableMap.releaseWriteLock st2).idx.getUint32 12 ≠ 1 := by
  unfold ShareableMap.releaseWriteLock
  dsimp only
  split
  · rename_i hb
    intro hsh
    rw [hsh] at hb
    cases hb
  · intro _
    rw [Buf.getUint32_setUint32_same]
    decide

theorem acquireReadLock_ok {st2 : MapCore}
    (h12 : st2.shared = true → st2.idx.getUint32 12 ≠ 1) :
    ∃ st3, ShareableMap.acquireReadLock st2 = some st3 ∧
      st3.dat = st2.dat ∧ st3.idx.size = st2.idx.size ∧
      st3.idx.getUint32 0 = st2.idx.getUint32 0 ∧
      (∀ j, 24 ≤ j → st3.idx.getUint32 j = st2.idx.getUint32 j) := by
  unfold ShareableMap.acquireReadLock
  dsimp only
  cases hsh : st2.shared with
  | false =>
    simp only [Bool.not_false]
    rw [if_pos trivial]
    exact ⟨_, rfl, rfl, rfl, rfl, fun j hj => rfl⟩
  | true =>
    simp only [Bool.not_true]
    rw [if_neg (by simp)]
    rw [if_pos (h12 hsh)]
    by_cases hrc : st2.idx.getUint32 20 + 1 = 1
    · rw [if_pos hrc]
      refine ⟨_, rfl, rfl, rfl, ?_, ?_⟩
      · rw [Buf.getUint32_setUint32_ne _ _ (by omega),
          Buf.getUint32_setUint32_ne _ _ (by omega)]
      · intro j hj
        rw [Buf.getUint32_setUint32_ne _ _ (by omega),
          Buf.getUint32_setUint32_ne _ _ (by omega)]
    · rw [if_neg hrc]
      refine ⟨_, rfl, rfl, rfl, ?_, ?_⟩
      · rw [Buf.getUint32_setUint32_ne _ _ (by omega)]
      · intro j hj
        rw [Buf.getUint32_setUint32_ne _ _ (by omega)]

/-- `set` on an already-present key whose new value fits the allocated
value slot: the entry is overwritten in place, the stored size is
unchanged, and a subsequent `get` returns the new value. -/
theorem set_inplace_spec {st : MapCore} {key : Str} {value : Value} {fuel N : Nat}
    {st' : MapCore} {fp : Nat} {v0 : Option Value} {C : List Nat}
    (hfind : ShareableMap.findValue st
      (st.idx.getUint32 ((ShareableMap.computeHashAndBucket st key).2 + 24)) key
      (ShareableMap.computeHashAndBucket st key).1 true fuel = some (some (fp, v0)))
    (hchain : chainOffsets st.dat
      (st.idx.getUint32 ((ShareableMap.computeHashAndBucket st key).2 + 24)) N = some C)
    (hdisj : C.Pairwise (fun q q' =>
      q + 20 + st.dat.getUint32 (q + 4) + st.dat.getUint32 (q + 8) ≤ q' ∨
      q' + 20 + st.dat.getUint32 (q' + 4) + st.dat.getUint32 (q' + 8) ≤ q))
    (hvfits : ValueFits value)
    (hfit : ¬ maximumLengthValue value > st.dat.getUint32 (fp + 8))
    (hset : ShareableMap.set st key value fuel = some st') :
    st'.idx.getUint32 0 = st.idx.getUint32 0 ∧
    (ShareableMap.get st' key fuel).map Prod.fst = some (some value) := by
  unfold ShareableMap.set at hset
  simp only [Option.bind_eq_bind, Option.bind_eq_some] at hset
  obtain ⟨st1, hacq, hset⟩ := hset
  obtain ⟨rv, hfv, hset⟩ := hset
  obtain ⟨hsz1, hbiu1, hdat1, hidx01, hslot1, h8a, h16a⟩ := acquireWriteLock_pres hacq
  simp only [ShareableMap.stringifyElement] at hfv hset
  rw [computeHashAndBucket_congr hsz1 key] at hfv
  rw [hslot1 _ (by omega), findValue_dat_congr hdat1, hfind] at hfv
  cases hfv
  dsimp only at hset
  rw [hdat1] at hset
  rw [if_neg hfit] at hset
  cases hset
  -- facts about the overwritten entry
  have hfpC : fp ∈ C := findValue_mem hfind hchain
  have hle3 : (encodeValue value).length ≤ st.dat.getUint32 (fp + 8) := by
    have h1 := encodeValue_length_le value
    omega
  have heb32 : (encodeValue value).length < pow32 := by
    have h2 := Buf.getUint32_lt st.dat (fp + 8)
    omega
  have hstI : (ShareableMap.inPlaceOverwrite st1 fp value).dat =
      ((st.dat.writeBytes (20 + fp + st.dat.getUint32 (fp + 4))
        (encodeValue value)).setUint32 (fp + 8)
        ((encodeValue value).length : Int)).setUint16 (fp + 14) (valueEncoderId value) := by
    unfold ShareableMap.inPlaceOverwrite ShareableMap.setSpaceUsed
    dsimp only
    rw [hdat1]
  have hbytes : ∀ j : Nat, (j < fp + 8 ∨ (fp + 12 ≤ j ∧ j < fp + 14) ∨
      (fp + 16 ≤ j ∧ j < fp + 20 + st.dat.getUint32 (fp + 4)) ∨
      fp + 20 + st.dat.getUint32 (fp + 4) + (encodeValue value).length ≤ j) →
      (ShareableMap.inPlaceOverwrite st1 fp value).dat.getUint8 j = st.dat.getUint8 j := by
    intro j hj
    rw [hstI]
    exact inPlace_getUint8 _ _ _ _ _ _ hj
  have hCfacts : ∀ q ∈ C,
      (ShareableMap.inPlaceOverwrite st1 fp value).dat.getUint32 q = st.dat.getUint32 q ∧
      (ShareableMap.inPlaceOverwrite st1 fp value).dat.getUint32 (q + 16) =
        st.dat.getUint32 (q + 16) ∧
      (ShareableMap.inPlaceOverwrite st1 fp value).dat.getUint32 (q + 4) =
        st.dat.getUint32 (q + 4) ∧
      (ShareableMap.inPlaceOverwrite st1 fp value).dat.readBytes (q + 20)
        (st.dat.getUint32 (q + 4)) = st.dat.readBytes (q + 20) (st.dat.getUint32 (q + 4)) := by
    intro q hq
    by_cases hqfp : q = fp
    · subst hqfp
      refine ⟨Buf.getUint32_congr8 (fun k hk => hbytes _ (by omega)),
        Buf.getUint32_congr8 (fun k hk => hbytes _ (by omega)),
        Buf.getUint32_congr8 (fun k hk => hbytes _ (by omega)),
        Buf.readBytes_congr (fun k hk => hbytes _ (by omega))⟩
    · rcases List.Pairwise.forall (fun _ _ h => Or.symm h) hdisj hq hfpC hqfp with hsep | hsep
      · exact ⟨Buf.getUint32_congr8 (fun k hk => hbytes _ (by omega)),
          Buf.getUint32_congr8 (fun k hk => hbytes _ (by omega)),
          Buf.getUint32_congr8 (fun k hk => hbytes _ (by omega)),
          Buf.readBytes_congr (fun k hk => hbytes _ (by omega))⟩
      · exact ⟨Buf.getUint32_congr8 (fun k hk => hbytes _ (by omega)),
          Buf.getUint32_congr8 (fun k hk => hbytes _ (by omega)),
          Buf.getUint32_congr8 (fun k hk => hbytes _ (by omega)),
          Buf.readBytes_congr (fun k hk => hbytes _ (by omega))⟩
  have hklen2 := (hCfacts fp hfpC).2.2.1
  have hvlen2 : (ShareableMap.inPlaceOverwrite st1 fp value).dat.getUint32 (fp + 8) =
      (encodeValue value).length := by
    rw [hstI]
    rw [Buf.getUint32_setUint16_ne _ _ (by omega)]
    exact Buf.getUint32_setUint32_same_nat _ _ _ heb32
  have hid2 : (ShareableMap.inPlaceOverwrite st1 fp value).dat.getUint16 (fp + 14) =
      valueEncoderId value := by
    rw [hstI]
    exact Buf.getUint16_setUint16_same _ _ _ (valueEncoderId_lt value)
  have hvbytes : (ShareableMap.inPlaceOverwrite st1 fp value).dat.readBytes
      (fp + 20 + st.dat.getUint32 (fp + 4)) (encodeValue value).length = encodeValue value := by
    rw [hstI]
    have hcomm : fp + 20 + st.dat.getUint32 (fp + 4) =
        20 + fp + st.dat.getUint32 (fp + 4) := by omega
    rw [hcomm]
    have hpeel : (((st.dat.writeBytes (20 + fp + st.dat.getUint32 (fp + 4))
        (encodeValue value)).setUint32 (fp + 8)
        ((encodeValue value).length : Int)).setUint16 (fp + 14)
          (valueEncoderId value)).readBytes (20 + fp + st.dat.getUint32 (fp + 4))
          (encodeValue value).length =
        (st.dat.writeBytes (20 + fp + st.dat.getUint32 (fp + 4))
          (encodeValue value)).readBytes (20 + fp + st.dat.getUint32 (fp + 4))
          (encodeValue value).length := by
      apply Buf.readBytes_congr
      intro k hk
      rw [Buf.getUint8_setUint16_ne _ _ (by omega), Buf.getUint8_setUint32_ne _ _ (by omega)]
    rw [hpeel, Buf.readBytes_writeBytes, map_mod_id (encodeValue_bytes_lt hvfits)]
  have hval : ∀ s : MapCore, s.dat = (ShareableMap.inPlaceOverwrite st1 fp value).dat →
      ShareableMap.readValueFromDataObject s fp = some value := by
    intro s hs
    unfold ShareableMap.readValueFromDataObject
    dsimp only
    rw [hs, hklen2, hvlen2, hid2, hvbytes]
    exact decodeValueById_encodeValue hvfits
  -- index bookkeeping through the overwrite and the locks
  have hszI : (ShareableMap.inPlaceOverwrite st1 fp value).idx.size = st1.idx.size := rfl
  have hidx0I : (ShareableMap.inPlaceOverwrite st1 fp value).idx.getUint32 0 =
      st1.idx.getUint32 0 := by
    unfold ShareableMap.inPlaceOverwrite ShareableMap.setSpaceUsed
    dsimp only
    exact Buf.getUint32_setUint32_ne _ _ (by omega)
  have hslotI : ∀ j, 24 ≤ j → (ShareableMap.inPlaceOverwrite st1 fp value).idx.getUint32 j =
      st1.idx.getUint32 j := by
    intro j hj
    unfold ShareableMap.inPlaceOverwrite ShareableMap.setSpaceUsed
    dsimp only
    exact Buf.getUint32_setUint32_ne _ _ (by omega)
  obtain ⟨hszR, hbiuR, hdatR, hidx0R, hslotR, h8R, h16R⟩ :=
    releaseWriteLock_pres (ShareableMap.inPlaceOverwrite st1 fp value)
  constructor
  · rw [hidx0R, hidx0I, hidx01]
  · have hlock := releaseWriteLock_lock (ShareableMap.inPlaceOverwrite st1 fp value)
    obtain ⟨st3, hacq3, hdat3, hsz3, hidx03, hslot3⟩ := acquireReadLock_ok hlock
    have hdat3' : st3.dat = (ShareableMap.inPlaceOverwrite st1 fp value).dat :=
      hdat3.trans hdatR
    have hszchain : st3.idx.size = st.idx.size :=
      ((hsz3.trans hszR).trans hszI).trans hsz1
    have hslotchain : ∀ j, 24 ≤ j → st3.idx.getUint32 j = st.idx.getUint32 j := by
      intro j hj
      rw [hslot3 j hj, hslotR j hj, hslotI j hj, hslot1 j hj]
    have hCst3 : ∀ q ∈ C, st3.dat.getUint32 q = st.dat.getUint32 q ∧
        st3.dat.getUint32 (q + 16) = st.dat.getUint32 (q + 16) ∧
        st3.dat.getUint32 (q + 4) = st.dat.getUint32 (q + 4) ∧
        st3.dat.readBytes (q + 20) (st.dat.getUint32 (q + 4)) =
          st.dat.readBytes (q + 20) (st.dat.getUint32 (q + 4)) := by
      intro q hq
      obtain ⟨ha, hb, hc, hd⟩ := hCfacts q hq
      rw [hdat3']
      exact ⟨ha, hb, hc, hd⟩
    have hfv3 := findValue_preserved hCst3 hchain (fun x hx => hx) hfind
    unfold ShareableMap.get
    rw [hacq3]
    simp only [Option.bind_eq_bind, Option.some_bind]
    simp only [ShareableMap.stringifyElement]
    rw [computeHashAndBucket_congr hszchain key]
    rw [hslotchain _ (by omega)]
    rw [hfv3]
    simp only [Option.some_bind]
    simp only [Option.map_some']
    rw [hval st3 hdat3']

/-- C1.  The concrete insertion scenario: from the empty map, setting
`("a",1) ("b",2) ("c",3) ("a",4) ("d",5) ("a",6)` gives size 4,
`get "a" = 6` and key set `{a, b, c, d}`; overwriting the present key `a`
with a longer (string) value — the delete-and-reinsert path of `set` —
also keeps size 4 and returns the new value; and in general a `set` on an
already-present key whose encoded value fits the entry's allocated value
slot overwrites in place, leaves the stored size word unchanged, and makes
`get` return the new value (for a chain whose entries' extents are
pairwise disjoint and a value the chosen encoder represents exactly). -/
theorem claim_C1 :
    ((runC1.bind fun st => ShareableMap.size st).map Prod.fst = some 4 ∧
     (runC1.bind fun st => ShareableMap.get st [97] 50).map Prod.fst =
       some (some (.vnum (.intVal 6))) ∧
     ∃ ks, (runC1.bind fun st => ShareableMap.keys st 50).map Prod.fst = some ks ∧
       ks.Perm [[97], [98], [99], [100]]) ∧
    (((ShareableMap.set stC1 [97] (.vstr [120, 121, 122]) 50).bind
        (fun st => ShareableMap.size st)).map Prod.fst = some 4 ∧
     ((ShareableMap.set stC1 [97] (.vstr [120, 121, 122]) 50).bind
        (fun st => ShareableMap.get st [97] 50)).map Prod.fst =
       some (some (.vstr [120, 121, 122]))) ∧
    (∀ (st : MapCore) (key : Str) (value : Value) (fuel N : Nat) (st' : MapCore)
       (fp : Nat) (v0 : Option Value) (C : List Nat),
      ShareableMap.findValue st
        (st.idx.getUint32 ((ShareableMap.computeHashAndBucket st key).2 + 24)) key
        (ShareableMap.computeHashAndBucket st key).1 true fuel = some (some (fp, v0)) →
      chainOffsets st.dat
        (st.idx.getUint32 ((ShareableMap.computeHashAndBucket st key).2 + 24)) N = some C →
      C.Pairwise (fun q q' =>
        q + 20 + st.dat.getUint32 (q + 4) + st.dat.getUint32 (q + 8) ≤ q' ∨
        q' + 20 + st.dat.getUint32 (q' + 4) + st.dat.getUint32 (q' + 8) ≤ q) →
      ValueFits value →
      ¬ maximumLengthValue value > st.dat.getUint32 (fp + 8) →
      ShareableMap.set st key value fuel = some st' →
      st'.idx.getUint32 0 = st.idx.getUint32 0 ∧
      (ShareableMap.get st' key fuel).map Prod.fst = some (some value)) := by
  refine ⟨⟨by decide, by decide, [[97], [100], [98], [99]], by decide, by decide⟩,
    ⟨by decide, by decide⟩, ?_⟩
  intro st key value fuel N st' fp v0 C hfind hchain hdisj hvfits hfit hset
  exact set_inplace_spec hfind hchain hdisj hvfits hfit hset

/-- C1, witness: the general in-place clause applied to overwriting the
present key `a` of the concrete C1 map with the number 9. -/
theorem claim_C1_witness :
    (ShareableMap.set stC1 [97] (.vnum (.intVal 9)) 50).map
        (fun st' => st'.idx.getUint32 0) = some (stC1.idx.getUint32 0) ∧
    ((ShareableMap.set stC1 [97] (.vnum (.intVal 9)) 50).bind
        (fun st' => (ShareableMap.get st' [97] 50).map Prod.fst)) =
      some (some (.vnum (.intVal 9))) := by
  rcases hg : ShareableMap.set stC1 [97] (.vnum (.intVal 9)) 50 with _ | st'
  · have hs : (ShareableMap.set stC1 [97] (.vnum (.intVal 9)) 50).isSome = true := by decide
    rw [hg] at hs
    cases hs
  · have hc := claim_C1.2.2 stC1 [97] (.vnum (.intVal 9)) 50 50 st' 4
      (some (.vnum (.intVal 6))) [4]
      (by decide) (by decide) (by decide) (by decide) (by decide) hg
    constructor
    · simp only [Option.map_some']
      rw [hc.1]
    · simp only [Option.some_bind]
      exact hc.2

/-- C3.  The claim states that in every reachable map state the data
region's offset 0 is never used as an entry offset and `free_start ≥ 4`.
The code violates this through `clear` (src part_007 210), which resets
`free_start` to 0 instead of `INITIAL_DATA_OFFSET = 4` (as `reset`, src
part_007 814, does, and as the constants' own comments require): after
`set("a",1); clear()` the completed state has `free_start = 0`, and the
next `set("b",2)` writes its entry at offset 0, so the bucket pointer is
set to 0 — the empty-bucket sentinel — and the entry is lost: `size`
reports 1 while `get("b")` and `has("b")` find nothing. -/
theorem claim_C3 :
    (runClear.map fun st => ShareableMap.freeStart st) = some 0 ∧
    (runClearSet.map fun st => (st.idx.getUint32 0, ShareableMap.freeStart st)) =
      some (1, 26) ∧
    (runClearSet.bind fun st => (ShareableMap.get st [98] 50).map Prod.fst) = some none ∧
    (runClearSet.bind fun st => (ShareableMap.has st [98] 50).map Prod.fst) = some false := by
  refine ⟨by decide, by decide, by decide, by decide⟩

/-- C4.  The claim states that after a completed `defragment` the map has
`free_start = used_space + 4` and the array has `free_start = used_space`,
with observable contents, size and table unchanged.  The map side behaves
as claimed on the C1 state (`free_start 108 = used_space 104 + 4`, all
counters and `get` unchanged), but `ShareableArray.defragment` adds
`DATA_OBJECT_OFFSET` a second time to `currentObjectLength`, which already
includes it (src part_002 956 and 967): defragmenting the reachable
3-element array with `used_space = 27` yields `free_start = 51 =
used_space + 8·3`, not 27 — contradicting the function's own stated
purpose of storing all objects contiguously. -/
theorem claim_C4 :
    ((runC1.bind fun st => ShareableMap.defragment st 50).map fun st =>
        (ShareableMap.freeStart st, ShareableMap.spaceUsed st,
          st.idx.getUint32 0, ShareableMap.getBucketsInUse st, ShareableMap.buckets st)) =
      some (108, 104, 4, 4, 10) ∧
    ((runC1.bind fun st => ShareableMap.defragment st 50).bind fun st =>
        (ShareableMap.get st [97] 50).map Prod.fst) = some (some (.vnum (.intVal 6))) ∧
    ShareableArray.usedSpace arr3 = 27 ∧ ShareableArray.freeStart arr3 = 27 ∧
    ShareableArray.freeStart arr3defrag = 51 ∧ ShareableArray.usedSpace arr3defrag = 27 ∧
    ShareableArray.atIndex arr3defrag 0 = some (.vstr [97]) ∧
    ShareableArray.atIndex arr3defrag 1 = some (.vstr [98]) ∧
    ShareableArray.atIndex arr3defrag 2 = some (.vstr [99]) := by
  refine ⟨by decide, by decide, by decide, by decide, by decide, by decide, by decide,
    by decide, by decide⟩

/-- C7, counterexample.  The claim states that for both containers every
allocation falls back to a process-local `ArrayBuffer` when shared
allocation fails.  In an environment where `SharedArrayBuffer` fails and
`ArrayBuffer` succeeds, the map's own `allocateMemory` does fall back, but
the `TransferableDataStructure.allocateMemory` the array inherits
surfaces the capacity error immediately. -/
theorem claim_C7_cex :
    mapAllocateMemory ⟨false, true⟩ 2048 = .ok .localOnly ∧
    tdsAllocateMemory ⟨false, true⟩ 2048 =
      .error "Could not allocate memory. Tried to allocate 2048 bytes." := by
  exact ⟨rfl, rfl⟩

/-- C7, amended.  The map's `allocateMemory` prefers a shared backing,
falls back to a process-local one, and surfaces a capacity error only when
both fail; the `TransferableDataStructure.allocateMemory` inherited by the
array never attempts the fallback: it surfaces the error as soon as shared
allocation fails, whether or not a process-local allocation would
succeed. -/
theorem claim_C7 (env : AllocEnv) (byteSize : Nat) :
    (env.sharedOk = true →
      mapAllocateMemory env byteSize = .ok .shared ∧
      tdsAllocateMemory env byteSize = .ok .shared) ∧
    (env.sharedOk = false → env.localOk = true →
      mapAllocateMemory env byteSize = .ok .localOnly ∧
      tdsAllocateMemory env byteSize =
        .error ("Could not allocate memory. Tried to allocate " ++ toString byteSize ++
          " bytes.")) ∧
    (env.sharedOk = false → env.localOk = false →
      mapAllocateMemory env byteSize =
        .error ("Could not allocated memory. Tried to allocate " ++ toString byteSize ++
          " bytes.") ∧
      tdsAllocateMemory env byteSize =
        .error ("Could not allocate memory. Tried to allocate " ++ toString byteSize ++
          " bytes.")) := by
  obtain ⟨s, l⟩ := env
  refine ⟨fun hs => ?_, fun hs hl => ?_, fun hs hl => ?_⟩ <;>
    subst hs <;> first
      | exact ⟨rfl, rfl⟩
      | (subst hl; exact ⟨rfl, rfl⟩)

/-- C7, witness for the amended theorem at a concrete environment. -/
theorem claim_C7_witness :
    mapAllocateMemory ⟨false, true⟩ 64 = .ok .localOnly ∧
    tdsAllocateMemory ⟨false, true⟩ 64 =
      .error ("Could not allocate memory. Tried to allocate " ++ toString 64 ++
        " bytes.") :=
  (claim_C7 ⟨false, true⟩ 64).2.1 rfl rfl

/-- C10, counterexample.  The claim states that `fromTransferableState`
never allocates fresh regions for the state it adopts.  The caller's
options are spread over the `{expectedSize: 0, averageBytesPerValue: 0}`
defaults (src part_007 123-129), so options carrying sizing hints make the
inner constructor allocate regions (here 44 and 16 bytes) that
`setBuffers` immediately discards. -/
theorem claim_C10_cex :
    (ShareableMap.fromTransferableState envelope4 ⟨some 4, some 4⟩
        ⟨false, true⟩).toOption.map Prod.snd = some [44, 16] := by
  decide

/-- C10, amended.  Constructing a map with
`{expectedSize: 0, averageBytesPerValue: 0}` allocates neither region
(`reset` returns before allocating) and yields a map that owns no regions
until `setBuffers` installs some; `fromTransferableState` performs no
allocation provided the caller's options do not override the zero sizing
defaults, and it adopts the envelope's regions as they are; a non-map
envelope is rejected with a type error. -/
theorem claim_C10 :
    (∀ env : AllocEnv, ShareableMap.construct ⟨some 0, some 0⟩ env = .ok (none, [])) ∧
    (∀ (state : TransferableState) (opts : ShareableMapOptions) (env : AllocEnv),
      state.dataType = .map → opts.expectedSize = none → opts.averageBytesPerValue = none →
      ShareableMap.fromTransferableState state opts env =
        .ok (⟨state.indexBuffer, state.dataBuffer, state.indexShared, []⟩, [])) ∧
    (∀ (state : TransferableState) (opts : ShareableMapOptions) (env : AllocEnv),
      state.dataType = .array →
      ShareableMap.fromTransferableState state opts env =
        .error "Invalid data type! Trying to revive map from non-map state.") := by
  refine ⟨fun env => rfl, ?_, ?_⟩
  · intro state opts env hmap hes havg
    simp only [ShareableMap.fromTransferableState, hmap, hes, havg]
    rfl
  · intro state opts env harr
    simp only [ShareableMap.fromTransferableState, harr]
    rfl

/-- C10, witness for the amended theorem at the concrete envelope. -/
theorem claim_C10_witness :
    ShareableMap.fromTransferableState envelope4 ⟨none, none⟩ ⟨false, true⟩ =
      .ok (⟨envelope4.indexBuffer, envelope4.dataBuffer, envelope4.indexShared, []⟩, []) :=
  claim_C10.2.1 envelope4 ⟨none, none⟩ ⟨false, true⟩ rfl rfl rfl

end SMDS
